import Mathlib

/-!
Verification of the jj-ryu submission engine against its specification.

This file shallowly embeds the data model and the pure core of the three-phase
submission engine (analysis, planning, execution) of the jj-ryu repository:

* `src/submit/analysis.rs` — segment narrowing and submission analysis;
* `src/submit/plan.rs` — typed constraints, node registry, constraint
  resolution and the deterministic topological scheduler;
* `src/submit/execute.rs` — step execution with fatal/soft outcomes and the
  stack-comment reconciliation (manifest, base64 payload, body formatting);
* `src/graph/builder.rs` — projecting the trunk..@ commit range into segments;
* `src/cli/submit.rs` — scope refinement of an analysis (default/upto/only/stack).

Effectful collaborator calls (workspace pushes, platform API calls) are
modelled by explicit environments of pure functions, and the executor
additionally records a trace of the collaborator actions it performs, so that
"phase X was (not) reached" is observable.  Rust `HashMap`s that are used only
for keyed lookup are modelled as association lists with overwrite-on-insert
semantics.  Fields of source structs that no embedded function reads
(timestamps, author data of log entries) are carried as plain strings or
omitted where noted.
-/

namespace JjRyu

/-! ## Character-list string utilities

Rust string predicates (`contains`, `starts_with`, `ends_with`,
`to_lowercase`) modelled on `List Char`.  `to_lowercase` is modelled as
character-wise ASCII lowercasing, which agrees with Rust for the ASCII
bookmark names the heuristics target. -/

/-- Does `hay` start with `needle` (on character lists)? -/
def startsWithCs : List Char → List Char → Bool
  | _, [] => true
  | [], _ :: _ => false
  | c :: cs, d :: ds => c == d && startsWithCs cs ds

/-- Does `hay` contain `needle` as a contiguous substring? -/
def containsCs : List Char → List Char → Bool
  | [], needle => needle.isEmpty
  | c :: cs, needle => startsWithCs (c :: cs) needle || containsCs cs needle

/-- Does `hay` end with `needle`? -/
def endsWithCs (hay needle : List Char) : Bool :=
  startsWithCs hay.reverse needle.reverse

/-- String wrapper for `startsWithCs`. -/
def strStartsWith (hay needle : String) : Bool :=
  startsWithCs hay.data needle.data

/-- String wrapper for `containsCs`. -/
def strContains (hay needle : String) : Bool :=
  containsCs hay.data needle.data

/-- String wrapper for `endsWithCs`. -/
def strEndsWith (hay needle : String) : Bool :=
  endsWithCs hay.data needle.data

/-- Character-wise ASCII lowercasing, modelling Rust `str::to_lowercase` on
the ASCII names the narrowing heuristic is aimed at. -/
def strToLower (s : String) : String :=
  ⟨s.data.map Char.toLower⟩

/-! ## Association-list maps

`HashMap`s of the source that are used for keyed lookup are modelled as
association lists.  `mapInsert` has the `HashMap::insert` overwrite
semantics; `mapLookup` returns the unique binding of a key. -/

/-- Insert with overwrite: if the key is present, replace its value in place;
otherwise append the binding.  This mirrors `HashMap::insert`, keeping one
binding per key. -/
def mapInsert {α : Type} (m : List (String × α)) (k : String) (v : α) :
    List (String × α) :=
  if m.any (fun p => p.1 == k) then
    m.map (fun p => if p.1 == k then (k, v) else p)
  else
    m ++ [(k, v)]

/-- Lookup the binding of a key (first match). -/
def mapLookup {α : Type} (m : List (String × α)) (k : String) : Option α :=
  (m.find? (fun p => p.1 == k)).map (·.2)

/-- Does the map contain the key?  Mirrors `HashMap::contains_key`. -/
def mapContains {α : Type} (m : List (String × α)) (k : String) : Bool :=
  m.any (fun p => p.1 == k)

/-! ## Data model (`src/types.rs`) -/

/-- A jj bookmark (branch reference). -/
structure Bookmark where
  name : String
  commit_id : String
  change_id : String
  has_remote : Bool
  is_synced : Bool
deriving DecidableEq, Repr

/-- A commit/change entry from jj log.  The chrono timestamp fields
(`authored_at`, `committed_at`) are omitted: no embedded function reads
them. -/
structure LogEntry where
  commit_id : String
  change_id : String
  author_name : String
  author_email : String
  description_first_line : String
  parents : List String
  local_bookmarks : List String
  remote_bookmarks : List String
  is_working_copy : Bool
deriving DecidableEq, Repr

/-- A segment of changes belonging to one or more bookmarks. -/
structure BookmarkSegment where
  bookmarks : List Bookmark
  changes : List LogEntry
deriving DecidableEq, Repr

/-- A segment narrowed to a single bookmark. -/
structure NarrowedBookmarkSegment where
  bookmark : Bookmark
  changes : List LogEntry
deriving DecidableEq, Repr

/-- A stack of bookmarks from trunk to a leaf. -/
structure BranchStack where
  segments : List BookmarkSegment
deriving DecidableEq, Repr

/-- The complete change graph for a repository.  The `bookmarks` HashMap is
modelled as an association list. -/
structure ChangeGraph where
  bookmarks : List (String × Bookmark)
  stack : Option BranchStack
  excluded_bookmark_count : Nat
deriving DecidableEq, Repr

/-- The `Default` instance of `ChangeGraph` in the source: empty map, no
stack, zero exclusions. -/
def ChangeGraph.default : ChangeGraph :=
  { bookmarks := [], stack := none, excluded_bookmark_count := 0 }

/-- A pull request / merge request. -/
structure PullRequest where
  number : Nat
  html_url : String
  base_ref : String
  head_ref : String
  title : String
  node_id : Option String
  is_draft : Bool
deriving DecidableEq, Repr

/-- A comment on a pull request. -/
structure PrComment where
  id : Nat
  body : String
deriving DecidableEq, Repr

/-- The error enum of `src/error.rs`, restricted to the variants the embedded
functions construct. -/
inductive Error where
  | BookmarkNotFound (name : String)
  | NoStack (msg : String)
  | InvalidArgument (msg : String)
  | SchedulerCycle (message : String) (cycle_nodes : List String)
  | Platform (msg : String)
  | Internal (msg : String)
deriving DecidableEq, Repr

/-! ## Phase 1: analysis (`src/submit/analysis.rs`) -/

/-- Result of submission analysis. -/
structure SubmissionAnalysis where
  target_bookmark : String
  segments : List NarrowedBookmarkSegment
deriving DecidableEq, Repr

/-- Check if a bookmark name appears to be temporary
(`is_temporary_bookmark`). -/
def is_temporary_bookmark (name : String) : Bool :=
  let lower := strToLower name
  strContains lower "wip" || strContains lower "tmp" || strContains lower "temp"
    || strContains lower "backup" || strEndsWith lower "-old"
    || strEndsWith lower "_old" || strStartsWith lower "wip-"
    || strStartsWith lower "wip/"

/-- Rust `Iterator::min_by`: the first element that is minimal for the
comparison (a later element replaces the current candidate only when it is
strictly smaller). -/
def minByFirst {α : Type} (cmp : α → α → Ordering) : List α → Option α
  | [] => none
  | x :: xs => some (xs.foldl (fun acc y => if cmp y acc = .lt then y else acc) x)

/-- The comparison used by `select_bookmark_for_segment`: name length first,
then the name itself. -/
def bookmarkCmp (a b : Bookmark) : Ordering :=
  match compare a.name.length b.name.length with
  | .eq => compare a.name b.name
  | other => other

/-- Fallback bookmark used to model the (unreachable for builder-produced
segments) `bookmarks[0]` access on an empty candidate list. -/
def emptyBookmark : Bookmark :=
  { name := "", commit_id := "", change_id := "", has_remote := false,
    is_synced := false }

/-- Select a single bookmark from a segment using heuristics
(`select_bookmark_for_segment`): single candidate; else the requested target
if present; else prefer non-temporary candidates, shortest name, ties broken
alphabetically. -/
def select_bookmark_for_segment (segment : BookmarkSegment)
    (target : Option String) : Bookmark :=
  let bookmarks := segment.bookmarks
  if bookmarks.length = 1 then
    bookmarks.headD emptyBookmark
  else
    match target.bind (fun t => bookmarks.find? (fun b => b.name == t)) with
    | some b => b
    | none =>
      let candidates := bookmarks.filter (fun b => !is_temporary_bookmark b.name)
      let pool := if candidates.isEmpty then bookmarks else candidates
      match minByFirst bookmarkCmp pool with
      | some b => b
      | none => bookmarks.headD emptyBookmark

/-- Analyze what needs to be submitted for a given bookmark
(`analyze_submission`). -/
def analyze_submission (graph : ChangeGraph) (target_bookmark : Option String) :
    Except Error SubmissionAnalysis := do
  let stack ← match graph.stack with
    | some s => pure s
    | none => throw (Error.NoStack
        "No bookmarks found between trunk and working copy. Create a bookmark with: jj bookmark create <name>")
  if stack.segments.isEmpty then
    throw (Error.NoStack "Stack has no segments")
  let target_index ← match target_bookmark with
    | some target =>
      match stack.segments.findIdx? (fun seg =>
          seg.bookmarks.any (fun b => b.name == target)) with
      | some i => pure i
      | none => throw (Error.BookmarkNotFound target)
    | none => pure (stack.segments.length - 1)
  let relevant_segments := stack.segments.take (target_index + 1)
  let narrowed : List NarrowedBookmarkSegment := relevant_segments.map
    (fun segment =>
      { bookmark := select_bookmark_for_segment segment target_bookmark,
        changes := segment.changes })
  let actual_target := ((narrowed.getLast?).map (fun s => s.bookmark.name)).getD ""
  return { target_bookmark := actual_target, segments := narrowed }

/-- Get the expected base branch for a bookmark in a submission
(`get_base_branch`): the previous segment bookmark, or the default branch for
the first segment. -/
def get_base_branch (bookmark_name : String)
    (segments : List NarrowedBookmarkSegment) (default_branch : String) :
    Except Error String :=
  match segments.findIdx? (fun s => s.bookmark.name == bookmark_name) with
  | some 0 => .ok default_branch
  | some (i + 1) =>
    match segments[i]? with
    | some prev => .ok prev.bookmark.name
    | none => .error (Error.BookmarkNotFound bookmark_name)
  | none => .error (Error.BookmarkNotFound bookmark_name)

/-- Generate a PR title from the bookmark segment root commit
(`generate_pr_title`). -/
def generate_pr_title (bookmark_name : String)
    (segments : List NarrowedBookmarkSegment) : Except Error String :=
  match segments.find? (fun s => s.bookmark.name == bookmark_name) with
  | none => .error (Error.BookmarkNotFound bookmark_name)
  | some segment =>
    if segment.changes.isEmpty then .ok bookmark_name
    else
      match segment.changes.getLast? with
      | none => .ok bookmark_name
      | some root_commit =>
        if root_commit.description_first_line == "" then .ok bookmark_name
        else .ok root_commit.description_first_line

/-! ## Phase 2: planning (`src/submit/plan.rs`) -/

/-- Information about a PR that needs to be created. -/
structure PrToCreate where
  bookmark : Bookmark
  base_branch : String
  title : String
  draft : Bool
deriving DecidableEq, Repr

/-- Information about a PR that needs its base updated. -/
structure PrBaseUpdate where
  bookmark : Bookmark
  current_base : String
  expected_base : String
  pr : PullRequest
deriving DecidableEq, Repr

/-- Ordered execution step for a submission plan. -/
inductive ExecutionStep where
  | Push (bm : Bookmark)
  | UpdateBase (update : PrBaseUpdate)
  | CreatePr (create : PrToCreate)
  | PublishPr (pr : PullRequest)
deriving DecidableEq, Repr

/-- The `bookmark_name` accessor of `ExecutionStep`. -/
def ExecutionStep.bookmark_name : ExecutionStep → String
  | .Push bm => bm.name
  | .UpdateBase update => update.bookmark.name
  | .CreatePr create => create.bookmark.name
  | .PublishPr pr => pr.head_ref

/-- The `Display` implementation of `ExecutionStep`. -/
def stepToString : ExecutionStep → String
  | .Push bm => "push " ++ bm.name
  | .UpdateBase u =>
    "update " ++ u.bookmark.name ++ " (PR #" ++ toString u.pr.number ++ ") "
      ++ u.current_base ++ " → " ++ u.expected_base
  | .CreatePr c =>
    "create PR " ++ c.bookmark.name ++ " → " ++ c.base_branch ++ " ("
      ++ c.title ++ ")" ++ (if c.draft then " [draft]" else "")
  | .PublishPr pr => "publish PR #" ++ toString pr.number ++ " (" ++ pr.head_ref ++ ")"

/-- Dependency constraint between execution operations.  The source wraps the
endpoint names in newtypes (`PushRef`, `UpdateRef`, `CreateRef`); here each
field carries the name the newtype wraps, and each constructor fixes which
registry map each endpoint resolves against, preserving the typing
discipline. -/
inductive ExecutionConstraint where
  | PushOrder (parent child : String)
  | PushBeforeRetarget (base pr : String)
  | RetargetBeforePush (pr old_base : String)
  | PushBeforeCreate (push create : String)
  | CreateOrder (parent child : String)
deriving DecidableEq, Repr

/-- Registry mapping typed refs to node indices (`NodeRegistry`); the four
HashMaps are association lists with overwrite-on-insert. -/
structure NodeRegistry where
  push : List (String × Nat)
  update : List (String × Nat)
  create : List (String × Nat)
  publish : List (String × Nat)
deriving DecidableEq, Repr

/-- The empty registry (`NodeRegistry::default`). -/
def NodeRegistry.empty : NodeRegistry :=
  { push := [], update := [], create := [], publish := [] }

/-- Total number of registered operations (`NodeRegistry::len`), the sum of
the four map sizes. -/
def NodeRegistry.len (r : NodeRegistry) : Nat :=
  r.push.length + r.update.length + r.create.length + r.publish.length

/-- Resolve a constraint to concrete `(from, to)` indices
(`ExecutionConstraint::resolve`); `none` when either endpoint is not
registered. -/
def ExecutionConstraint.resolve (c : ExecutionConstraint) (r : NodeRegistry) :
    Option (Nat × Nat) :=
  match c with
  | .PushOrder parent child => do
    let f ← mapLookup r.push parent
    let t ← mapLookup r.push child
    pure (f, t)
  | .PushBeforeRetarget base pr => do
    let f ← mapLookup r.push base
    let t ← mapLookup r.update pr
    pure (f, t)
  | .RetargetBeforePush pr old_base => do
    let f ← mapLookup r.update pr
    let t ← mapLookup r.push old_base
    pure (f, t)
  | .PushBeforeCreate push create => do
    let f ← mapLookup r.push push
    let t ← mapLookup r.create create
    pure (f, t)
  | .CreateOrder parent child => do
    let f ← mapLookup r.create parent
    let t ← mapLookup r.create child
    pure (f, t)

/-- Internal node for dependency-aware scheduling (`ExecutionNode`). -/
structure ExecutionNode where
  step : ExecutionStep
  order : Nat
deriving DecidableEq, Repr

/-- Map bookmark name to stack position (`build_stack_index`). -/
def build_stack_index (segments : List NarrowedBookmarkSegment) :
    List (String × Nat) :=
  (segments.enum.map (fun p => (p.2.bookmark.name, p.1))).foldl
    (fun m p => mapInsert m p.1 p.2) []

/-- Collect all dependency constraints declaratively
(`collect_constraints`): stack-adjacent `PushOrder` and `CreateOrder`,
`PushBeforeRetarget` for every base update, `RetargetBeforePush` for swap
scenarios, `PushBeforeCreate` for every creation. -/
def collect_constraints (segments : List NarrowedBookmarkSegment)
    (prs_to_update_base : List PrBaseUpdate) (prs_to_create : List PrToCreate)
    (stack_index : List (String × Nat)) : List ExecutionConstraint :=
  let pairs := segments.zip segments.tail
  (pairs.map (fun w =>
    ExecutionConstraint.PushOrder w.1.bookmark.name w.2.bookmark.name))
  ++ (prs_to_update_base.map (fun update =>
    ExecutionConstraint.PushBeforeRetarget update.expected_base update.bookmark.name))
  ++ (prs_to_update_base.filterMap (fun update =>
    if update.expected_base ≠ update.current_base then
      match mapLookup stack_index update.current_base,
            mapLookup stack_index update.bookmark.name with
      | some current_pos, some bookmark_pos =>
        if bookmark_pos < current_pos then
          some (ExecutionConstraint.RetargetBeforePush update.bookmark.name
            update.current_base)
        else none
      | _, _ => none
    else none))
  ++ (prs_to_create.map (fun create =>
    ExecutionConstraint.PushBeforeCreate create.bookmark.name create.bookmark.name))
  ++ (pairs.map (fun w =>
    ExecutionConstraint.CreateOrder w.1.bookmark.name w.2.bookmark.name))

/-- The four registry maps, keyed per step kind. -/
inductive RegKind where
  | push
  | update
  | create
  | publish
deriving DecidableEq, Repr

/-- The registry map a step kind resolves against. -/
def NodeRegistry.mapOf (r : NodeRegistry) : RegKind → List (String × Nat)
  | .push => r.push
  | .update => r.update
  | .create => r.create
  | .publish => r.publish

/-- The registry kind a step registers under. -/
def ExecutionStep.kind : ExecutionStep → RegKind
  | .Push _ => .push
  | .UpdateBase _ => .update
  | .CreatePr _ => .create
  | .PublishPr _ => .publish

/-- Register a name at an index in the map of the given kind
(`register_push` / `register_update` / `register_create` /
`register_publish`). -/
def registerStep (r : NodeRegistry) (k : RegKind) (name : String) (i : Nat) :
    NodeRegistry :=
  match k with
  | .push => { r with push := mapInsert r.push name i }
  | .update => { r with update := mapInsert r.update name i }
  | .create => { r with create := mapInsert r.create name i }
  | .publish => { r with publish := mapInsert r.publish name i }

/-- State carried while materialising execution nodes; `order` mirrors the
source's running insertion-order counter. -/
structure NodeBuildState where
  nodes : List ExecutionNode
  order : Nat
  registry : NodeRegistry
deriving Repr

/-- Append one node at the next index and register its key name in the map
of its kind. -/
def pushNode (st : NodeBuildState) (step : ExecutionStep) (name : String) :
    NodeBuildState :=
  { nodes := st.nodes ++ [{ step := step, order := st.order }],
    order := st.order + 1,
    registry := registerStep st.registry step.kind name st.nodes.length }

/-- One iteration of the stack-order push-node loop: if the segment's
bookmark needs pushing, materialise and register its `Push` node. -/
def pushSegStep (bookmarks_needing_push : List Bookmark)
    (st : NodeBuildState) (seg : NarrowedBookmarkSegment) : NodeBuildState :=
  if (bookmarks_needing_push.map (·.name)).any (· == seg.bookmark.name) then
    let bookmark := ((bookmarks_needing_push.find?
      (fun b => b.name == seg.bookmark.name)).getD emptyBookmark)
    pushNode st (.Push bookmark) seg.bookmark.name
  else st

/-- One iteration of the safety pass: a push not covered by the segments is
materialised unless its name is already registered. -/
def pushSafetyStep (st : NodeBuildState) (bookmark : Bookmark) : NodeBuildState :=
  if mapContains st.registry.push bookmark.name then st
  else pushNode st (.Push bookmark) bookmark.name

/-- One iteration of the base-update node loop. -/
def updateNodeStep (st : NodeBuildState) (update : PrBaseUpdate) : NodeBuildState :=
  pushNode st (.UpdateBase update) update.bookmark.name

/-- One iteration of the stack-order create-node loop. -/
def createSegStep (prs_to_create : List PrToCreate)
    (st : NodeBuildState) (seg : NarrowedBookmarkSegment) : NodeBuildState :=
  if (prs_to_create.map (fun c => c.bookmark.name)).any (· == seg.bookmark.name) then
    let create := ((prs_to_create.find?
      (fun c => c.bookmark.name == seg.bookmark.name)).getD
      { bookmark := emptyBookmark, base_branch := "", title := "", draft := false })
    pushNode st (.CreatePr create) seg.bookmark.name
  else st

/-- One iteration of the publish-node loop. -/
def publishNodeStep (st : NodeBuildState) (pr : PullRequest) : NodeBuildState :=
  pushNode st (.PublishPr pr) pr.head_ref

/-- Build execution nodes for all operations (`build_execution_nodes`):
pushes in stack order (plus a safety pass for pushes outside the segments),
then base updates, then creations in stack order, then publishes. -/
def build_execution_nodes (segments : List NarrowedBookmarkSegment)
    (bookmarks_needing_push : List Bookmark)
    (prs_to_update_base : List PrBaseUpdate) (prs_to_create : List PrToCreate)
    (prs_to_publish : List PullRequest) : List ExecutionNode × NodeRegistry :=
  let st0 : NodeBuildState :=
    { nodes := [], order := 0, registry := NodeRegistry.empty }
  -- Push nodes in stack order
  let st1 := segments.foldl (pushSegStep bookmarks_needing_push) st0
  -- Any pushes not in segments (safety pass)
  let st2 := bookmarks_needing_push.foldl pushSafetyStep st1
  -- Update base nodes
  let st3 := prs_to_update_base.foldl updateNodeStep st2
  -- Create PR nodes in stack order
  let st4 := segments.foldl (createSegStep prs_to_create) st3
  -- Publish nodes
  let st5 := prs_to_publish.foldl publishNodeStep st4
  (st5.nodes, st5.registry)

/-- Resolve constraints to adjacency-list edges (`resolve_constraints`);
constraints with an unregistered endpoint are silently skipped, and duplicate
edges are suppressed.  (The `edges[from]` write is within bounds whenever the
registry indexes exactly the node list, which every theorem below assumes;
a `List.set` out of range is a no-op.) -/
def resolveStep (registry : NodeRegistry) (edges : List (List Nat))
    (c : ExecutionConstraint) : List (List Nat) :=
  match c.resolve registry with
  | some (f, t) =>
    let l := edges.getD f []
    if l.contains t then edges else edges.set f (l ++ [t])
  | none => edges

/-- Fold of `resolveStep` over the constraint list, starting from one empty
adjacency list per registered operation. -/
def resolve_constraints (constraints : List ExecutionConstraint)
    (registry : NodeRegistry) : List (List Nat) :=
  constraints.foldl (resolveStep registry) (List.replicate registry.len [])

/-- Increment one indegree slot. -/
def bumpAt (a : List Nat) (t : Nat) : List Nat :=
  a.set t (a.getD t 0 + 1)

/-- Indegree initialisation of the topological sort: one increment per edge
target. -/
def initIndeg (n : Nat) (edges : List (List Nat)) : List Nat :=
  edges.foldl (fun acc l => l.foldl bumpAt acc) (List.replicate n 0)

/-- The min-heap key of a node: `(insertion order, index)`. -/
def nodeKey (nodes : List ExecutionNode) (i : Nat) : Nat × Nat :=
  (((nodes.get? i).map (·.order)).getD 0, i)

/-- Pop of the `BinaryHeap<Reverse<(order, idx)>>`: the ready index with the
lexicographically least key. -/
def keyCmp (a b : Nat × Nat) : Ordering :=
  match compare a.1 b.1 with
  | .eq => compare a.2 b.2
  | other => other

/-- Pop of the binary heap of reversed keys: the ready index with the
lexicographically least key. -/
def selectMin (nodes : List ExecutionNode) (ready : List Nat) : Option Nat :=
  minByFirst (fun a b => keyCmp (nodeKey nodes a) (nodeKey nodes b)) ready

/-- One edge relaxation: decrement the target's indegree and enqueue it when
the indegree reaches zero. -/
def relaxEdge (st : List Nat × List Nat) (t : Nat) : List Nat × List Nat :=
  let d := st.1.getD t 0 - 1
  if d = 0 then (st.1.set t d, st.2 ++ [t]) else (st.1.set t d, st.2)

/-- The Kahn loop of `topo_sort_steps`: repeatedly pop the least ready node,
append it to the output, and relax its outgoing edges.  Each iteration
schedules exactly one node, so `nodes.length` fuel is exact; the loop
terminates early when the ready set drains.  Returns the scheduled index
sequence and the final indegrees. -/
def kahnLoop (nodes : List ExecutionNode) (edges : List (List Nat)) :
    Nat → List Nat → List Nat → List Nat → List Nat × List Nat
  | 0, indeg, _ready, sorted => (sorted, indeg)
  | fuel + 1, indeg, ready, sorted =>
    match selectMin nodes ready with
    | none => (sorted, indeg)
    | some u =>
      let st := (edges.getD u []).foldl relaxEdge (indeg, ready.erase u)
      kahnLoop nodes edges fuel st.1 st.2 (sorted ++ [u])

/-- Placeholder node for the (in-bounds-guarded) index accesses below. -/
def defaultNode : ExecutionNode :=
  { step := .Push emptyBookmark, order := 0 }

/-- The stuck-node descriptions collected on cycle detection: every node
whose indegree never reached zero. -/
def cycleNodeList (nodes : List ExecutionNode) (indeg : List Nat) : List String :=
  ((List.range nodes.length).filter (fun i => indeg.getD i 0 ≠ 0)).map
    (fun i => stepToString (((nodes.get? i).getD defaultNode).step))

/-- Topologically sort nodes respecting dependencies (`topo_sort_steps`):
Kahn's algorithm with a min-heap keyed by `(order, idx)`; if not all nodes
were scheduled, fail with a `SchedulerCycle` error carrying the stuck
nodes. -/
def kahnResult (nodes : List ExecutionNode) (edges : List (List Nat)) :
    List Nat × List Nat :=
  let indeg0 := initIndeg nodes.length edges
  let ready0 := (List.range nodes.length).filter (fun i => indeg0.getD i 0 == 0)
  kahnLoop nodes edges nodes.length indeg0 ready0 []

/-- Topologically sort nodes respecting dependencies (`topo_sort_steps`),
part two: package the loop result. -/
def topo_sort_steps (nodes : List ExecutionNode) (edges : List (List Nat)) :
    Except Error (List ExecutionStep) :=
  let res := kahnResult nodes edges
  if res.1.length = nodes.length then
    .ok (res.1.map (fun i => (((nodes.get? i).getD defaultNode).step)))
  else
    .error (.SchedulerCycle
      "Dependency cycle in execution plan - this is a bug in jj-ryu, please report it"
      (cycleNodeList nodes res.2))

/-- Build dependency-ordered execution steps (`build_execution_steps`):
collect constraints, build nodes and registry, resolve constraints to edges,
topologically sort. -/
def build_execution_steps (segments : List NarrowedBookmarkSegment)
    (bookmarks_needing_push : List Bookmark)
    (prs_to_update_base : List PrBaseUpdate) (prs_to_create : List PrToCreate)
    (prs_to_publish : List PullRequest) :
    Except Error (List ExecutionConstraint × List ExecutionStep) := do
  let stack_index := build_stack_index segments
  let constraints :=
    collect_constraints segments prs_to_update_base prs_to_create stack_index
  let nr := build_execution_nodes segments bookmarks_needing_push
    prs_to_update_base prs_to_create prs_to_publish
  let edges := resolve_constraints constraints nr.2
  let steps ← topo_sort_steps nr.1 edges
  return (constraints, steps)

/-- Submission plan (`SubmissionPlan`); `existing_prs` is the by-name PR map
as an association list. -/
structure SubmissionPlan where
  segments : List NarrowedBookmarkSegment
  constraints : List ExecutionConstraint
  execution_steps : List ExecutionStep
  existing_prs : List (String × PullRequest)
  remote : String
  default_branch : String
deriving DecidableEq, Repr

/-- Check if there is nothing to do (`SubmissionPlan::is_empty`). -/
def SubmissionPlan.is_empty (p : SubmissionPlan) : Bool :=
  p.execution_steps.isEmpty

/-- Create a submission plan (`create_submission_plan`).  The platform
collaborator's `find_existing_pr` is the function argument; a platform error
propagates. -/
def create_submission_plan (analysis : SubmissionAnalysis)
    (find_existing_pr : String → Except Error (Option PullRequest))
    (remote default_branch : String) : Except Error SubmissionPlan := do
  let segments := analysis.segments
  let bookmarks := segments.map (·.bookmark)
  -- Check for existing PRs
  let existing_prs ← bookmarks.foldlM (fun m bm => do
    match find_existing_pr bm.name with
    | .ok (some pr) => pure (mapInsert m bm.name pr)
    | .ok none => pure m
    | .error e => throw e) ([] : List (String × PullRequest))
  -- Collect raw operations (unordered)
  let bookmarks_needing_push :=
    bookmarks.filter (fun bm => !bm.has_remote || !bm.is_synced)
  let ops ← bookmarks.foldlM (fun (acc : List PrBaseUpdate × List PrToCreate) bm => do
    match mapLookup existing_prs bm.name with
    | some pr => do
      let expected_base ← get_base_branch bm.name segments default_branch
      if pr.base_ref ≠ expected_base then
        pure (acc.1 ++ [PrBaseUpdate.mk bm pr.base_ref expected_base pr], acc.2)
      else
        pure acc
    | none => do
      let base_branch ← get_base_branch bm.name segments default_branch
      let title ← generate_pr_title bm.name segments
      pure (acc.1, acc.2 ++ [PrToCreate.mk bm base_branch title false])) ([], [])
  let cs ← build_execution_steps segments bookmarks_needing_push ops.1 ops.2 []
  return { segments := segments, constraints := cs.1, execution_steps := cs.2,
           existing_prs := existing_prs, remote := remote,
           default_branch := default_branch }

/-! ## Stack-comment payload: UTF-8, base64, JSON

`format_stack_comment` embeds `base64(serde_json::to_string(manifest))`
between fixed sentinels.  The encoders below model the external `serde_json`
and `base64` crates at the byte level (bytes as `Nat` below 256); the
decoders model the §6.4 read-back direction of the spec, for which the
repository itself contains no code. -/

/-- UTF-8 encoding of one scalar value. -/
def utf8EncodeChar (c : Char) : List Nat :=
  let v := c.toNat
  if v < 0x80 then [v]
  else if v < 0x800 then [0xC0 + v / 64, 0x80 + v % 64]
  else if v < 0x10000 then [0xE0 + v / 4096, 0x80 + v / 64 % 64, 0x80 + v % 64]
  else [0xF0 + v / 262144, 0x80 + v / 4096 % 64, 0x80 + v / 64 % 64, 0x80 + v % 64]

/-- UTF-8 encoding of a character sequence. -/
def utf8EncodeCs : List Char → List Nat
  | [] => []
  | c :: cs => utf8EncodeChar c ++ utf8EncodeCs cs

/-- Build a character from a decoded scalar value, rejecting surrogates and
out-of-range values. -/
def mkScalar (v : Nat) : Option Char :=
  if h : v.isValidChar then some (Char.ofNatAux v h) else none

/-- Is a byte a UTF-8 continuation byte? -/
def isCont (b : Nat) : Bool := 0x80 ≤ b && b < 0xC0

/-- Modelled from the spec: UTF-8 decoding of a byte sequence (the read-back
direction of the §6.4 payload; the repository has no decoder of its own).
Sequence lengths are dispatched on the lead byte; continuation bytes are
checked and out-of-range or surrogate scalars rejected. -/
def utf8DecodeCs : List Nat → Option (List Char)
  | [] => some []
  | b :: rest =>
    if b < 0x80 then
      (mkScalar b).bind fun c =>
        (utf8DecodeCs rest).map fun cs => c :: cs
    else if b < 0xC0 then none
    else if b < 0xE0 then
      if 1 ≤ rest.length ∧ isCont (rest.getD 0 0) then
        (mkScalar ((b - 0xC0) * 64 + (rest.getD 0 0 - 0x80))).bind fun c =>
          (utf8DecodeCs (rest.drop 1)).map fun cs => c :: cs
      else none
    else if b < 0xF0 then
      if 2 ≤ rest.length ∧ isCont (rest.getD 0 0) ∧ isCont (rest.getD 1 0) then
        (mkScalar ((b - 0xE0) * 4096 + (rest.getD 0 0 - 0x80) * 64
            + (rest.getD 1 0 - 0x80))).bind fun c =>
          (utf8DecodeCs (rest.drop 2)).map fun cs => c :: cs
      else none
    else
      if 3 ≤ rest.length ∧ isCont (rest.getD 0 0) ∧ isCont (rest.getD 1 0)
          ∧ isCont (rest.getD 2 0) then
        (mkScalar ((b - 0xF0) * 262144 + (rest.getD 0 0 - 0x80) * 4096
            + (rest.getD 1 0 - 0x80) * 64 + (rest.getD 2 0 - 0x80))).bind
          fun c => (utf8DecodeCs (rest.drop 3)).map fun cs => c :: cs
      else none
termination_by bs => bs.length
decreasing_by
  all_goals simp [List.length_cons, List.length_drop]
  all_goals omega

/-- The standard base64 alphabet. -/
def b64Alphabet : List Char :=
  "ABCDEFGHIJKLMNOPQRSTUVWXYZabcdefghijklmnopqrstuvwxyz0123456789+/".data

/-- Character of a six-bit group. -/
def b64Char (k : Nat) : Char := b64Alphabet.getD k 'A'

/-- Index of a base64 character in the alphabet. -/
def b64Val (c : Char) : Option Nat := b64Alphabet.findIdx? (· == c)

/-- Standard base64 encoding with padding (the `base64` crate's `STANDARD`
engine), three bytes to four characters. -/
def base64Encode : List Nat → List Char
  | [] => []
  | [a] => [b64Char (a / 4), b64Char (a % 4 * 16), '=', '=']
  | [a, b] => [b64Char (a / 4), b64Char (a % 4 * 16 + b / 16), b64Char (b % 16 * 4), '=']
  | a :: b :: c :: rest =>
    b64Char (a / 4) :: b64Char (a % 4 * 16 + b / 16)
      :: b64Char (b % 16 * 4 + c / 64) :: b64Char (c % 64) :: base64Encode rest

/-- Modelled from the spec: base64 decoding (the read-back direction of the
§6.4 payload); four characters to three bytes, with `=` padding accepted
only at the very end. -/
def base64Decode : List Char → Option (List Nat)
  | [] => some []
  | c1 :: c2 :: c3 :: c4 :: rest => do
    let v1 ← b64Val c1
    let v2 ← b64Val c2
    if c3 = '=' then
      if c4 = '=' then
        if rest.isEmpty then pure [v1 * 4 + v2 / 16] else none
      else none
    else do
      let v3 ← b64Val c3
      if c4 = '=' then
        if rest.isEmpty then
          pure [v1 * 4 + v2 / 16, v2 % 16 * 16 + v3 / 4]
        else none
      else do
        let v4 ← b64Val c4
        let tail ← base64Decode rest
        pure ((v1 * 4 + v2 / 16) :: (v2 % 16 * 16 + v3 / 4)
          :: (v3 % 4 * 64 + v4) :: tail)
  | _ => none

/-- A single item in the stack manifest (`StackItem`). -/
structure StackItem where
  bookmark_name : String
  pr_url : String
  pr_number : Nat
  pr_title : String
deriving DecidableEq, Repr

/-- Stack comment data embedded in PR comments (`StackCommentData`). -/
structure StackCommentData where
  version : Nat
  stack : List StackItem
  base_branch : String
deriving DecidableEq, Repr

/-- Lowercase hex digit, as `serde_json` writes control-character escapes. -/
def jHexDigit (n : Nat) : Char := "0123456789abcdef".data.getD n '0'

/-- Decimal digit character. -/
def jDigit (n : Nat) : Char := Char.ofNat (48 + n)

/-- Decimal digits of a natural number, most significant first. -/
def natChars (n : Nat) : List Char :=
  if n < 10 then [jDigit n] else natChars (n / 10) ++ [jDigit (n % 10)]
decreasing_by exact Nat.div_lt_self (by omega) (by omega)

/-- The JSON escape of one character, matching `serde_json`: quote and
backslash escaped, named escapes for the five short control characters,
`\u00xx` for the remaining control characters, everything else verbatim. -/
def jEscapeChar (c : Char) : List Char :=
  if c = '"' then ['\\', '"']
  else if c = '\\' then ['\\', '\\']
  else if c.toNat = 8 then ['\\', 'b']
  else if c.toNat = 9 then ['\\', 't']
  else if c.toNat = 10 then ['\\', 'n']
  else if c.toNat = 12 then ['\\', 'f']
  else if c.toNat = 13 then ['\\', 'r']
  else if c.toNat < 32 then
    ['\\', 'u', '0', '0', jHexDigit (c.toNat / 16), jHexDigit (c.toNat % 16)]
  else [c]

/-- JSON escape of a character sequence. -/
def jEscapeCs : List Char → List Char
  | [] => []
  | c :: cs => jEscapeChar c ++ jEscapeCs cs

/-- A JSON string literal. -/
def renderJString (s : String) : List Char :=
  '"' :: jEscapeCs s.data ++ ['"']

/-- The compact `serde_json` serialization of a `StackItem`, fields in
declaration order. -/
def renderItem (it : StackItem) : List Char :=
  "\x7b\"bookmark_name\":".data ++ renderJString it.bookmark_name
    ++ ",\"pr_url\":".data ++ renderJString it.pr_url
    ++ ",\"pr_number\":".data ++ natChars it.pr_number
    ++ ",\"pr_title\":".data ++ renderJString it.pr_title
    ++ "\x7d".data

/-- Comma-separated serialization of the stack array elements. -/
def renderItems : List StackItem → List Char
  | [] => []
  | [it] => renderItem it
  | it :: rest => renderItem it ++ ',' :: renderItems rest

/-- The compact `serde_json` serialization of a `StackCommentData`, fields in
declaration order (`serde_json::to_string`). -/
def renderData (d : StackCommentData) : List Char :=
  "\x7b\"version\":".data ++ natChars d.version
    ++ ",\"stack\":[".data ++ renderItems d.stack
    ++ "],\"base_branch\":".data ++ renderJString d.base_branch
    ++ "\x7d".data

/-- Strip an expected literal off the front of the input. -/
def stripPre : List Char → List Char → Option (List Char)
  | [], cs => some cs
  | _ :: _, [] => none
  | p :: ps, c :: cs => if c = p then stripPre ps cs else none

/-- Is the character a decimal digit? -/
def isDigitCh (c : Char) : Bool := 48 ≤ c.toNat && c.toNat ≤ 57

/-- Modelled from the spec: parse a JSON natural number (greedy digit
run). -/
def parseNatCs (cs : List Char) : Option (Nat × List Char) :=
  let digits := cs.takeWhile isDigitCh
  if digits.isEmpty then none
  else some (digits.foldl (fun a c => a * 10 + (c.toNat - 48)) 0,
    cs.dropWhile isDigitCh)

/-- Value of a lowercase/uppercase hex digit character. -/
def hexVal (c : Char) : Option Nat :=
  if 48 ≤ c.toNat ∧ c.toNat ≤ 57 then some (c.toNat - 48)
  else if 97 ≤ c.toNat ∧ c.toNat ≤ 102 then some (c.toNat - 87)
  else if 65 ≤ c.toNat ∧ c.toNat ≤ 70 then some (c.toNat - 55)
  else none

/-- Modelled from the spec: the single-character JSON escapes `serde_json`
understands (short named escapes and the two mandatory ones). -/
def jUnescape1 (e : Char) : Option Char :=
  if e = '"' then some '"'
  else if e = '\\' then some '\\'
  else if e = '/' then some '/'
  else if e = 'b' then some (Char.ofNat 8)
  else if e = 't' then some (Char.ofNat 9)
  else if e = 'n' then some (Char.ofNat 10)
  else if e = 'f' then some (Char.ofNat 12)
  else if e = 'r' then some (Char.ofNat 13)
  else none

/-- Modelled from the spec: decode one escape sequence after the backslash,
returning the character and the remaining input (`\u`-escapes read four hex
digits). -/
def parseJEsc1 : List Char → Option (Char × List Char)
  | [] => none
  | e :: rest =>
    if e = 'u' then
      if 4 ≤ rest.length then
        (hexVal (rest.getD 0 ' ')).bind fun v1 =>
        (hexVal (rest.getD 1 ' ')).bind fun v2 =>
        (hexVal (rest.getD 2 ' ')).bind fun v3 =>
        (hexVal (rest.getD 3 ' ')).bind fun v4 =>
        (mkScalar (v1 * 4096 + v2 * 256 + v3 * 16 + v4)).map fun c =>
          (c, rest.drop 4)
      else none
    else (jUnescape1 e).map fun c => (c, rest)

/-- Modelled from the spec: parse the body of a JSON string literal after the
opening quote, handling the escape forms `serde_json` emits; returns the
content and the input after the closing quote.  The fuel bounds the number
of characters consumed. -/
def parseJSB : Nat → List Char → Option (List Char × List Char)
  | _, [] => none
  | 0, _ :: _ => none
  | fuel + 1, c :: rest =>
    if c = '"' then some ([], rest)
    else if c = '\\' then
      Option.bind (parseJEsc1 rest) (fun er =>
        Option.map (fun p => (er.1 :: p.1, p.2)) (parseJSB fuel er.2))
    else Option.map (fun p => (c :: p.1, p.2)) (parseJSB fuel rest)

/-- Parse a JSON string body with the input length as fuel (each step
consumes at least one character). -/
def parseJStringBody (cs : List Char) : Option (List Char × List Char) :=
  parseJSB cs.length cs

/-- Parse a JSON string literal including the opening quote. -/
def parseJString (cs : List Char) : Option (String × List Char) :=
  match cs with
  | '"' :: rest => (parseJStringBody rest).map (fun p => (⟨p.1⟩, p.2))
  | _ => none

/-- Parse one serialized `StackItem`. -/
def parseItem (cs : List Char) : Option (StackItem × List Char) := do
  let cs ← stripPre "\x7b\"bookmark_name\":".data cs
  let pn ← parseJString cs
  let cs ← stripPre ",\"pr_url\":".data pn.2
  let pu ← parseJString cs
  let cs ← stripPre ",\"pr_number\":".data pu.2
  let pr ← parseNatCs cs
  let cs ← stripPre ",\"pr_title\":".data pr.2
  let pt ← parseJString cs
  let cs ← stripPre "\x7d".data pt.2
  pure ({ bookmark_name := pn.1, pr_url := pu.1, pr_number := pr.1,
          pr_title := pt.1 }, cs)

/-- Parse the comma-separated stack array up to the closing bracket; the fuel
bounds the number of elements. -/
def parseItemsAux : Nat → List Char → Option (List StackItem × List Char)
  | 0, cs => if cs.head? = some ']' then some ([], cs.drop 1) else none
  | fuel + 1, cs =>
    if cs.head? = some ']' then some ([], cs.drop 1)
    else
      (parseItem cs).bind fun p =>
        if p.2.head? = some ',' then
          (parseItemsAux fuel (p.2.drop 1)).map fun q => (p.1 :: q.1, q.2)
        else if p.2.head? = some ']' then some ([p.1], p.2.drop 1)
        else none

/-- Modelled from the spec: parse the canonical serialization of a
`StackCommentData` back (the §6.4 read-back direction; JSON fields in the
order the writer emits them), requiring the input to be consumed
entirely. -/
def parseData (cs : List Char) : Option StackCommentData := do
  let cs ← stripPre "\x7b\"version\":".data cs
  let v ← parseNatCs cs
  let cs ← stripPre ",\"stack\":[".data v.2
  let items ← parseItemsAux (cs.length + 1) cs
  let cs ← stripPre ",\"base_branch\":".data items.2
  let bb ← parseJString cs
  let cs ← stripPre "\x7d".data bb.2
  if cs.isEmpty then
    pure { version := v.1, stack := items.1, base_branch := bb.1 }
  else none

/-! ## Phase 3: execution (`src/submit/execute.rs`) -/

/-- The comment sentinel `COMMENT_DATA_PREFIX` of the source. -/
def commentDataHead : String := "<!--- JJ-RYU_STACK: "

/-- The legacy sentinel `COMMENT_DATA_PREFIX_OLD` recognised on lookup. -/
def commentDataHeadOld : String := "<!--- JJ-STACK_INFO: "

/-- The comment sentinel `COMMENT_DATA_POSTFIX` of the source. -/
def commentDataTail : String := " --->"

/-- The marker glyph `STACK_COMMENT_THIS_PR` for the current PR. -/
def stackCommentThisPr : String := "👈"

/-- Result of submission execution (`SubmissionResult`). -/
structure SubmissionResult where
  success : Bool
  created_prs : List PullRequest
  updated_prs : List PullRequest
  pushed_bookmarks : List String
  errors : List String
deriving DecidableEq, Repr

/-- A fresh successful result (`SubmissionResult::new`). -/
def SubmissionResult.new : SubmissionResult :=
  { success := true, created_prs := [], updated_prs := [],
    pushed_bookmarks := [], errors := [] }

/-- Record a fatal error and mark as failed (`SubmissionResult::fail`). -/
def SubmissionResult.fail (r : SubmissionResult) (e : String) : SubmissionResult :=
  { r with errors := r.errors ++ [e], success := false }

/-- Record a non-fatal error (`SubmissionResult::soft_fail`). -/
def SubmissionResult.soft_fail (r : SubmissionResult) (e : String) : SubmissionResult :=
  { r with errors := r.errors ++ [e] }

/-- Outcome of executing a single step (`StepOutcome`). -/
inductive StepOutcome where
  | Success (tracked : Option (String × PullRequest))
  | FatalError (msg : String)
  | SoftError (msg : String)
deriving DecidableEq, Repr

/-- The workspace and platform collaborators of the executor, as pure
functions (§6.1–§6.2 interfaces). -/
structure ExecEnv where
  git_push : String → String → Except String Unit
  update_pr_base : Nat → String → Except String PullRequest
  create_pr_with_options : String → String → String → Bool → Except String PullRequest
  publish_pr : Nat → Except String PullRequest
  list_pr_comments : Nat → Except String (List PrComment)
  create_pr_comment : Nat → String → Except String Unit
  update_pr_comment : Nat → Nat → String → Except String Unit

/-- One recorded collaborator call of the executor. -/
inductive Action where
  | push (bookmark remote : String)
  | updateBase (pr_number : Nat) (new_base : String)
  | createPr (head base title : String) (draft : Bool)
  | publishPr (pr_number : Nat)
  | listComments (pr_number : Nat)
  | createComment (pr_number : Nat) (body : String)
  | updateComment (pr_number : Nat) (comment_id : Nat) (body : String)
deriving DecidableEq, Repr

/-- Execute a push step (`execute_push`): fatal on error. -/
def execute_push (env : ExecEnv) (bookmark : Bookmark) (remote : String) :
    StepOutcome :=
  match env.git_push bookmark.name remote with
  | .ok _ => .Success none
  | .error e => .FatalError ("Failed to push " ++ bookmark.name ++ ": " ++ e)

/-- Execute an update-base step (`execute_update_base`): fatal on error. -/
def execute_update_base (env : ExecEnv) (update : PrBaseUpdate) : StepOutcome :=
  match env.update_pr_base update.pr.number update.expected_base with
  | .ok updated_pr => .Success (some (update.bookmark.name, updated_pr))
  | .error e =>
    .FatalError ("Failed to update PR base for " ++ update.bookmark.name ++ ": " ++ e)

/-- Execute a create-PR step (`execute_create_pr`): fatal on error. -/
def execute_create_pr (env : ExecEnv) (create : PrToCreate) : StepOutcome :=
  match env.create_pr_with_options create.bookmark.name create.base_branch
      create.title create.draft with
  | .ok pr => .Success (some (create.bookmark.name, pr))
  | .error e =>
    .FatalError ("Failed to create PR for " ++ create.bookmark.name ++ ": " ++ e)

/-- Execute a publish step (`execute_publish_pr`): soft failure on error. -/
def execute_publish_pr (env : ExecEnv) (pr : PullRequest) : StepOutcome :=
  match env.publish_pr pr.number with
  | .ok updated_pr => .Success (some (pr.head_ref, updated_pr))
  | .error e => .SoftError ("Failed to publish PR #" ++ toString pr.number ++ ": " ++ e)

/-- Dispatch one step to its collaborator call (`execute_step`), also naming
the action the call performs. -/
def execute_step (env : ExecEnv) (remote : String) (step : ExecutionStep) :
    StepOutcome × Action :=
  match step with
  | .Push bookmark => (execute_push env bookmark remote, .push bookmark.name remote)
  | .UpdateBase update =>
    (execute_update_base env update, .updateBase update.pr.number update.expected_base)
  | .CreatePr create =>
    (execute_create_pr env create,
     .createPr create.bookmark.name create.base_branch create.title create.draft)
  | .PublishPr pr => (execute_publish_pr env pr, .publishPr pr.number)

/-- Executor loop state: the accumulated result, the running
bookmark-to-PR map, the action trace, and whether a fatal error stopped the
loop. -/
structure ExecLoopState where
  result : SubmissionResult
  prMap : List (String × PullRequest)
  trace : List Action
  stopped : Bool
deriving Repr

/-- Process the outcome of one step (the match inside the
`execute_submission` step loop). -/
def applyOutcome (step : ExecutionStep) (outcome : StepOutcome)
    (st : ExecLoopState) : ExecLoopState :=
  match outcome with
  | .Success (some (bookmark, pr)) =>
    let result :=
      match step with
      | .CreatePr _ => { st.result with created_prs := st.result.created_prs ++ [pr] }
      | .UpdateBase _ => { st.result with updated_prs := st.result.updated_prs ++ [pr] }
      | .PublishPr _ => { st.result with updated_prs := st.result.updated_prs ++ [pr] }
      | .Push _ => st.result
    { st with result := result, prMap := mapInsert st.prMap bookmark pr }
  | .Success none =>
    match step with
    | .Push bm =>
      { st with result :=
          { st.result with pushed_bookmarks := st.result.pushed_bookmarks ++ [bm.name] } }
    | _ => st
  | .FatalError msg => { st with result := st.result.fail msg, stopped := true }
  | .SoftError msg => { st with result := st.result.soft_fail msg }

/-- The step loop of `execute_submission`; a fatal outcome stops the loop
(the source returns early). -/
def runSteps (env : ExecEnv) (remote : String) :
    List ExecutionStep → ExecLoopState → ExecLoopState
  | [], st => st
  | step :: rest, st =>
    if st.stopped then st
    else
      let oa := execute_step env remote step
      runSteps env remote rest
        (applyOutcome step oa.1 { st with trace := st.trace ++ [oa.2] })

/-- Build stack comment data from the plan and PR map
(`build_stack_comment_data`): one item per plan segment that has a PR, in
stack order, version 1, base branch from the plan. -/
def build_stack_comment_data (plan : SubmissionPlan)
    (bookmark_to_pr : List (String × PullRequest)) : StackCommentData :=
  { version := 1,
    stack := plan.segments.filterMap (fun seg =>
      (mapLookup bookmark_to_pr seg.bookmark.name).map (fun pr =>
        { bookmark_name := seg.bookmark.name, pr_url := pr.html_url,
          pr_number := pr.number, pr_title := pr.title })),
    base_branch := plan.default_branch }

/-- Format the stack comment body for a PR (`format_stack_comment`): the
sentinel-framed base64 payload, one line per stack item newest first with the
current PR bolded and marked, the base branch, and the attribution line. -/
def format_stack_comment (data : StackCommentData) (current_idx : Nat) : String :=
  let encoded : String := ⟨base64Encode (utf8EncodeCs (renderData data))⟩
  let reversed_idx := data.stack.length - 1 - current_idx
  let lines := (data.stack.reverse.enum).map (fun p =>
    if p.1 = reversed_idx then
      "* **" ++ p.2.pr_title ++ " #" ++ toString p.2.pr_number ++ " "
        ++ stackCommentThisPr ++ "**\n"
    else
      "* " ++ p.2.pr_title ++ " #" ++ toString p.2.pr_number ++ "\n")
  commentDataHead ++ encoded ++ commentDataTail ++ "\n"
    ++ String.join lines
    ++ "* `" ++ data.base_branch ++ "`\n"
    ++ "\n---\nThis stack of pull requests is managed by [jj-ryu](https://github.com/dmmulroy/jj-ryu)."

/-- Create or update the stack comment on one PR
(`create_or_update_stack_comment`): list the PR's comments, update the first
one carrying either sentinel, else create a new one.  Returns the outcome
and the collaborator actions performed. -/
def create_or_update_stack_comment (env : ExecEnv) (data : StackCommentData)
    (current_idx : Nat) (pr_number : Nat) : Except String Unit × List Action :=
  let body := format_stack_comment data current_idx
  match env.list_pr_comments pr_number with
  | .error e => (.error e, [.listComments pr_number])
  | .ok comments =>
    match comments.find? (fun c =>
        strContains c.body commentDataHead || strContains c.body commentDataHeadOld) with
    | some comment =>
      (env.update_pr_comment pr_number comment.id body,
       [.listComments pr_number, .updateComment pr_number comment.id body])
    | none =>
      (env.create_pr_comment pr_number body,
       [.listComments pr_number, .createComment pr_number body])

/-- The stack-comment reconciliation phase of `execute_submission`: reconcile
each stack item's PR in order; each per-PR failure is soft. -/
def reconcilePhase (env : ExecEnv) (data : StackCommentData)
    (st : ExecLoopState) : ExecLoopState :=
  (data.stack.enum).foldl (fun s p =>
    let r := create_or_update_stack_comment env data p.1 p.2.pr_number
    let s2 := { s with trace := s.trace ++ r.2 }
    match r.1 with
    | .ok _ => s2
    | .error e =>
      { s2 with result := (s2.result.soft_fail
          ("Failed to update stack comment for " ++ p.2.bookmark_name ++ ": " ++ e)) }) st

/-- Execute a submission plan (`execute_submission`): run the ordered steps,
stopping at the first fatal failure (returning `Ok` with a failed result and
no comment reconciliation); otherwise reconcile the stack comment on every
PR in the manifest.  In a dry run nothing is executed.  The returned trace
records every collaborator call. -/
def execute_submission (plan : SubmissionPlan) (env : ExecEnv) (dry_run : Bool) :
    Except Error (SubmissionResult × List Action) :=
  if dry_run then .ok (SubmissionResult.new, [])
  else
    let st0 : ExecLoopState :=
      { result := SubmissionResult.new, prMap := plan.existing_prs,
        trace := [], stopped := false }
    let st := runSteps env plan.remote plan.execution_steps st0
    if st.stopped then .ok (st.result, st.trace)
    else
      let final :=
        if st.prMap.isEmpty then st
        else reconcilePhase env (build_stack_comment_data plan st.prMap) st
      .ok (final.result, final.trace)

/-- Modelled from the spec (§6.4): decode a stack-comment body back into its
manifest — take the payload between the fixed comment sentinels, base64
decode it, and parse the JSON.  (The repository only writes this payload; the
read-back direction exists solely in the spec.) -/
def decodeStackComment (body : String) : Option StackCommentData := do
  let tail ← stripPre commentDataHead.data body.data
  let payload := tail.takeWhile (fun c => c ≠ ' ')
  let rest := tail.dropWhile (fun c => c ≠ ' ')
  if startsWithCs rest commentDataTail.data then do
    let bytes ← base64Decode payload
    let cs ← utf8DecodeCs bytes
    parseData cs
  else none

/-! ## Change graph builder (`src/graph/builder.rs`)

The workspace collaborator calls (`resolve_revset("trunk()..@")`,
`local_bookmarks()`) are modelled by passing their results as arguments. -/

/-- Build segments from a list of changes in newest-first order
(`build_segments_from_changes`): accumulate commits and close a segment at
every commit carrying resolvable local bookmarks; unbookmarked commits at
the base are dropped; the result is reversed into trunk-to-leaf order. -/
def build_segments_from_changes (changes : List LogEntry)
    (all_bookmarks : List Bookmark) :
    List BookmarkSegment × List (String × Bookmark) :=
  let bookmarks_by_name :=
    all_bookmarks.foldl (fun m b => mapInsert m b.name b) []
  let acc := changes.foldl
    (fun (acc : List BookmarkSegment × List LogEntry) change =>
      let current_changes := acc.2 ++ [change]
      if change.local_bookmarks.isEmpty then (acc.1, current_changes)
      else
        let segment_bookmarks :=
          change.local_bookmarks.filterMap (mapLookup bookmarks_by_name)
        if segment_bookmarks.isEmpty then (acc.1, current_changes)
        else
          (acc.1 ++ [{ bookmarks := segment_bookmarks, changes := current_changes }],
           []))
    ([], [])
  (acc.1.reverse, bookmarks_by_name)

/-- Build a change graph from the workspace state (`build_change_graph`):
empty range gives the default graph; a multi-parent commit anywhere in the
range gives the sentinel graph (no bookmarks, no stack,
`excluded_bookmark_count = 1`); otherwise segments are built, with `stack`
present iff at least one bookmarked segment exists. -/
def build_change_graph (changes : List LogEntry)
    (all_bookmarks : List Bookmark) : ChangeGraph :=
  if changes.isEmpty then ChangeGraph.default
  else if changes.any (fun change => 1 < change.parents.length) then
    { bookmarks := [], stack := none, excluded_bookmark_count := 1 }
  else
    let sb := build_segments_from_changes changes all_bookmarks
    if sb.1.isEmpty then
      { bookmarks := sb.2, stack := none, excluded_bookmark_count := 0 }
    else
      { bookmarks := sb.2, stack := some { segments := sb.1 },
        excluded_bookmark_count := 0 }

/-! ## CLI scope refinement (`src/cli/submit.rs`) -/

/-- Scope of bookmark submission (`SubmitScope`). -/
inductive SubmitScope where
  | Default
  | Upto
  | Only
  | Stack
deriving DecidableEq, Repr

/-- Build submission analysis based on options (`build_analysis`): the base
analysis from `analyze_submission`, refined by the scope.  The platform's
`find_existing_pr` (used only by the `Only` scope) is the function argument.
The two `expect` panics of the `Stack` arm (unreachable behind the CLI's
stack-presence check) are modelled as `Internal` errors. -/
def build_analysis (graph : ChangeGraph) (bookmark : Option String)
    (scope : SubmitScope) (upto_bookmark : Option String)
    (find_existing_pr : String → Except Error (Option PullRequest)) :
    Except Error SubmissionAnalysis := do
  let analysis ← analyze_submission graph bookmark
  let target := analysis.target_bookmark
  match scope with
  | .Default => pure analysis
  | .Upto => do
    let upto ← match upto_bookmark with
      | some u => pure u
      | none => throw (Error.InvalidArgument "--upto requires a bookmark name")
    match analysis.segments.findIdx? (fun s => s.bookmark.name == upto) with
    | some idx =>
      pure { target_bookmark := upto, segments := analysis.segments.take (idx + 1) }
    | none =>
      throw (Error.InvalidArgument ("Bookmark '" ++ upto ++ "' not found in stack"))
  | .Only => do
    let target_idx ← match analysis.segments.findIdx?
        (fun s => s.bookmark.name == target) with
      | some i => pure i
      | none => throw (Error.InvalidArgument
          ("Target bookmark '" ++ target ++ "' not found in analysis"))
    if 0 < target_idx then
      let parent_bookmark :=
        (((analysis.segments.get? (target_idx - 1)).map
          (fun s => s.bookmark.name)).getD "")
      match find_existing_pr parent_bookmark with
      | .error e => throw e
      | .ok none =>
        throw (Error.InvalidArgument
          ("Cannot use --only: parent bookmark '" ++ parent_bookmark
            ++ "' has no PR. Use --upto instead."))
      | .ok (some _) => pure ()
    match analysis.segments.get? target_idx with
    | some seg => pure { analysis with segments := [seg] }
    | none => throw (Error.Internal "segment index out of range")
  | .Stack => do
    let stack ← match graph.stack with
      | some s => pure s
      | none => throw (Error.Internal "stack existence checked before build_analysis")
    let target_idx ← match stack.segments.findIdx?
        (fun s => s.bookmarks.any (fun b => b.name == target)) with
      | some i => pure i
      | none => throw (Error.Internal "target was set by analyze_submission")
    let segments := (stack.segments.drop target_idx).map (fun segment =>
      { bookmark := select_bookmark_for_segment segment (some target),
        changes := segment.changes : NarrowedBookmarkSegment })
    let new_target :=
      ((segments.getLast?).map (fun s => s.bookmark.name)).getD target
    pure { target_bookmark := new_target, segments := segments }

/-- The graph-gate and planning skeleton of `run_submit`: build the change
graph, return successfully with no plan when it has no stack (the CLI prints
a hint and exits), otherwise check the named bookmark, build the analysis
and create the plan.  Tracking filters, interactive selection and plan
post-options are omitted: they run only after this skeleton and do not
affect the no-stack gate. -/
def run_submit_pipeline (changes : List LogEntry) (all_bookmarks : List Bookmark)
    (bookmark : Option String) (scope : SubmitScope)
    (upto_bookmark : Option String)
    (find_existing_pr : String → Except Error (Option PullRequest))
    (remote default_branch : String) : Except Error (Option SubmissionPlan) := do
  let graph := build_change_graph changes all_bookmarks
  match graph.stack with
  | none => pure none
  | some _ => do
    match bookmark with
    | some bm =>
      if mapContains graph.bookmarks bm then pure ()
      else throw (Error.BookmarkNotFound bm)
    | none => pure ()
    let analysis ← build_analysis graph bookmark scope upto_bookmark find_existing_pr
    let plan ← create_submission_plan analysis find_existing_pr remote default_branch
    pure (some plan)

/-! ## Helper lemmas: lists and maps -/

theorem getD_set_self : ∀ (l : List Nat) (i x : Nat), i < l.length →
    (l.set i x).getD i 0 = x
  | _ :: _, 0, _, _ => rfl
  | _ :: l, i + 1, x, h => getD_set_self l i x (by simpa using h)

theorem getD_set_ne : ∀ (l : List Nat) (i j x : Nat), i ≠ j →
    (l.set i x).getD j 0 = l.getD j 0
  | [], _, _, _, _ => rfl
  | _ :: _, 0, 0, _, h => absurd rfl h
  | _ :: _, 0, _ + 1, _, _ => rfl
  | _ :: _, _ + 1, 0, _, _ => rfl
  | _ :: l, i + 1, j + 1, x, h =>
    getD_set_ne l i j x (fun hij => h (by omega))

theorem minByFirst_foldl_mem {α : Type} (cmp : α → α → Ordering) :
    ∀ (xs : List α) (x : α),
      xs.foldl (fun acc y => if cmp y acc = .lt then y else acc) x ∈ x :: xs := by
  intro xs
  induction xs with
  | nil => intro x; simp
  | cons z zs ih =>
    intro x
    simp only [List.foldl]
    have h := ih (if cmp z x = .lt then z else x)
    by_cases hc : cmp z x = .lt <;> simp [hc] at h ⊢ <;> tauto

theorem minByFirst_mem {α : Type} (cmp : α → α → Ordering) (l : List α) (y : α)
    (h : minByFirst cmp l = some y) : y ∈ l := by
  cases l with
  | nil => simp [minByFirst] at h
  | cons x xs =>
    simp only [minByFirst, Option.some.injEq] at h
    subst h
    exact minByFirst_foldl_mem cmp xs x

theorem selectMin_mem (nodes : List ExecutionNode) (ready : List Nat) (u : Nat)
    (h : selectMin nodes ready = some u) : u ∈ ready :=
  minByFirst_mem _ _ _ h

theorem selectMin_none (nodes : List ExecutionNode) (ready : List Nat)
    (h : selectMin nodes ready = none) : ready = [] := by
  cases ready with
  | nil => rfl
  | cons x xs => simp [selectMin, minByFirst] at h

/-! ## Helper lemmas: the Kahn scheduler -/

/-- The number of unresolved predecessors of `v`: edges into `v` from sources
not yet scheduled. -/
def remIndeg (edges : List (List Nat)) (sorted : List Nat) (v : Nat) : Nat :=
  (((List.range edges.length).filter (fun u => decide (u ∉ sorted))).map
    (fun u => (edges.getD u []).count v)).sum

theorem sum_filter_remove {S : List Nat} (f : Nat → Nat) (p q : Nat → Bool)
    (u : Nat) (hS : S.Nodup) (hu : u ∈ S) (hpu : p u = true)
    (hq : ∀ w, q w = (p w && !(w == u))) :
    ((S.filter p).map f).sum = f u + ((S.filter q).map f).sum := by
  induction S with
  | nil => cases hu
  | cons a S' ih =>
    rcases List.mem_cons.mp hu with rfl | huS
    · have hnotin : u ∉ S' := (List.nodup_cons.mp hS).1
      have hfc : S'.filter q = S'.filter p := by
        apply List.filter_congr
        intro w hw
        have : w ≠ u := fun hwu => hnotin (hwu ▸ hw)
        simp [hq w, this]
      have hqu : q u = false := by simp [hq u]
      simp [List.filter_cons, hpu, hqu, hfc]
    · have hnd : S'.Nodup := (List.nodup_cons.mp hS).2
      have hau : a ≠ u := fun hau => (List.nodup_cons.mp hS).1 (hau ▸ huS)
      have hqa : q a = p a := by simp [hq a, hau]
      by_cases hpa : p a = true
      · simp only [List.filter_cons, hpa, hqa, if_true, List.map_cons, List.sum_cons]
        rw [ih hnd huS]
        omega
      · simp only [Bool.not_eq_true] at hpa
        simp only [List.filter_cons, hpa, hqa]
        exact ih hnd huS

theorem remIndeg_append (edges : List (List Nat)) (sorted : List Nat)
    (u v : Nat) (hu : u < edges.length) (hus : u ∉ sorted) :
    remIndeg edges sorted v
      = (edges.getD u []).count v + remIndeg edges (sorted ++ [u]) v := by
  unfold remIndeg
  apply sum_filter_remove (f := fun w => (edges.getD w []).count v)
    (p := fun w => decide (w ∉ sorted)) (q := fun w => decide (w ∉ sorted ++ [u]))
    (u := u) (List.nodup_range _) (List.mem_range.mpr hu) (by simpa using hus)
  intro w
  by_cases h1 : w ∈ sorted <;> by_cases h2 : w = u <;> simp [h1, h2]

/-- A node with an unscheduled in-edge has positive remaining indegree. -/
theorem remIndeg_pos (edges : List (List Nat)) (sorted : List Nat)
    (u v : Nat) (hu : u < edges.length) (hus : u ∉ sorted)
    (hv : v ∈ edges.getD u []) : 0 < remIndeg edges sorted v := by
  rw [remIndeg_append edges sorted u v hu hus]
  have : 0 < (edges.getD u []).count v := List.count_pos_iff.mpr hv
  omega

theorem relax_fold : ∀ (l : List Nat) (indeg ready : List Nat),
    l.Nodup → (∀ t ∈ l, t < indeg.length) →
    (l.foldl relaxEdge (indeg, ready)).1.length = indeg.length ∧
    (∀ v, (l.foldl relaxEdge (indeg, ready)).1.getD v 0
      = if v ∈ l then indeg.getD v 0 - 1 else indeg.getD v 0) ∧
    (l.foldl relaxEdge (indeg, ready)).2
      = ready ++ l.filter (fun v => indeg.getD v 0 - 1 = 0) := by
  intro l
  induction l with
  | nil => intro indeg ready _ _; refine ⟨rfl, ?_, by simp⟩; intro v; simp
  | cons t ts ih =>
    intro indeg ready hnd hlt
    have htts : t ∉ ts := (List.nodup_cons.mp hnd).1
    have hndts : ts.Nodup := (List.nodup_cons.mp hnd).2
    have htlen : t < indeg.length := hlt t (List.mem_cons_self t ts)
    -- one step
    have hstep : relaxEdge (indeg, ready) t
        = (indeg.set t (indeg.getD t 0 - 1),
           if indeg.getD t 0 - 1 = 0 then ready ++ [t] else ready) := by
      simp only [relaxEdge]
      by_cases h : indeg.getD t 0 - 1 = 0
      · rw [if_pos h, if_pos h]
      · rw [if_neg h, if_neg h]
    set indeg1 := indeg.set t (indeg.getD t 0 - 1) with hindeg1
    have hlen1 : indeg1.length = indeg.length := by
      rw [hindeg1]; exact List.length_set indeg t _
    have hlt1 : ∀ x ∈ ts, x < indeg1.length := fun x hx =>
      hlen1 ▸ hlt x (List.mem_cons_of_mem t hx)
    have hD : ∀ v, indeg1.getD v 0
        = if v = t then indeg.getD v 0 - 1 else indeg.getD v 0 := by
      intro v
      by_cases hv : v = t
      · subst hv
        rw [if_pos rfl, hindeg1, getD_set_self indeg v _ htlen]
      · rw [if_neg hv, hindeg1, getD_set_ne indeg t v _ (fun h => hv h.symm)]
    have ihr := ih indeg1 (if indeg.getD t 0 - 1 = 0 then ready ++ [t] else ready)
      hndts hlt1
    simp only [List.foldl_cons]
    rw [hstep]
    refine ⟨by rw [ihr.1, hlen1], ?_, ?_⟩
    · intro v
      rw [ihr.2.1 v]
      by_cases hv1 : v ∈ ts
      · have hvt : v ≠ t := fun h => htts (h ▸ hv1)
        rw [if_pos hv1, if_pos (List.mem_cons_of_mem t hv1), hD v, if_neg hvt]
      · by_cases hv2 : v = t
        · subst hv2
          rw [if_neg hv1, if_pos (List.mem_cons_self v ts), hD v, if_pos rfl]
        · have hvc : v ∉ t :: ts := by
            intro h
            rcases List.mem_cons.mp h with h | h
            · exact hv2 h
            · exact hv1 h
          rw [if_neg hv1, if_neg hvc, hD v, if_neg hv2]
    · rw [ihr.2.2]
      have hfc : ts.filter (fun v => decide (indeg1.getD v 0 - 1 = 0))
          = ts.filter (fun v => decide (indeg.getD v 0 - 1 = 0)) := by
        apply List.filter_congr
        intro w hw
        have hwt : w ≠ t := fun h => htts (h ▸ hw)
        show decide (indeg1.getD w 0 - 1 = 0) = decide (indeg.getD w 0 - 1 = 0)
        rw [hD w, if_neg hwt]
      rw [hfc]
      by_cases hcase : indeg.getD t 0 - 1 = 0
      · rw [if_pos hcase, List.filter_cons, if_pos (by simpa using hcase),
          List.append_assoc]
        rfl
      · rw [if_neg hcase, List.filter_cons, if_neg (by simpa using hcase)]

theorem bump_fold : ∀ (l : List Nat) (a : List Nat), (∀ t ∈ l, t < a.length) →
    (l.foldl bumpAt a).length = a.length ∧
    ∀ v, (l.foldl bumpAt a).getD v 0 = a.getD v 0 + l.count v := by
  intro l
  induction l with
  | nil => intro a _; exact ⟨rfl, fun v => by simp⟩
  | cons t ts ih =>
    intro a hlt
    have htlen : t < a.length := hlt t (List.mem_cons_self t ts)
    have hlen1 : (bumpAt a t).length = a.length := List.length_set a t _
    have ihr := ih (bumpAt a t) (fun x hx => hlen1 ▸ hlt x (List.mem_cons_of_mem t hx))
    refine ⟨by rw [List.foldl_cons, ihr.1, hlen1], ?_⟩
    intro v
    rw [List.foldl_cons, ihr.2 v]
    by_cases hv : v = t
    · subst hv
      have hD : (bumpAt a v).getD v 0 = a.getD v 0 + 1 := getD_set_self a v _ htlen
      rw [hD, List.count_cons_self]
      omega
    · have hD : (bumpAt a t).getD v 0 = a.getD v 0 :=
        getD_set_ne a t v _ (fun h => hv h.symm)
      rw [hD, List.count_cons_of_ne hv]

theorem initIndeg_fold : ∀ (ls : List (List Nat)) (acc : List Nat),
    (∀ l ∈ ls, ∀ t ∈ l, t < acc.length) →
    (ls.foldl (fun acc l => l.foldl bumpAt acc) acc).length = acc.length ∧
    ∀ v, (ls.foldl (fun acc l => l.foldl bumpAt acc) acc).getD v 0
      = acc.getD v 0 + (ls.map (fun l => l.count v)).sum := by
  intro ls
  induction ls with
  | nil => intro acc _; exact ⟨rfl, fun v => by simp⟩
  | cons e es ih =>
    intro acc hlt
    have hbf := bump_fold e acc (fun t ht => hlt e (List.mem_cons_self e es) t ht)
    have ihr := ih (e.foldl bumpAt acc)
      (fun l hl t ht => hbf.1 ▸ hlt l (List.mem_cons_of_mem e hl) t ht)
    refine ⟨by rw [List.foldl_cons, ihr.1, hbf.1], ?_⟩
    intro v
    rw [List.foldl_cons, ihr.2 v, hbf.2 v, List.map_cons, List.sum_cons]
    omega

theorem getD_replicate_zero : ∀ (n v : Nat), (List.replicate n 0).getD v 0 = 0
  | 0, _ => by simp
  | _ + 1, 0 => rfl
  | n + 1, v + 1 => getD_replicate_zero n v

theorem initIndeg_spec (n : Nat) (edges : List (List Nat))
    (h : ∀ l ∈ edges, ∀ t ∈ l, t < n) :
    (initIndeg n edges).length = n ∧
    ∀ v, (initIndeg n edges).getD v 0 = (edges.map (fun l => l.count v)).sum := by
  have hrep : (List.replicate n 0).length = n := List.length_replicate n 0
  have hf := initIndeg_fold edges (List.replicate n 0)
    (fun l hl t ht => by rw [hrep]; exact h l hl t ht)
  unfold initIndeg
  refine ⟨by rw [hf.1, hrep], ?_⟩
  intro v
  rw [hf.2 v, getD_replicate_zero, Nat.zero_add]

theorem map_range_getD {α β : Type} (d : α) (f : α → β) : ∀ (l : List α),
    (List.range l.length).map (fun i => f (l.getD i d)) = l.map f := by
  intro l
  induction l with
  | nil => simp
  | cons x xs ih =>
    have hr : List.range (xs.length + 1) = 0 :: (List.range xs.length).map (· + 1) :=
      List.range_succ_eq_map xs.length
    simp only [List.length_cons, hr, List.map_cons, List.map_map]
    refine congrArg₂ _ rfl ?_
    rw [← ih]
    rfl

theorem remIndeg_nil (edges : List (List Nat)) (v : Nat) :
    remIndeg edges [] v = (edges.map (fun l => l.count v)).sum := by
  unfold remIndeg
  have h1 : (List.range edges.length).filter (fun u => decide (u ∉ ([] : List Nat)))
      = List.range edges.length := by
    apply List.filter_eq_self.mpr
    intro a _
    simp
  rw [h1, map_range_getD [] (fun l => l.count v) edges]

theorem nodup_lt_length_full (l : List Nat) (n : Nat) (hnd : l.Nodup)
    (hlt : ∀ i ∈ l, i < n) (hlen : l.length = n) : ∀ i, i < n → i ∈ l := by
  intro i hi
  have hsub : l.toFinset ⊆ Finset.range n := by
    intro x hx
    exact Finset.mem_range.mpr (hlt x (List.mem_toFinset.mp hx))
  have hcard : l.toFinset.card = n := by
    rw [List.toFinset_card_of_nodup hnd, hlen]
  have heq : l.toFinset = Finset.range n := by
    apply Finset.eq_of_subset_of_card_le hsub
    rw [hcard, Finset.card_range]
  have : i ∈ l.toFinset := by rw [heq]; exact Finset.mem_range.mpr hi
  exact List.mem_toFinset.mp this

theorem nodup_lt_length_le (l : List Nat) (n : Nat) (hnd : l.Nodup)
    (hlt : ∀ i ∈ l, i < n) : l.length ≤ n := by
  have hsub : l.toFinset ⊆ Finset.range n := by
    intro x hx
    exact Finset.mem_range.mpr (hlt x (List.mem_toFinset.mp hx))
  have := Finset.card_le_card hsub
  rw [List.toFinset_card_of_nodup hnd, Finset.card_range] at this
  exact this

theorem exists_lt_not_mem (l : List Nat) (n : Nat) (hlen : l.length < n) :
    ∃ v, v < n ∧ v ∉ l := by
  by_contra hc
  push_neg at hc
  have hsub : (Finset.range n : Finset Nat) ⊆ l.toFinset := by
    intro x hx
    exact List.mem_toFinset.mpr (hc x (Finset.mem_range.mp hx))
  have hcard := Finset.card_le_card hsub
  rw [Finset.card_range] at hcard
  have := List.toFinset_card_le l
  omega

theorem nodup_get?_inj (l : List Nat) (d : l.Nodup) (i j a : Nat)
    (h1 : l.get? i = some a) (h2 : l.get? j = some a) : i = j := by
  obtain ⟨hi, hgi⟩ := List.get?_eq_some.mp h1
  obtain ⟨hj, hgj⟩ := List.get?_eq_some.mp h2
  have := d.get_inj_iff.mp (hgi.trans hgj.symm)
  exact congrArg Fin.val this

/-- Well-formedness of an adjacency-list edge set over `n` nodes: one list
per node, in-range targets, no duplicate edges out of one node. -/
structure EdgesWF (n : Nat) (edges : List (List Nat)) : Prop where
  hlen : edges.length = n
  hlt : ∀ l ∈ edges, ∀ t ∈ l, t < n
  hnd : ∀ l ∈ edges, l.Nodup

/-- The loop invariant of the Kahn scheduler: scheduled and ready indices are
in range and duplicate-free, every indegree counts exactly the unscheduled
in-edges, the ready set is exactly the unscheduled zero-indegree nodes, and
every scheduled node follows all its scheduled predecessors. -/
structure KahnInv (n : Nat) (edges : List (List Nat))
    (indeg ready sorted : List Nat) : Prop where
  hlen : indeg.length = n
  sortedLt : ∀ i ∈ sorted, i < n
  sortedNodup : sorted.Nodup
  readyLt : ∀ i ∈ ready, i < n
  readyNodup : ready.Nodup
  rdisj : ∀ i ∈ ready, i ∉ sorted
  hindeg : ∀ v, v < n → indeg.getD v 0 = remIndeg edges sorted v
  hready : ∀ v, v < n → (v ∈ ready ↔ (v ∉ sorted ∧ indeg.getD v 0 = 0))
  hedge : ∀ u, u < n → ∀ v ∈ edges.getD u [], ∀ j, sorted.get? j = some v →
    ∃ i, i < j ∧ sorted.get? i = some u

/-- What holds of the final state of the Kahn loop: the schedule is in-range
and duplicate-free, every unscheduled node has positive remaining indegree,
and the schedule respects every edge among scheduled nodes. -/
structure KahnPost (n : Nat) (edges : List (List Nat))
    (sorted indeg : List Nat) : Prop where
  sortedLt : ∀ i ∈ sorted, i < n
  sortedNodup : sorted.Nodup
  hstuck : ∀ v, v < n → v ∉ sorted → indeg.getD v 0 ≠ 0
  hedge : ∀ u, u < n → ∀ v ∈ edges.getD u [], ∀ j, sorted.get? j = some v →
    ∃ i, i < j ∧ sorted.get? i = some u

theorem kahnLoop_spec (nodes : List ExecutionNode) (edges : List (List Nat))
    (hwf : EdgesWF nodes.length edges) :
    ∀ (fuel : Nat) (indeg ready sorted : List Nat),
      KahnInv nodes.length edges indeg ready sorted →
      fuel + sorted.length = nodes.length →
      KahnPost nodes.length edges
        (kahnLoop nodes edges fuel indeg ready sorted).1
        (kahnLoop nodes edges fuel indeg ready sorted).2 := by
  intro fuel
  induction fuel with
  | zero =>
    intro indeg ready sorted inv hf
    simp only [kahnLoop]
    have hfull := nodup_lt_length_full sorted nodes.length inv.sortedNodup
      inv.sortedLt (by omega)
    exact ⟨inv.sortedLt, inv.sortedNodup,
      fun v hv hns => absurd (hfull v hv) hns, inv.hedge⟩
  | succ f ih =>
    intro indeg ready sorted inv hf
    simp only [kahnLoop]
    cases hsel : selectMin nodes ready with
    | none =>
      have hre : ready = [] := selectMin_none _ _ hsel
      refine ⟨inv.sortedLt, inv.sortedNodup, ?_, inv.hedge⟩
      intro v hv hns h0
      have : v ∈ ready := (inv.hready v hv).mpr ⟨hns, h0⟩
      rw [hre] at this
      exact List.not_mem_nil v this
    | some u =>
      have hun : u ∈ ready := selectMin_mem nodes ready u hsel
      have hult : u < nodes.length := inv.readyLt u hun
      have hue : u < edges.length := by rw [hwf.hlen]; exact hult
      have husort : u ∉ sorted := inv.rdisj u hun
      have hiu : indeg.getD u 0 = 0 := ((inv.hready u hult).mp hun).2
      have hru : remIndeg edges sorted u = 0 := by
        rw [← inv.hindeg u hult]; exact hiu
      have hlget : edges.getD u [] = edges[u] := List.getD_eq_getElem edges [] hue
      have hlmem : edges.getD u [] ∈ edges := by rw [hlget]; exact List.getElem_mem hue
      have hlnd : (edges.getD u []).Nodup := hwf.hnd _ hlmem
      have hltn : ∀ t ∈ edges.getD u [], t < nodes.length :=
        fun t ht => hwf.hlt _ hlmem t ht
      have hltlen : ∀ t ∈ edges.getD u [], t < indeg.length := by
        intro t ht; rw [inv.hlen]; exact hltn t ht
      have hUnsorted : ∀ v ∈ edges.getD u [], v ∉ sorted := by
        intro v hv hvs
        obtain ⟨j, hj⟩ := List.mem_iff_get?.mp hvs
        obtain ⟨i, _, hi⟩ := inv.hedge u hult v hv j hj
        exact husort (List.get?_mem hi)
      have hunl : u ∉ edges.getD u [] := by
        intro hul
        have := remIndeg_pos edges sorted u u hue husort hul
        omega
      have hlpos : ∀ v ∈ edges.getD u [], 1 ≤ indeg.getD v 0 := by
        intro v hv
        rw [inv.hindeg v (hltn v hv)]
        exact remIndeg_pos edges sorted u v hue husort hv
      obtain ⟨hrlen, hrD, hrR⟩ :=
        relax_fold (edges.getD u []) indeg (ready.erase u) hlnd hltlen
      have hcount : ∀ v, (edges.getD u []).count v
          = if v ∈ edges.getD u [] then 1 else 0 := by
        intro v
        by_cases hv : v ∈ edges.getD u []
        · rw [if_pos hv]; exact List.count_eq_one_of_mem hlnd hv
        · rw [if_neg hv]; exact List.count_eq_zero_of_not_mem hv
      -- the new state satisfies the invariant
      have hinv2 : KahnInv nodes.length edges
          ((edges.getD u []).foldl relaxEdge (indeg, ready.erase u)).1
          ((edges.getD u []).foldl relaxEdge (indeg, ready.erase u)).2
          (sorted ++ [u]) := by
        refine ⟨by rw [hrlen, inv.hlen], ?_, ?_, ?_, ?_, ?_, ?_, ?_, ?_⟩
        · intro i hi
          rcases List.mem_append.mp hi with h | h
          · exact inv.sortedLt i h
          · rw [List.mem_singleton.mp h]; exact hult
        · rw [List.nodup_append]
          refine ⟨inv.sortedNodup, List.nodup_singleton u, ?_⟩
          intro a ha hb
          rw [List.mem_singleton] at hb
          exact husort (hb ▸ ha)
        · intro i hi
          rw [hrR] at hi
          rcases List.mem_append.mp hi with h | h
          · exact inv.readyLt i (List.mem_of_mem_erase h)
          · exact hltn i (List.mem_of_mem_filter h)
        · rw [hrR, List.nodup_append]
          refine ⟨inv.readyNodup.erase u, hlnd.filter _, ?_⟩
          intro a ha hb
          have ha2 : a ∈ ready := List.mem_of_mem_erase ha
          have h0 : indeg.getD a 0 = 0 :=
            ((inv.hready a (inv.readyLt a ha2)).mp ha2).2
          have h1 : 1 ≤ indeg.getD a 0 := hlpos a (List.mem_of_mem_filter hb)
          omega
        · intro i hi hmem
          rw [hrR] at hi
          rcases List.mem_append.mp hi with h | h
          · obtain ⟨hne, hir⟩ := inv.readyNodup.mem_erase_iff.mp h
            rcases List.mem_append.mp hmem with h2 | h2
            · exact inv.rdisj i hir h2
            · exact hne (List.mem_singleton.mp h2)
          · have hil : i ∈ edges.getD u [] := List.mem_of_mem_filter h
            rcases List.mem_append.mp hmem with h2 | h2
            · exact hUnsorted i hil h2
            · exact hunl (List.mem_singleton.mp h2 ▸ hil)
        · intro v hv
          rw [hrD v]
          have happ := remIndeg_append edges sorted u v hue husort
          rw [hcount v] at happ
          rw [← inv.hindeg v hv] at happ
          by_cases hvl : v ∈ edges.getD u []
          · rw [if_pos hvl]
            rw [if_pos hvl] at happ
            omega
          · rw [if_neg hvl]
            rw [if_neg hvl] at happ
            omega
        · intro v hv
          rw [hrR]
          constructor
          · intro hm
            rcases List.mem_append.mp hm with h | h
            · obtain ⟨hne, hir⟩ := inv.readyNodup.mem_erase_iff.mp h
              obtain ⟨hns, h0⟩ := (inv.hready v hv).mp hir
              have hvnl : v ∉ edges.getD u [] := by
                intro hvl
                have := hlpos v hvl
                omega
              refine ⟨?_, ?_⟩
              · intro hmem
                rcases List.mem_append.mp hmem with h2 | h2
                · exact hns h2
                · exact hne (List.mem_singleton.mp h2)
              · rw [hrD v, if_neg hvnl]; exact h0
            · have hvl : v ∈ edges.getD u [] := List.mem_of_mem_filter h
              have hcond : indeg.getD v 0 - 1 = 0 := by
                have := (List.mem_filter.mp h).2
                simpa using this
              refine ⟨?_, ?_⟩
              · intro hmem
                rcases List.mem_append.mp hmem with h2 | h2
                · exact hUnsorted v hvl h2
                · exact hunl (List.mem_singleton.mp h2 ▸ hvl)
              · rw [hrD v, if_pos hvl]; exact hcond
          · rintro ⟨hns, h0⟩
            have hns1 : v ∉ sorted := fun h => hns (List.mem_append.mpr (.inl h))
            have hneu : v ≠ u := fun h =>
              hns (List.mem_append.mpr (.inr (List.mem_singleton.mpr h)))
            by_cases hvl : v ∈ edges.getD u []
            · refine List.mem_append.mpr (.inr ?_)
              rw [List.mem_filter]
              refine ⟨hvl, ?_⟩
              rw [hrD v, if_pos hvl] at h0
              simpa using h0
            · refine List.mem_append.mpr (.inl ?_)
              rw [hrD v, if_neg hvl] at h0
              have : v ∈ ready := (inv.hready v hv).mpr ⟨hns1, h0⟩
              exact (List.mem_erase_of_ne hneu).mpr this
        · intro w hw v hv j hj
          rcases Nat.lt_trichotomy j sorted.length with hjl | hjl
          · rw [List.get?_append hjl] at hj
            obtain ⟨i, hij, hi⟩ := inv.hedge w hw v hv j hj
            refine ⟨i, hij, ?_⟩
            rw [List.get?_append (by omega)]
            exact hi
          · rcases hjl with hjl | hjl
            · rw [hjl, List.get?_concat_length] at hj
              have hvu : v = u := by injection hj with h; exact h.symm
              subst hvu
              have hwe : w < edges.length := by rw [hwf.hlen]; exact hw
              have hws : w ∈ sorted := by
                by_contra hws
                have := remIndeg_pos edges sorted w v hwe hws hv
                omega
              obtain ⟨i, hi⟩ := List.mem_iff_get?.mp hws
              have hilt : i < sorted.length := (List.get?_eq_some.mp hi).1
              refine ⟨i, by omega, ?_⟩
              rw [List.get?_append hilt]
              exact hi
            · exfalso
              rw [List.get?_append_right (by omega)] at hj
              have : j - sorted.length ≥ 1 := by omega
              rw [List.get?_eq_none.mpr (by simpa using this)] at hj
              cases hj
      have hfuel2 : f + (sorted ++ [u]).length = nodes.length := by
        rw [List.length_append, List.length_singleton]
        omega
      exact ih _ _ _ hinv2 hfuel2

theorem kahnResult_post (nodes : List ExecutionNode) (edges : List (List Nat))
    (hwf : EdgesWF nodes.length edges) :
    KahnPost nodes.length edges (kahnResult nodes edges).1
      (kahnResult nodes edges).2 := by
  obtain ⟨hlen0, hD0⟩ := initIndeg_spec nodes.length edges hwf.hlt
  have hinv : KahnInv nodes.length edges (initIndeg nodes.length edges)
      ((List.range nodes.length).filter
        (fun i => (initIndeg nodes.length edges).getD i 0 == 0)) [] := by
    refine ⟨hlen0, by simp, List.nodup_nil, ?_, ?_, ?_, ?_, ?_, ?_⟩
    · intro i hi
      exact List.mem_range.mp (List.mem_of_mem_filter hi)
    · exact (List.nodup_range _).filter _
    · intro i _
      exact List.not_mem_nil i
    · intro v _
      rw [hD0 v, remIndeg_nil]
    · intro v hv
      constructor
      · intro hm
        have h := List.mem_filter.mp hm
        exact ⟨List.not_mem_nil v, by simpa using h.2⟩
      · rintro ⟨_, h0⟩
        rw [List.mem_filter]
        exact ⟨List.mem_range.mpr hv, by simpa using h0⟩
    · intro u _ v _ j hj
      simp at hj
  have := kahnLoop_spec nodes edges hwf nodes.length
    (initIndeg nodes.length edges)
    ((List.range nodes.length).filter
      (fun i => (initIndeg nodes.length edges).getD i 0 == 0)) [] hinv (by simp)
  exact this

theorem topo_sort_ok (nodes : List ExecutionNode) (edges : List (List Nat))
    (hwf : EdgesWF nodes.length edges) (steps : List ExecutionStep)
    (h : topo_sort_steps nodes edges = .ok steps) :
    ∃ S : List Nat, S.Nodup ∧ S.length = nodes.length ∧
      (∀ i, i ∈ S ↔ i < nodes.length) ∧
      steps = S.map (fun i => ((nodes.get? i).getD defaultNode).step) ∧
      ∀ u, u < nodes.length → ∀ v ∈ edges.getD u [], ∀ i j,
        S.get? i = some u → S.get? j = some v → i < j := by
  have post := kahnResult_post nodes edges hwf
  simp only [topo_sort_steps] at h
  split at h
  case isTrue hlen =>
    refine ⟨(kahnResult nodes edges).1, post.sortedNodup, hlen, ?_, ?_, ?_⟩
    · intro i
      constructor
      · exact post.sortedLt i
      · exact nodup_lt_length_full _ _ post.sortedNodup post.sortedLt hlen i
    · injection h with h2
      exact h2.symm
    · intro u hu v hv i j hi hj
      obtain ⟨i0, hi0j, hSi0⟩ := post.hedge u hu v hv j hj
      have := nodup_get?_inj _ post.sortedNodup i i0 u hi hSi0
      omega
  case isFalse hlen => cases h

theorem topo_sort_err (nodes : List ExecutionNode) (edges : List (List Nat))
    (hwf : EdgesWF nodes.length edges) (msg : String) (cyc : List String)
    (h : topo_sort_steps nodes edges = .error (.SchedulerCycle msg cyc)) :
    cyc = cycleNodeList nodes (kahnResult nodes edges).2 ∧ cyc ≠ [] := by
  have post := kahnResult_post nodes edges hwf
  simp only [topo_sort_steps] at h
  split at h
  case isTrue hlen => cases h
  case isFalse hlen =>
    injection h with h2
    injection h2 with hmsg hcyc
    refine ⟨hcyc.symm, ?_⟩
    have hle : (kahnResult nodes edges).1.length ≤ nodes.length :=
      nodup_lt_length_le _ _ post.sortedNodup post.sortedLt
    have hlt : (kahnResult nodes edges).1.length < nodes.length := by omega
    obtain ⟨v, hv, hvm⟩ := exists_lt_not_mem _ _ hlt
    have hstuck := post.hstuck v hv hvm
    have hmem : v ∈ (List.range nodes.length).filter
        (fun i => decide ((kahnResult nodes edges).2.getD i 0 ≠ 0)) := by
      rw [List.mem_filter]
      exact ⟨List.mem_range.mpr hv, by simpa using hstuck⟩
    have : stepToString (((nodes.get? v).getD defaultNode).step)
        ∈ cycleNodeList nodes (kahnResult nodes edges).2 :=
      List.mem_map_of_mem _ hmem
    rw [← hcyc.symm] at this
    exact List.ne_nil_of_mem this

theorem getD_set_self2 {α : Type} : ∀ (l : List α) (i : Nat) (x d : α),
    i < l.length → (l.set i x).getD i d = x
  | _ :: _, 0, _, _, _ => rfl
  | _ :: l, i + 1, x, d, h => getD_set_self2 l i x d (by simpa using h)

theorem getD_set_ne2 {α : Type} : ∀ (l : List α) (i j : Nat) (x d : α), i ≠ j →
    (l.set i x).getD j d = l.getD j d
  | [], _, _, _, _, _ => rfl
  | _ :: _, 0, 0, _, _, h => absurd rfl h
  | _ :: _, 0, _ + 1, _, _, _ => rfl
  | _ :: _, _ + 1, 0, _, _, _ => rfl
  | _ :: l, i + 1, j + 1, x, d, h =>
    getD_set_ne2 l i j x d (fun hij => h (by omega))

theorem mapLookup_prop {α : Type} (m : List (String × α)) (k : String) (v : α)
    (P : α → Prop) (hb : ∀ p ∈ m, P p.2) (h : mapLookup m k = some v) : P v := by
  unfold mapLookup at h
  obtain ⟨p, hp, hpv⟩ := Option.map_eq_some'.mp h
  have := List.mem_of_find?_eq_some hp
  exact hpv ▸ hb p this

/-- Well-formedness of a registry over `n` nodes: the four maps index `n`
operations in total, each at an in-range node index. -/
structure RegistryWF (r : NodeRegistry) (n : Nat) : Prop where
  hlen : r.len = n
  hpush : ∀ p ∈ r.push, p.2 < n
  hupdate : ∀ p ∈ r.update, p.2 < n
  hcreate : ∀ p ∈ r.create, p.2 < n
  hpublish : ∀ p ∈ r.publish, p.2 < n

theorem resolve_lt (c : ExecutionConstraint) (r : NodeRegistry) (n : Nat)
    (hwf : RegistryWF r n) (f t : Nat) (h : c.resolve r = some (f, t)) :
    f < n ∧ t < n := by
  cases c with
  | PushOrder parent child =>
    cases hm1 : mapLookup r.push parent with
    | none => simp [ExecutionConstraint.resolve, hm1] at h
    | some a =>
      cases hm2 : mapLookup r.push child with
      | none => simp [ExecutionConstraint.resolve, hm1, hm2] at h
      | some b =>
        simp [ExecutionConstraint.resolve, hm1, hm2] at h
        obtain ⟨hf1, ht1⟩ := h
        subst hf1
        subst ht1
        exact ⟨mapLookup_prop _ _ _ (fun x => x < n) hwf.hpush hm1,
               mapLookup_prop _ _ _ (fun x => x < n) hwf.hpush hm2⟩
  | PushBeforeRetarget base pr =>
    cases hm1 : mapLookup r.push base with
    | none => simp [ExecutionConstraint.resolve, hm1] at h
    | some a =>
      cases hm2 : mapLookup r.update pr with
      | none => simp [ExecutionConstraint.resolve, hm1, hm2] at h
      | some b =>
        simp [ExecutionConstraint.resolve, hm1, hm2] at h
        obtain ⟨hf1, ht1⟩ := h
        subst hf1
        subst ht1
        exact ⟨mapLookup_prop _ _ _ (fun x => x < n) hwf.hpush hm1,
               mapLookup_prop _ _ _ (fun x => x < n) hwf.hupdate hm2⟩
  | RetargetBeforePush pr old_base =>
    cases hm1 : mapLookup r.update pr with
    | none => simp [ExecutionConstraint.resolve, hm1] at h
    | some a =>
      cases hm2 : mapLookup r.push old_base with
      | none => simp [ExecutionConstraint.resolve, hm1, hm2] at h
      | some b =>
        simp [ExecutionConstraint.resolve, hm1, hm2] at h
        obtain ⟨hf1, ht1⟩ := h
        subst hf1
        subst ht1
        exact ⟨mapLookup_prop _ _ _ (fun x => x < n) hwf.hupdate hm1,
               mapLookup_prop _ _ _ (fun x => x < n) hwf.hpush hm2⟩
  | PushBeforeCreate push create =>
    cases hm1 : mapLookup r.push push with
    | none => simp [ExecutionConstraint.resolve, hm1] at h
    | some a =>
      cases hm2 : mapLookup r.create create with
      | none => simp [ExecutionConstraint.resolve, hm1, hm2] at h
      | some b =>
        simp [ExecutionConstraint.resolve, hm1, hm2] at h
        obtain ⟨hf1, ht1⟩ := h
        subst hf1
        subst ht1
        exact ⟨mapLookup_prop _ _ _ (fun x => x < n) hwf.hpush hm1,
               mapLookup_prop _ _ _ (fun x => x < n) hwf.hcreate hm2⟩
  | CreateOrder parent child =>
    cases hm1 : mapLookup r.create parent with
    | none => simp [ExecutionConstraint.resolve, hm1] at h
    | some a =>
      cases hm2 : mapLookup r.create child with
      | none => simp [ExecutionConstraint.resolve, hm1, hm2] at h
      | some b =>
        simp [ExecutionConstraint.resolve, hm1, hm2] at h
        obtain ⟨hf1, ht1⟩ := h
        subst hf1
        subst ht1
        exact ⟨mapLookup_prop _ _ _ (fun x => x < n) hwf.hcreate hm1,
               mapLookup_prop _ _ _ (fun x => x < n) hwf.hcreate hm2⟩

theorem resolveStep_len (r : NodeRegistry) (edges : List (List Nat))
    (c : ExecutionConstraint) : (resolveStep r edges c).length = edges.length := by
  unfold resolveStep
  cases h : c.resolve r with
  | none => rfl
  | some ft =>
    cases ft with
    | mk f t =>
      dsimp only
      split
      · rfl
      · exact List.length_set edges f _

theorem resolveStep_wf (r : NodeRegistry) (n : Nat) (hwf : RegistryWF r n)
    (edges : List (List Nat)) (c : ExecutionConstraint)
    (hP : (∀ l ∈ edges, ∀ x ∈ l, x < n) ∧ (∀ l ∈ edges, l.Nodup)) :
    (∀ l ∈ (resolveStep r edges c), ∀ x ∈ l, x < n)
      ∧ (∀ l ∈ (resolveStep r edges c), l.Nodup) := by
  unfold resolveStep
  cases h : c.resolve r with
  | none => exact hP
  | some ft =>
    cases ft with
    | mk f t =>
      dsimp only
      have ht : t < n := (resolve_lt c r n hwf f t h).2
      split
      · exact hP
      case isFalse hcont =>
        have htl : t ∉ edges.getD f [] := by
          intro hmem
          exact hcont (List.elem_eq_true_of_mem hmem)
        have hl : (∀ x ∈ edges.getD f [], x < n) ∧ (edges.getD f []).Nodup := by
          by_cases hf : f < edges.length
          · have : edges.getD f [] = edges[f] := List.getD_eq_getElem edges [] hf
            rw [this]
            exact ⟨hP.1 _ (List.getElem_mem hf), hP.2 _ (List.getElem_mem hf)⟩
          · rw [List.getD_eq_default edges [] (by omega)]
            exact ⟨by simp, List.nodup_nil⟩
        constructor
        · intro l hl2 x hx
          rcases List.mem_or_eq_of_mem_set hl2 with hmem | rfl
          · exact hP.1 l hmem x hx
          · rcases List.mem_append.mp hx with hx2 | hx2
            · exact hl.1 x hx2
            · rw [List.mem_singleton.mp hx2]; exact ht
        · intro l hl2
          rcases List.mem_or_eq_of_mem_set hl2 with hmem | rfl
          · exact hP.2 l hmem
          · rw [List.nodup_append]
            refine ⟨hl.2, List.nodup_singleton t, ?_⟩
            intro a ha hb
            rw [List.mem_singleton] at hb
            exact htl (hb ▸ ha)

theorem resolve_constraints_wf (cs : List ExecutionConstraint)
    (r : NodeRegistry) (n : Nat) (hwf : RegistryWF r n) :
    EdgesWF n (resolve_constraints cs r) := by
  unfold resolve_constraints
  have init : (List.replicate r.len ([] : List Nat)).length = r.len
      ∧ (∀ l ∈ List.replicate r.len ([] : List Nat), ∀ x ∈ l, x < n)
      ∧ (∀ l ∈ List.replicate r.len ([] : List Nat), l.Nodup) := by
    refine ⟨List.length_replicate _ _, ?_, ?_⟩
    · intro l hl x hx
      rw [List.eq_of_mem_replicate hl] at hx
      cases hx
    · intro l hl
      rw [List.eq_of_mem_replicate hl]
      exact List.nodup_nil
  suffices h : ∀ (acc : List (List Nat)),
      acc.length = r.len → (∀ l ∈ acc, ∀ x ∈ l, x < n) → (∀ l ∈ acc, l.Nodup) →
      EdgesWF n (cs.foldl (resolveStep r) acc) by
    exact h _ init.1 init.2.1 init.2.2
  induction cs with
  | nil =>
    intro acc h1 h2 h3
    exact ⟨by rw [List.foldl_nil, h1, hwf.hlen], by simpa using h2, by simpa using h3⟩
  | cons c rest ih =>
    intro acc h1 h2 h3
    rw [List.foldl_cons]
    have hstep := resolveStep_wf r n hwf acc c ⟨h2, h3⟩
    exact ih _ (by rw [resolveStep_len, h1]) hstep.1 hstep.2

theorem resolveStep_mem_mono (r : NodeRegistry) (edges : List (List Nat))
    (c : ExecutionConstraint) (g x : Nat) (h : x ∈ edges.getD g []) :
    x ∈ (resolveStep r edges c).getD g [] := by
  unfold resolveStep
  cases hres : c.resolve r with
  | none => exact h
  | some ft =>
    cases ft with
    | mk f t =>
      dsimp only
      split
      · exact h
      · by_cases hg : g = f
        · subst hg
          by_cases hf : g < edges.length
          · rw [getD_set_self2 edges g _ [] hf]
            exact List.mem_append.mpr (.inl h)
          · rw [List.set_eq_of_length_le (by omega)]
            exact h
        · rw [getD_set_ne2 edges f g _ [] (fun hfg => hg hfg.symm)]
          exact h

theorem resolveStep_mem_self (r : NodeRegistry) (edges : List (List Nat))
    (c : ExecutionConstraint) (f t : Nat) (h : c.resolve r = some (f, t))
    (hf : f < edges.length) : t ∈ (resolveStep r edges c).getD f [] := by
  unfold resolveStep
  rw [h]
  dsimp only
  split
  case isTrue hcont => exact List.mem_of_elem_eq_true hcont
  case isFalse hcont =>
    rw [getD_set_self2 edges f _ [] hf]
    exact List.mem_append.mpr (.inr (List.mem_singleton.mpr rfl))

theorem foldl_resolveStep_mono (r : NodeRegistry)
    (cs : List ExecutionConstraint) :
    ∀ (acc : List (List Nat)) (g x : Nat), x ∈ acc.getD g [] →
      x ∈ (cs.foldl (resolveStep r) acc).getD g [] := by
  induction cs with
  | nil => intro acc g x h; exact h
  | cons c rest ih =>
    intro acc g x h
    rw [List.foldl_cons]
    exact ih _ g x (resolveStep_mem_mono r acc c g x h)

theorem resolve_constraints_mem (cs : List ExecutionConstraint)
    (r : NodeRegistry) (c : ExecutionConstraint) (hc : c ∈ cs) (f t : Nat)
    (hr : c.resolve r = some (f, t)) (hf : f < r.len) :
    t ∈ (resolve_constraints cs r).getD f [] := by
  unfold resolve_constraints
  suffices h : ∀ (acc : List (List Nat)), f < acc.length →
      t ∈ (cs.foldl (resolveStep r) acc).getD f [] by
    exact h _ (by rw [List.length_replicate]; exact hf)
  clear hf
  induction cs with
  | nil => cases hc
  | cons c2 rest ih =>
    intro acc hflen
    rw [List.foldl_cons]
    rcases List.mem_cons.mp hc with rfl | hmem
    · exact foldl_resolveStep_mono r rest _ f t
        (resolveStep_mem_self r acc c f t hr hflen)
    · exact ih hmem _ (by rw [resolveStep_len]; exact hflen)

/-! ## Claim C1 -/

/-- C1: For every set of execution nodes and collected constraints (over a
registry that indexes the nodes), the planner's output `execution_steps` is a
valid topological linearization of the resolved constraint graph — the steps
are exactly the nodes' steps along a duplicate-free enumeration of all node
indices, and for every constraint that resolves to an edge `from → to`, the
step of `from` appears strictly before the step of `to`.  Whenever no such
linearization exists, planning returns a `SchedulerCycle` error whose
`cycle_nodes` list is non-empty and contains every node whose indegree never
reached zero (the nodes with positive final indegree), never a silently
truncated or reordered step list. -/
theorem c1_scheduler_linearization
    (nodes : List ExecutionNode) (registry : NodeRegistry)
    (constraints : List ExecutionConstraint)
    (hwf : RegistryWF registry nodes.length) :
    (∀ steps,
      topo_sort_steps nodes (resolve_constraints constraints registry)
        = .ok steps →
      steps.length = nodes.length ∧
      ∃ S : List Nat, S.Nodup ∧ (∀ i, i ∈ S ↔ i < nodes.length) ∧
        steps = S.map (fun i => ((nodes.get? i).getD defaultNode).step) ∧
        ∀ c ∈ constraints, ∀ f t, c.resolve registry = some (f, t) →
          ∀ i j, S.get? i = some f → S.get? j = some t → i < j) ∧
    (∀ msg cyc,
      topo_sort_steps nodes (resolve_constraints constraints registry)
        = .error (.SchedulerCycle msg cyc) →
      cyc ≠ [] ∧
      ∀ i, i < nodes.length →
        (kahnResult nodes
          (resolve_constraints constraints registry)).2.getD i 0 ≠ 0 →
        stepToString ((nodes.get? i).getD defaultNode).step ∈ cyc) := by
  have hewf : EdgesWF nodes.length (resolve_constraints constraints registry) :=
    resolve_constraints_wf constraints registry nodes.length hwf
  constructor
  · intro steps h
    obtain ⟨S, hnd, hlen, hiff, hsteps, horder⟩ :=
      topo_sort_ok nodes _ hewf steps h
    refine ⟨by rw [hsteps, List.length_map, hlen], S, hnd, hiff, hsteps, ?_⟩
    intro c hc f t hr i j hi hj
    have hfn := resolve_lt c registry _ hwf f t hr
    have hmem : t ∈ (resolve_constraints constraints registry).getD f [] :=
      resolve_constraints_mem constraints registry c hc f t hr
        (by rw [hwf.hlen]; exact hfn.1)
    exact horder f hfn.1 t hmem i j hi hj
  · intro msg cyc h
    obtain ⟨hcyc, hne⟩ := topo_sort_err nodes _ hewf msg cyc h
    refine ⟨hne, ?_⟩
    intro i hi hstuck
    rw [hcyc]
    apply List.mem_map_of_mem
    rw [List.mem_filter]
    exact ⟨List.mem_range.mpr hi, by simpa using hstuck⟩

/-- A two-node instance with a synthetic constraint cycle between `Push(a)`
and `UpdateBase(a)` (the S6 scenario of the spec). -/
def c1wBookmark : Bookmark :=
  { name := "a", commit_id := "c", change_id := "h", has_remote := false,
    is_synced := false }

/-- The base update of the two-node cycle instance. -/
def c1wUpdate : PrBaseUpdate :=
  { bookmark := c1wBookmark, current_base := "m", expected_base := "n",
    pr := { number := 1, html_url := "u", base_ref := "m", head_ref := "a",
            title := "t", node_id := none, is_draft := false } }

/-- The nodes of the cycle instance. -/
def c1wNodes : List ExecutionNode :=
  [{ step := .Push c1wBookmark, order := 0 },
   { step := .UpdateBase c1wUpdate, order := 1 }]

/-- A registry indexing the two nodes. -/
def c1wRegistry : NodeRegistry :=
  { push := [("a", 0)], update := [("a", 1)], create := [], publish := [] }

/-- Constraints forming a two-cycle between the nodes. -/
def c1wCs : List ExecutionConstraint :=
  [.PushBeforeRetarget "a" "a", .RetargetBeforePush "a" "a"]

/-- The scheduler's cycle message. -/
def c1wMsg : String :=
  "Dependency cycle in execution plan - this is a bug in jj-ryu, please report it"

/-- The stuck-node descriptions of the cycle instance. -/
def c1wCyc : List String := ["push a", "update a (PR #1) m → n"]

/-- Witness for C1: on the concrete two-node cycle, the scheduler returns a
`SchedulerCycle` whose stuck-node list is non-empty. -/
theorem c1_scheduler_linearization_witness :
    topo_sort_steps c1wNodes (resolve_constraints c1wCs c1wRegistry)
      = .error (.SchedulerCycle c1wMsg c1wCyc) ∧ c1wCyc ≠ [] := by
  have hwf : RegistryWF c1wRegistry c1wNodes.length :=
    ⟨by decide, by decide, by decide, by decide, by decide⟩
  have herr : topo_sort_steps c1wNodes (resolve_constraints c1wCs c1wRegistry)
      = .error (.SchedulerCycle c1wMsg c1wCyc) := by rfl
  exact ⟨herr,
    ((c1_scheduler_linearization c1wNodes c1wRegistry c1wCs hwf).2
      c1wMsg c1wCyc herr).1⟩

/-! ## Claim C7 -/

/-- C7: a multi-parent commit anywhere in the resolved trunk..@ range makes
`build_change_graph` return the sentinel graph — no stack, an empty bookmark
map, and `excluded_bookmark_count` exactly 1 regardless of how many
bookmarks were in the range; and every graph the builder returns satisfies
the invariant that a positive `excluded_bookmark_count` implies the stack is
absent. -/
theorem c7_merge_sentinel :
    (∀ (changes : List LogEntry) (all_bookmarks : List Bookmark),
      (∃ c ∈ changes, 2 ≤ c.parents.length) →
      build_change_graph changes all_bookmarks
        = { bookmarks := [], stack := none, excluded_bookmark_count := 1 }) ∧
    (∀ (changes : List LogEntry) (all_bookmarks : List Bookmark),
      0 < (build_change_graph changes all_bookmarks).excluded_bookmark_count →
      (build_change_graph changes all_bookmarks).stack = none) := by
  constructor
  · rintro changes bms ⟨c, hc, hp⟩
    unfold build_change_graph
    have hne : changes.isEmpty = false := by
      cases changes
      · cases hc
      · rfl
    have hany : changes.any (fun change => decide (1 < change.parents.length))
        = true := List.any_eq_true.mpr ⟨c, hc, by simpa using hp⟩
    rw [hne]
    simp only [Bool.false_eq_true, if_false, hany, if_true]
  · intro changes bms
    unfold build_change_graph
    by_cases h1 : changes.isEmpty
    · rw [h1]
      intro h
      simp [ChangeGraph.default] at h
    · rw [show changes.isEmpty = false by simpa using h1]
      simp only [Bool.false_eq_true, if_false]
      by_cases h2 : changes.any (fun change => decide (1 < change.parents.length))
      · rw [h2]
        intro _
        rfl
      · rw [show changes.any (fun change => decide (1 < change.parents.length))
            = false by simpa using h2]
        simp only [Bool.false_eq_true, if_false]
        by_cases h3 : (build_segments_from_changes changes bms).1.isEmpty
        · rw [if_pos h3]
          intro h
          simp at h
        · rw [if_neg h3]
          intro h
          simp at h

/-- A merge commit (two parents) for the C7 witness. -/
def c7wEntry : LogEntry :=
  { commit_id := "m1", change_id := "m1h", author_name := "T",
    author_email := "t@t", description_first_line := "merge",
    parents := ["p1", "p2"], local_bookmarks := ["feat-a"],
    remote_bookmarks := [], is_working_copy := false }

/-- Witness for C7: a range holding one merge commit produces the sentinel
graph. -/
theorem c7_merge_sentinel_witness :
    build_change_graph [c7wEntry] []
      = { bookmarks := [], stack := none, excluded_bookmark_count := 1 } :=
  c7_merge_sentinel.1 [c7wEntry] []
    ⟨c7wEntry, List.mem_singleton.mpr rfl, by decide⟩

/-! ## Claim C9 -/

/-- A bookmark-free commit for the C9 instance. -/
def c9wEntry : LogEntry :=
  { commit_id := "c1", change_id := "c1h", author_name := "T",
    author_email := "t@t", description_first_line := "work",
    parents := ["p"], local_bookmarks := [], remote_bookmarks := [],
    is_working_copy := true }

/-- Counterexample for C9: on a workspace whose range holds commits but no
bookmarked ones, the submit pipeline returns successfully with NO plan at
all — in particular it does not produce an empty plan as the claim states
(and `analyze_submission`, had it been reached, would have raised
`NoStack`). -/
theorem c9_counterexample :
    run_submit_pipeline [c9wEntry] [] none .Default none
        (fun _ => .ok none) "origin" "main" = .ok none
    ∧ (∀ plan : SubmissionPlan,
        run_submit_pipeline [c9wEntry] [] none .Default none
          (fun _ => .ok none) "origin" "main" ≠ .ok (some plan))
    ∧ analyze_submission (build_change_graph [c9wEntry] []) none
        = .error (.NoStack "No bookmarks found between trunk and working copy. Create a bookmark with: jj bookmark create <name>") := by
  refine ⟨rfl, ?_, rfl⟩
  intro plan h
  rw [show run_submit_pipeline [c9wEntry] [] none .Default none
      (fun _ => .ok none) "origin" "main" = .ok none from rfl] at h
  cases h

theorem build_segments_no_bookmarks (bms : List Bookmark) :
    ∀ (cs : List LogEntry) (acc : List BookmarkSegment × List LogEntry),
      (∀ c ∈ cs, c.local_bookmarks = []) →
      (cs.foldl (fun (acc : List BookmarkSegment × List LogEntry) change =>
        let current_changes := acc.2 ++ [change]
        if change.local_bookmarks.isEmpty then (acc.1, current_changes)
        else
          let segment_bookmarks := change.local_bookmarks.filterMap
            (mapLookup (bms.foldl (fun m b => mapInsert m b.name b) []))
          if segment_bookmarks.isEmpty then (acc.1, current_changes)
          else
            (acc.1 ++ [{ bookmarks := segment_bookmarks,
                         changes := current_changes }], [])) acc).1 = acc.1 := by
  intro cs
  induction cs with
  | nil => intro acc _; rfl
  | cons c rest ih =>
    intro acc hall
    rw [List.foldl_cons]
    have hc : c.local_bookmarks = [] := hall c (List.mem_cons_self c rest)
    have : c.local_bookmarks.isEmpty = true := by rw [hc]; rfl
    rw [ih _ (fun x hx => hall x (List.mem_cons_of_mem c hx))]
    simp only [this, if_true]

/-- C9 as amended: a workspace whose trunk..@ range contains no bookmarked
commits makes the submit pipeline exit successfully before analysis and
planning, producing no plan object at all and raising no error. -/
theorem c9_no_stack_no_plan (changes : List LogEntry)
    (all_bookmarks : List Bookmark) (bookmark : Option String)
    (scope : SubmitScope) (upto : Option String)
    (find : String → Except Error (Option PullRequest))
    (remote default_branch : String)
    (h : ∀ c ∈ changes, c.local_bookmarks = []) :
    run_submit_pipeline changes all_bookmarks bookmark scope upto find
      remote default_branch = .ok none := by
  have hstack : (build_change_graph changes all_bookmarks).stack = none := by
    unfold build_change_graph
    by_cases h1 : changes.isEmpty
    · rw [h1]; rfl
    · rw [show changes.isEmpty = false by simpa using h1]
      simp only [Bool.false_eq_true, if_false]
      by_cases h2 : changes.any (fun change => decide (1 < change.parents.length))
      · rw [h2]
        rfl
      · rw [show changes.any (fun change => decide (1 < change.parents.length))
            = false by simpa using h2]
        simp only [Bool.false_eq_true, if_false]
        have hseg : (build_segments_from_changes changes all_bookmarks).1 = [] := by
          unfold build_segments_from_changes
          dsimp only
          rw [build_segments_no_bookmarks all_bookmarks changes ([], []) h]
          rfl
        rw [if_pos (by rw [hseg]; rfl)]
    -- remaining branches produce stack := none definitionally
  unfold run_submit_pipeline
  dsimp only
  rw [hstack]
  rfl

/-- Witness for the amended C9 theorem at a concrete bookmark-free range. -/
theorem c9_no_stack_no_plan_witness :
    run_submit_pipeline [c9wEntry] [] none .Default none
      (fun _ => .ok none) "origin" "main" = .ok none :=
  c9_no_stack_no_plan [c9wEntry] [] none .Default none (fun _ => .ok none)
    "origin" "main" (by decide)

/-- A small fixture bookmark used by concrete instances below. -/
def testBookmark (name : String) : Bookmark :=
  { name := name, commit_id := name ++ "_c", change_id := name ++ "_h",
    has_remote := false, is_synced := false }

/-! ## Claim C8 -/

/-- A graph with a single segment whose tip carries the candidate bookmarks
`u` and `up`; narrowing picks the shorter name `u`. -/
def c8wGraph : ChangeGraph :=
  { bookmarks := [("u", testBookmark "u"), ("up", testBookmark "up")],
    stack := some { segments :=
      [{ bookmarks := [testBookmark "u", testBookmark "up"], changes := [] }] },
    excluded_bookmark_count := 0 }

/-- Counterexample for C8: the first (and only) segment's tip includes the
name "up" among its candidates, yet `build_analysis` under `upto("up")`
fails with `InvalidArgument` instead of truncating there — the code compares
the requested name against the NARROWED bookmark of each segment (here "u"),
not against the tip's candidate list. -/
theorem c8_counterexample :
    build_analysis c8wGraph none .Upto (some "up") (fun _ => .ok none)
      = .error (.InvalidArgument "Bookmark 'up' not found in stack")
    ∧ (∃ seg ∈ (c8wGraph.stack.getD { segments := [] }).segments,
        ∃ b ∈ seg.bookmarks, b.name = "up") := by
  constructor
  · rfl
  · decide

/-- C8 as amended: under scope upto(name), the analysis's segment list is
truncated inclusively at the first segment whose NARROWED bookmark equals
`name`, and the target is set to `name`; if no narrowed segment's bookmark
equals `name`, `build_analysis` fails with an `InvalidArgument` error (and
hence `run_submit_pipeline` never reaches planning). -/
theorem c8_upto_truncation (graph : ChangeGraph) (bookmark : Option String)
    (upto : String) (find : String → Except Error (Option PullRequest))
    (a : SubmissionAnalysis) (ha : analyze_submission graph bookmark = .ok a) :
    build_analysis graph bookmark .Upto (some upto) find
      = match a.segments.findIdx? (fun s => s.bookmark.name == upto) with
        | some idx =>
          .ok { target_bookmark := upto, segments := a.segments.take (idx + 1) }
        | none =>
          .error (.InvalidArgument ("Bookmark '" ++ upto ++ "' not found in stack")) := by
  cases hidx : a.segments.findIdx? (fun s => s.bookmark.name == upto) with
  | none =>
    simp [build_analysis, ha, hidx, Bind.bind, Except.bind, Pure.pure,
      Except.pure, throw, throwThe, MonadExceptOf.throw]
  | some idx =>
    simp [build_analysis, ha, hidx, Bind.bind, Except.bind, Pure.pure,
      Except.pure, throw, throwThe, MonadExceptOf.throw]

/-- The expected truncated analysis of the C8 witness. -/
def c8wAnalysis : SubmissionAnalysis :=
  { target_bookmark := "u",
    segments := [{ bookmark := testBookmark "u", changes := [] }] }

/-- Witness for the amended C8 theorem: a concrete two-candidate graph where
upto("u") truncates at the narrowed segment and retargets the analysis. -/
theorem c8_upto_truncation_witness :
    build_analysis c8wGraph none .Upto (some "u") (fun _ => .ok none)
      = .ok c8wAnalysis := by
  have h := c8_upto_truncation c8wGraph none "u" (fun _ => .ok none)
    c8wAnalysis (by rfl)
  simpa using h

/-! ## Claim C6 -/

/-- Counterexample for C6: with candidates `[wip-a, b]` and requested target
`wip-a`, narrowing returns the temporary name `wip-a` even though the
non-temporary candidate `b` exists — the target-preference step runs before
the temporary filter. -/
theorem c6_counterexample :
    (select_bookmark_for_segment
      { bookmarks := [testBookmark "wip-a", testBookmark "b"], changes := [] }
      (some "wip-a")).name = "wip-a"
    ∧ is_temporary_bookmark "wip-a" = true
    ∧ is_temporary_bookmark "b" = false := by
  refine ⟨rfl, rfl, rfl⟩

/-- C6 as amended: the narrowed bookmark is always one of the segment's
candidates; and when no candidate equals the requested target (in
particular when no target is requested), the existence of a non-temporary
candidate forces the chosen bookmark to be non-temporary. -/
theorem c6_narrowing (segment : BookmarkSegment) (target : Option String)
    (hne : segment.bookmarks ≠ []) :
    select_bookmark_for_segment segment target ∈ segment.bookmarks
    ∧ ((∀ t, target = some t → ∀ b ∈ segment.bookmarks, b.name ≠ t) →
       (∃ b ∈ segment.bookmarks, is_temporary_bookmark b.name = false) →
       is_temporary_bookmark (select_bookmark_for_segment segment target).name
         = false) := by
  unfold select_bookmark_for_segment
  by_cases h1 : segment.bookmarks.length = 1
  · rw [if_pos h1]
    cases hb : segment.bookmarks with
    | nil => exact absurd hb hne
    | cons x xs =>
      have hxs : xs = [] := by
        rw [hb] at h1
        simpa using h1
      subst hxs
      constructor
      · simp
      · rintro _ ⟨b, hbm, hbt⟩
        rw [List.mem_singleton.mp hbm] at hbt
        simpa using hbt
  · rw [if_neg h1]
    cases htgt : target.bind (fun t => segment.bookmarks.find?
        (fun b => b.name == t)) with
    | some b =>
      obtain ⟨t, hts, hfind⟩ := Option.bind_eq_some.mp htgt
      have hbm : b ∈ segment.bookmarks := List.mem_of_find?_eq_some hfind
      have hbn : b.name = t := by
        have := List.find?_some hfind
        simpa using this
      refine ⟨hbm, ?_⟩
      intro hnot _
      exact absurd hbn (hnot t hts b hbm)
    | none =>
      dsimp only
      by_cases hcand : (segment.bookmarks.filter
          (fun b => !is_temporary_bookmark b.name)).isEmpty
      · rw [if_pos hcand]
        have hnotemp : ¬ ∃ b ∈ segment.bookmarks,
            is_temporary_bookmark b.name = false := by
          rintro ⟨b2, hb2m, hb2t⟩
          have : b2 ∈ segment.bookmarks.filter
              (fun b => !is_temporary_bookmark b.name) :=
            List.mem_filter.mpr ⟨hb2m, by simp [hb2t]⟩
          rw [List.isEmpty_iff.mp hcand] at this
          cases this
        cases hmin : minByFirst bookmarkCmp segment.bookmarks with
        | some b =>
          exact ⟨minByFirst_mem _ _ _ hmin, fun _ hex => absurd hex hnotemp⟩
        | none =>
          exfalso
          cases hb : segment.bookmarks with
          | nil => exact hne hb
          | cons x xs =>
            rw [hb] at hmin
            simp [minByFirst] at hmin
      · rw [if_neg hcand]
        cases hmin : minByFirst bookmarkCmp (segment.bookmarks.filter
            (fun b => !is_temporary_bookmark b.name)) with
        | some b =>
          have hbm := minByFirst_mem _ _ _ hmin
          have hmf := List.mem_filter.mp hbm
          refine ⟨hmf.1, ?_⟩
          intro _ _
          simpa using hmf.2
        | none =>
          exfalso
          apply hcand
          cases hfe : segment.bookmarks.filter
              (fun b => !is_temporary_bookmark b.name) with
          | nil => rfl
          | cons x xs =>
            rw [hfe] at hmin
            simp [minByFirst] at hmin

/-- The two-candidate segment of the C6 witness. -/
def c6wSegment : BookmarkSegment :=
  { bookmarks := [testBookmark "tmp-test", testBookmark "feature"],
    changes := [] }

/-- Witness for the amended C6 theorem: candidates `[tmp-test, feature]`
with no target narrow to a candidate that is non-temporary. -/
theorem c6_narrowing_witness :
    select_bookmark_for_segment c6wSegment none ∈ c6wSegment.bookmarks
    ∧ is_temporary_bookmark
        (select_bookmark_for_segment c6wSegment none).name = false := by
  have h := c6_narrowing c6wSegment none (by decide)
  exact ⟨h.1, h.2 (fun t ht => by cases ht) (by decide)⟩

/-! ## Helper lemmas: association-list maps -/

theorem find?_append {α : Type} (p : α → Bool) : ∀ (l1 l2 : List α),
    (l1 ++ l2).find? p = match l1.find? p with
      | some x => some x
      | none => l2.find? p := by
  intro l1 l2
  induction l1 with
  | nil => simp
  | cons x xs ih =>
    by_cases hx : p x
    · simp [List.find?_cons, hx]
    · rw [show (x :: xs) ++ l2 = x :: (xs ++ l2) from rfl]
      rw [List.find?_cons, List.find?_cons]
      rw [show p x = false by simpa using hx]
      exact ih

theorem mapLookup_insert_self {α : Type} (m : List (String × α)) (k : String)
    (v : α) (h : mapLookup m k = none) :
    mapLookup (mapInsert m k v) k = some v := by
  have hfind : m.find? (fun p => p.1 == k) = none := by
    unfold mapLookup at h
    cases hf : m.find? (fun p => p.1 == k) with
    | none => rfl
    | some p => rw [hf] at h; cases h
  have hany : m.any (fun p => p.1 == k) = false := by
    rw [List.any_eq_false]
    intro p hp hpk
    have := List.find?_eq_none.mp hfind p hp
    exact this hpk
  unfold mapInsert
  rw [hany]
  simp only [Bool.false_eq_true, if_false]
  unfold mapLookup
  rw [find?_append, hfind]
  simp

theorem find?_map_overwrite {α : Type} (k k2 : String) (v : α) (h : k2 ≠ k) :
    ∀ m : List (String × α),
      (m.map (fun p => if p.1 == k then (k, v) else p)).find? (fun p => p.1 == k2)
        = m.find? (fun p => p.1 == k2) := by
  have hkk2 : ((k : String) == k2) = false :=
    beq_eq_false_iff_ne.mpr (fun hk => h hk.symm)
  intro m
  induction m with
  | nil => rfl
  | cons p ps ih =>
    rw [List.map_cons]
    by_cases hpk : (p.1 == k) = true
    · have hp1 : p.1 = k := by simpa using hpk
      have h2 : (p.1 == k2) = false := by rw [hp1]; exact hkk2
      rw [if_pos hpk]
      simp only [List.find?_cons, hkk2, h2]
      exact ih
    · rw [if_neg hpk]
      by_cases hpc : (p.1 == k2) = true
      · simp only [List.find?_cons, hpc]
      · simp only [List.find?_cons, show (p.1 == k2) = false by simpa using hpc]
        exact ih

theorem mapLookup_insert_ne {α : Type} (m : List (String × α)) (k : String)
    (v : α) (k2 : String) (h : k2 ≠ k) :
    mapLookup (mapInsert m k v) k2 = mapLookup m k2 := by
  have hkk2 : ((k : String) == k2) = false :=
    beq_eq_false_iff_ne.mpr (fun hk => h hk.symm)
  unfold mapInsert
  by_cases hany : m.any (fun p => p.1 == k)
  · rw [if_pos hany]
    unfold mapLookup
    rw [find?_map_overwrite k k2 v h m]
  · rw [if_neg hany]
    unfold mapLookup
    rw [find?_append]
    cases hf : m.find? (fun p => p.1 == k2) with
    | some p => rfl
    | none =>
      simp only [List.find?_cons, hkk2]
      rfl

theorem mapInsert_length_fresh {α : Type} (m : List (String × α)) (k : String)
    (v : α) (h : mapLookup m k = none) :
    (mapInsert m k v).length = m.length + 1 := by
  have hfind : m.find? (fun p => p.1 == k) = none := by
    unfold mapLookup at h
    cases hf : m.find? (fun p => p.1 == k) with
    | none => rfl
    | some p => rw [hf] at h; cases h
  have hany : m.any (fun p => p.1 == k) = false := by
    rw [List.any_eq_false]
    intro p hp hpk
    exact (List.find?_eq_none.mp hfind p hp) hpk
  unfold mapInsert
  rw [hany]
  simp

theorem mem_mapInsert {α : Type} (m : List (String × α)) (k : String) (v : α)
    (p : String × α) (h : p ∈ mapInsert m k v) : p ∈ m ∨ p = (k, v) := by
  unfold mapInsert at h
  by_cases hany : m.any (fun q => q.1 == k)
  · rw [if_pos hany] at h
    obtain ⟨q, hq, hqe⟩ := List.mem_map.mp h
    by_cases hqk : q.1 == k
    · right
      rw [if_pos hqk] at hqe
      exact hqe.symm
    · left
      rw [if_neg hqk] at hqe
      exact hqe ▸ hq
  · rw [if_neg hany] at h
    rcases List.mem_append.mp h with h2 | h2
    · exact .inl h2
    · exact .inr (List.mem_singleton.mp h2)

theorem mapContains_lookup {α : Type} (m : List (String × α)) (k : String) :
    mapContains m k = false ↔ mapLookup m k = none := by
  unfold mapContains mapLookup
  constructor
  · intro h
    have hfind : m.find? (fun p => p.1 == k) = none := by
      rw [List.find?_eq_none]
      intro p hp
      have := List.any_eq_false.mp h p hp
      simpa using this
    rw [hfind]
    rfl
  · intro h
    rw [List.any_eq_false]
    intro p hp hpk
    cases hf : m.find? (fun q => q.1 == k) with
    | none => exact (List.find?_eq_none.mp hf p hp) hpk
    | some q => rw [hf] at h; cases h


/-! ## Helper lemmas: the node builder -/

theorem pn_nodes (st : NodeBuildState) (step : ExecutionStep) (name : String) :
    (pushNode st step name).nodes
      = st.nodes ++ [{ step := step, order := st.order }] := rfl

theorem pn_len (st : NodeBuildState) (step : ExecutionStep) (name : String) :
    (pushNode st step name).nodes.length = st.nodes.length + 1 := by
  rw [pn_nodes, List.length_append, List.length_singleton]

theorem pn_order (st : NodeBuildState) (step : ExecutionStep) (name : String) :
    (pushNode st step name).order = st.order + 1 := rfl

theorem pnP_push (st : NodeBuildState) (bm : Bookmark) (name : String) :
    (pushNode st (.Push bm) name).registry.push
      = mapInsert st.registry.push name st.nodes.length := rfl

theorem pnP_update (st : NodeBuildState) (bm : Bookmark) (name : String) :
    (pushNode st (.Push bm) name).registry.update = st.registry.update := rfl

theorem pnP_create (st : NodeBuildState) (bm : Bookmark) (name : String) :
    (pushNode st (.Push bm) name).registry.create = st.registry.create := rfl

theorem pnP_publish (st : NodeBuildState) (bm : Bookmark) (name : String) :
    (pushNode st (.Push bm) name).registry.publish = st.registry.publish := rfl

theorem pnU_push (st : NodeBuildState) (u : PrBaseUpdate) (name : String) :
    (pushNode st (.UpdateBase u) name).registry.push = st.registry.push := rfl

theorem pnU_update (st : NodeBuildState) (u : PrBaseUpdate) (name : String) :
    (pushNode st (.UpdateBase u) name).registry.update
      = mapInsert st.registry.update name st.nodes.length := rfl

theorem pnU_create (st : NodeBuildState) (u : PrBaseUpdate) (name : String) :
    (pushNode st (.UpdateBase u) name).registry.create = st.registry.create := rfl

theorem pnU_publish (st : NodeBuildState) (u : PrBaseUpdate) (name : String) :
    (pushNode st (.UpdateBase u) name).registry.publish
      = st.registry.publish := rfl

theorem pnC_push (st : NodeBuildState) (c : PrToCreate) (name : String) :
    (pushNode st (.CreatePr c) name).registry.push = st.registry.push := rfl

theorem pnC_update (st : NodeBuildState) (c : PrToCreate) (name : String) :
    (pushNode st (.CreatePr c) name).registry.update = st.registry.update := rfl

theorem pnC_create (st : NodeBuildState) (c : PrToCreate) (name : String) :
    (pushNode st (.CreatePr c) name).registry.create
      = mapInsert st.registry.create name st.nodes.length := rfl

theorem pnC_publish (st : NodeBuildState) (c : PrToCreate) (name : String) :
    (pushNode st (.CreatePr c) name).registry.publish
      = st.registry.publish := rfl

theorem pnB_push (st : NodeBuildState) (pr : PullRequest) (name : String) :
    (pushNode st (.PublishPr pr) name).registry.push = st.registry.push := rfl

theorem pnB_update (st : NodeBuildState) (pr : PullRequest) (name : String) :
    (pushNode st (.PublishPr pr) name).registry.update
      = st.registry.update := rfl

theorem pnB_create (st : NodeBuildState) (pr : PullRequest) (name : String) :
    (pushNode st (.PublishPr pr) name).registry.create
      = st.registry.create := rfl

theorem pnB_publish (st : NodeBuildState) (pr : PullRequest) (name : String) :
    (pushNode st (.PublishPr pr) name).registry.publish
      = mapInsert st.registry.publish name st.nodes.length := rfl

theorem regLen_expand (r : NodeRegistry) :
    r.len = r.push.length + r.update.length + r.create.length
      + r.publish.length := rfl

/-- Invariant of the node-builder state: the insertion-order counter tracks
the node count, the registry indexes exactly the nodes built so far at
in-range indices, and every `Push` / `UpdateBase` node is registered under
its own bookmark name at its own index. -/
structure BuildInv (st : NodeBuildState) : Prop where
  horder : st.order = st.nodes.length
  hlen : st.registry.len = st.nodes.length
  hpushB : ∀ p ∈ st.registry.push, p.2 < st.nodes.length
  hupdB : ∀ p ∈ st.registry.update, p.2 < st.nodes.length
  hcreB : ∀ p ∈ st.registry.create, p.2 < st.nodes.length
  hpubB : ∀ p ∈ st.registry.publish, p.2 < st.nodes.length
  hpushN : ∀ k node bm, st.nodes.get? k = some node → node.step = .Push bm →
    mapLookup st.registry.push bm.name = some k
  hupdN : ∀ k node u, st.nodes.get? k = some node → node.step = .UpdateBase u →
    mapLookup st.registry.update u.bookmark.name = some k

theorem get?_append_cases {α : Type} (l : List α) (x : α) (k : Nat) (y : α)
    (h : (l ++ [x]).get? k = some y) :
    (k < l.length ∧ l.get? k = some y) ∨ (k = l.length ∧ y = x) := by
  rcases Nat.lt_trichotomy k l.length with hk | hk | hk
  · left
    rw [List.get?_append hk] at h
    exact ⟨hk, h⟩
  · right
    subst hk
    rw [List.get?_concat_length] at h
    injection h with h2
    exact ⟨rfl, h2.symm⟩
  · exfalso
    rw [List.get?_append_right (by omega)] at h
    cases h2 : k - l.length with
    | zero => omega
    | succ m =>
      rw [h2] at h
      simp at h

theorem pushNode_inv_push (st : NodeBuildState) (bm : Bookmark) (name : String)
    (hinv : BuildInv st) (hname : bm.name = name)
    (hfresh : mapLookup st.registry.push name = none) :
    BuildInv (pushNode st (.Push bm) name) := by
  refine ⟨?_, ?_, ?_, ?_, ?_, ?_, ?_, ?_⟩
  · rw [pn_order, pn_len, hinv.horder]
  · rw [pn_len, regLen_expand, pnP_push, pnP_update, pnP_create, pnP_publish,
      mapInsert_length_fresh _ _ _ hfresh]
    have := hinv.hlen
    rw [regLen_expand] at this
    omega
  · intro p hp
    rw [pnP_push] at hp
    rw [pn_len]
    rcases mem_mapInsert _ _ _ p hp with hm | rfl
    · have := hinv.hpushB p hm
      omega
    · omega
  · intro p hp
    rw [pnP_update] at hp
    rw [pn_len]
    have := hinv.hupdB p hp
    omega
  · intro p hp
    rw [pnP_create] at hp
    rw [pn_len]
    have := hinv.hcreB p hp
    omega
  · intro p hp
    rw [pnP_publish] at hp
    rw [pn_len]
    have := hinv.hpubB p hp
    omega
  · intro k node bm2 hget hstep
    rw [pn_nodes] at hget
    rw [pnP_push]
    rcases get?_append_cases _ _ _ _ hget with ⟨_, hold⟩ | ⟨hk, hnode⟩
    · have hlk := hinv.hpushN k node bm2 hold hstep
      by_cases hbn : bm2.name = name
      · rw [hbn, hfresh] at hlk
        cases hlk
      · rw [mapLookup_insert_ne _ _ _ _ hbn]
        exact hlk
    · subst hnode
      have hbm2 : bm2 = bm := by
        injection hstep with h2
        exact h2.symm
      subst hbm2
      subst hk
      rw [hname]
      exact mapLookup_insert_self _ _ _ hfresh
  · intro k node u hget hstep
    rw [pn_nodes] at hget
    rw [pnP_update]
    rcases get?_append_cases _ _ _ _ hget with ⟨_, hold⟩ | ⟨_, hnode⟩
    · exact hinv.hupdN k node u hold hstep
    · subst hnode
      cases hstep

theorem pushNode_inv_update (st : NodeBuildState) (u : PrBaseUpdate)
    (hinv : BuildInv st)
    (hfresh : mapLookup st.registry.update u.bookmark.name = none) :
    BuildInv (pushNode st (.UpdateBase u) u.bookmark.name) := by
  refine ⟨?_, ?_, ?_, ?_, ?_, ?_, ?_, ?_⟩
  · rw [pn_order, pn_len, hinv.horder]
  · rw [pn_len, regLen_expand, pnU_push, pnU_update, pnU_create, pnU_publish,
      mapInsert_length_fresh _ _ _ hfresh]
    have := hinv.hlen
    rw [regLen_expand] at this
    omega
  · intro p hp
    rw [pnU_push] at hp
    rw [pn_len]
    have := hinv.hpushB p hp
    omega
  · intro p hp
    rw [pnU_update] at hp
    rw [pn_len]
    rcases mem_mapInsert _ _ _ p hp with hm | rfl
    · have := hinv.hupdB p hm
      omega
    · omega
  · intro p hp
    rw [pnU_create] at hp
    rw [pn_len]
    have := hinv.hcreB p hp
    omega
  · intro p hp
    rw [pnU_publish] at hp
    rw [pn_len]
    have := hinv.hpubB p hp
    omega
  · intro k node bm2 hget hstep
    rw [pn_nodes] at hget
    rw [pnU_push]
    rcases get?_append_cases _ _ _ _ hget with ⟨_, hold⟩ | ⟨_, hnode⟩
    · exact hinv.hpushN k node bm2 hold hstep
    · subst hnode
      cases hstep
  · intro k node u2 hget hstep
    rw [pn_nodes] at hget
    rw [pnU_update]
    rcases get?_append_cases _ _ _ _ hget with ⟨_, hold⟩ | ⟨hk, hnode⟩
    · have hlk := hinv.hupdN k node u2 hold hstep
      by_cases hbn : u2.bookmark.name = u.bookmark.name
      · rw [hbn, hfresh] at hlk
        cases hlk
      · rw [mapLookup_insert_ne _ _ _ _ hbn]
        exact hlk
    · subst hnode
      have hu2 : u2 = u := by
        injection hstep with h2
        exact h2.symm
      subst hu2
      subst hk
      exact mapLookup_insert_self _ _ _ hfresh

theorem pushNode_inv_create (st : NodeBuildState) (c : PrToCreate)
    (name : String) (hinv : BuildInv st)
    (hfresh : mapLookup st.registry.create name = none) :
    BuildInv (pushNode st (.CreatePr c) name) := by
  refine ⟨?_, ?_, ?_, ?_, ?_, ?_, ?_, ?_⟩
  · rw [pn_order, pn_len, hinv.horder]
  · rw [pn_len, regLen_expand, pnC_push, pnC_update, pnC_create, pnC_publish,
      mapInsert_length_fresh _ _ _ hfresh]
    have := hinv.hlen
    rw [regLen_expand] at this
    omega
  · intro p hp
    rw [pnC_push] at hp
    rw [pn_len]
    have := hinv.hpushB p hp
    omega
  · intro p hp
    rw [pnC_update] at hp
    rw [pn_len]
    have := hinv.hupdB p hp
    omega
  · intro p hp
    rw [pnC_create] at hp
    rw [pn_len]
    rcases mem_mapInsert _ _ _ p hp with hm | rfl
    · have := hinv.hcreB p hm
      omega
    · omega
  · intro p hp
    rw [pnC_publish] at hp
    rw [pn_len]
    have := hinv.hpubB p hp
    omega
  · intro k node bm2 hget hstep
    rw [pn_nodes] at hget
    rw [pnC_push]
    rcases get?_append_cases _ _ _ _ hget with ⟨_, hold⟩ | ⟨_, hnode⟩
    · exact hinv.hpushN k node bm2 hold hstep
    · subst hnode
      cases hstep
  · intro k node u2 hget hstep
    rw [pn_nodes] at hget
    rw [pnC_update]
    rcases get?_append_cases _ _ _ _ hget with ⟨_, hold⟩ | ⟨_, hnode⟩
    · exact hinv.hupdN k node u2 hold hstep
    · subst hnode
      cases hstep

theorem pushNode_inv_publish (st : NodeBuildState) (pr : PullRequest)
    (hinv : BuildInv st)
    (hfresh : mapLookup st.registry.publish pr.head_ref = none) :
    BuildInv (pushNode st (.PublishPr pr) pr.head_ref) := by
  refine ⟨?_, ?_, ?_, ?_, ?_, ?_, ?_, ?_⟩
  · rw [pn_order, pn_len, hinv.horder]
  · rw [pn_len, regLen_expand, pnB_push, pnB_update, pnB_create, pnB_publish,
      mapInsert_length_fresh _ _ _ hfresh]
    have := hinv.hlen
    rw [regLen_expand] at this
    omega
  · intro p hp
    rw [pnB_push] at hp
    rw [pn_len]
    have := hinv.hpushB p hp
    omega
  · intro p hp
    rw [pnB_update] at hp
    rw [pn_len]
    have := hinv.hupdB p hp
    omega
  · intro p hp
    rw [pnB_create] at hp
    rw [pn_len]
    have := hinv.hcreB p hp
    omega
  · intro p hp
    rw [pnB_publish] at hp
    rw [pn_len]
    rcases mem_mapInsert _ _ _ p hp with hm | rfl
    · have := hinv.hpubB p hm
      omega
    · omega
  · intro k node bm2 hget hstep
    rw [pn_nodes] at hget
    rw [pnB_push]
    rcases get?_append_cases _ _ _ _ hget with ⟨_, hold⟩ | ⟨_, hnode⟩
    · exact hinv.hpushN k node bm2 hold hstep
    · subst hnode
      cases hstep
  · intro k node u2 hget hstep
    rw [pn_nodes] at hget
    rw [pnB_update]
    rcases get?_append_cases _ _ _ _ hget with ⟨_, hold⟩ | ⟨_, hnode⟩
    · exact hinv.hupdN k node u2 hold hstep
    · subst hnode
      cases hstep

theorem pushSegStep_pos (pushes : List Bookmark) (st : NodeBuildState)
    (seg : NarrowedBookmarkSegment)
    (hc : (pushes.map (fun b => b.name)).any
      (fun x => x == seg.bookmark.name) = true) :
    pushSegStep pushes st seg
      = pushNode st (.Push ((pushes.find?
          (fun b => b.name == seg.bookmark.name)).getD emptyBookmark))
        seg.bookmark.name := by
  simp only [pushSegStep, hc, if_true]

theorem pushSegStep_neg (pushes : List Bookmark) (st : NodeBuildState)
    (seg : NarrowedBookmarkSegment)
    (hc : (pushes.map (fun b => b.name)).any
      (fun x => x == seg.bookmark.name) = false) :
    pushSegStep pushes st seg = st := by
  simp only [pushSegStep, hc, Bool.false_eq_true, if_false]

theorem pushSafetyStep_pos (st : NodeBuildState) (b : Bookmark)
    (hc : mapContains st.registry.push b.name = true) :
    pushSafetyStep st b = st := by
  simp only [pushSafetyStep, hc, if_true]

theorem pushSafetyStep_neg (st : NodeBuildState) (b : Bookmark)
    (hc : mapContains st.registry.push b.name = false) :
    pushSafetyStep st b = pushNode st (.Push b) b.name := by
  simp only [pushSafetyStep, hc, Bool.false_eq_true, if_false]

theorem createSegStep_pos (creates : List PrToCreate) (st : NodeBuildState)
    (seg : NarrowedBookmarkSegment)
    (hc : (creates.map (fun c => c.bookmark.name)).any
      (fun x => x == seg.bookmark.name) = true) :
    createSegStep creates st seg
      = pushNode st (.CreatePr ((creates.find?
          (fun c => c.bookmark.name == seg.bookmark.name)).getD
          { bookmark := emptyBookmark, base_branch := "", title := "",
            draft := false })) seg.bookmark.name := by
  simp only [createSegStep, hc, if_true]

theorem createSegStep_neg (creates : List PrToCreate) (st : NodeBuildState)
    (seg : NarrowedBookmarkSegment)
    (hc : (creates.map (fun c => c.bookmark.name)).any
      (fun x => x == seg.bookmark.name) = false) :
    createSegStep creates st seg = st := by
  simp only [createSegStep, hc, Bool.false_eq_true, if_false]

theorem fold_pushSeg_inv (pushes : List Bookmark) :
    ∀ (segs : List NarrowedBookmarkSegment) (st : NodeBuildState),
    BuildInv st → (segs.map (fun s => s.bookmark.name)).Nodup →
    (∀ s ∈ segs, mapLookup st.registry.push s.bookmark.name = none) →
    BuildInv (segs.foldl (pushSegStep pushes) st)
    ∧ (segs.foldl (pushSegStep pushes) st).registry.update
        = st.registry.update
    ∧ (segs.foldl (pushSegStep pushes) st).registry.create
        = st.registry.create
    ∧ (segs.foldl (pushSegStep pushes) st).registry.publish
        = st.registry.publish := by
  intro segs
  induction segs with
  | nil => intro st hinv _ _; exact ⟨hinv, rfl, rfl, rfl⟩
  | cons seg rest ih =>
    intro st hinv hnd hfresh
    rw [List.foldl_cons]
    rw [List.map_cons, List.nodup_cons] at hnd
    cases hc : (pushes.map (fun b => b.name)).any
        (fun x => x == seg.bookmark.name) with
    | false =>
      rw [pushSegStep_neg pushes st seg hc]
      exact ih st hinv hnd.2 (fun s hs => hfresh s (List.mem_cons_of_mem _ hs))
    | true =>
      rw [pushSegStep_pos pushes st seg hc]
      have hex : ∃ b ∈ pushes, (b.name == seg.bookmark.name) = true := by
        rcases List.any_eq_true.mp hc with ⟨nm, hnm, hbeq⟩
        rcases List.mem_map.mp hnm with ⟨b, hb, hbm⟩
        exact ⟨b, hb, by rw [hbm]; exact hbeq⟩
      have hne : pushes.find? (fun b => b.name == seg.bookmark.name)
          ≠ none := by
        intro hn
        rcases hex with ⟨b, hb, hbeq⟩
        have := List.find?_eq_none.mp hn b hb
        rw [hbeq] at this
        exact this rfl
      rcases Option.ne_none_iff_exists.mp hne with ⟨b2, hfind⟩
      have hname : b2.name = seg.bookmark.name := by
        have := List.find?_some hfind.symm
        exact eq_of_beq this
      rw [← hfind, Option.getD_some]
      have hfr : mapLookup st.registry.push seg.bookmark.name = none :=
        hfresh seg (List.mem_cons_self _ _)
      have hinv2 := pushNode_inv_push st b2 seg.bookmark.name hinv hname hfr
      have hfresh2 : ∀ s ∈ rest,
          mapLookup (pushNode st (.Push b2)
            seg.bookmark.name).registry.push s.bookmark.name = none := by
        intro s hs
        rw [pnP_push]
        have hne2 : s.bookmark.name ≠ seg.bookmark.name := by
          intro he
          exact hnd.1 (by rw [← he]; exact List.mem_map_of_mem _ hs)
        rw [mapLookup_insert_ne _ _ _ _ hne2]
        exact hfresh s (List.mem_cons_of_mem _ hs)
      have hrec := ih _ hinv2 hnd.2 hfresh2
      refine ⟨hrec.1, ?_, ?_, ?_⟩
      · rw [hrec.2.1, pnP_update]
      · rw [hrec.2.2.1, pnP_create]
      · rw [hrec.2.2.2, pnP_publish]

theorem fold_pushSafety_inv :
    ∀ (bms : List Bookmark) (st : NodeBuildState), BuildInv st →
    BuildInv (bms.foldl pushSafetyStep st)
    ∧ (bms.foldl pushSafetyStep st).registry.update = st.registry.update
    ∧ (bms.foldl pushSafetyStep st).registry.create = st.registry.create
    ∧ (bms.foldl pushSafetyStep st).registry.publish
        = st.registry.publish := by
  intro bms
  induction bms with
  | nil => intro st hinv; exact ⟨hinv, rfl, rfl, rfl⟩
  | cons b rest ih =>
    intro st hinv
    rw [List.foldl_cons]
    cases hc : mapContains st.registry.push b.name with
    | true =>
      rw [pushSafetyStep_pos st b hc]
      exact ih st hinv
    | false =>
      rw [pushSafetyStep_neg st b hc]
      have hfr : mapLookup st.registry.push b.name = none :=
        (mapContains_lookup _ _).mp hc
      have hinv2 := pushNode_inv_push st b b.name hinv rfl hfr
      have hrec := ih _ hinv2
      refine ⟨hrec.1, ?_, ?_, ?_⟩
      · rw [hrec.2.1, pnP_update]
      · rw [hrec.2.2.1, pnP_create]
      · rw [hrec.2.2.2, pnP_publish]

theorem fold_update_inv :
    ∀ (updates : List PrBaseUpdate) (st : NodeBuildState), BuildInv st →
    (updates.map (fun u => u.bookmark.name)).Nodup →
    (∀ u ∈ updates, mapLookup st.registry.update u.bookmark.name = none) →
    BuildInv (updates.foldl updateNodeStep st)
    ∧ (updates.foldl updateNodeStep st).registry.push = st.registry.push
    ∧ (updates.foldl updateNodeStep st).registry.create = st.registry.create
    ∧ (updates.foldl updateNodeStep st).registry.publish
        = st.registry.publish := by
  intro updates
  induction updates with
  | nil => intro st hinv _ _; exact ⟨hinv, rfl, rfl, rfl⟩
  | cons u rest ih =>
    intro st hinv hnd hfresh
    rw [List.foldl_cons]
    rw [List.map_cons, List.nodup_cons] at hnd
    have hfr : mapLookup st.registry.update u.bookmark.name = none :=
      hfresh u (List.mem_cons_self _ _)
    have hinv2 := pushNode_inv_update st u hinv hfr
    have hfresh2 : ∀ u2 ∈ rest,
        mapLookup (updateNodeStep st u).registry.update
          u2.bookmark.name = none := by
      intro u2 hu2
      show mapLookup (pushNode st (.UpdateBase u)
        u.bookmark.name).registry.update u2.bookmark.name = none
      rw [pnU_update]
      have hne2 : u2.bookmark.name ≠ u.bookmark.name := by
        intro he
        exact hnd.1 (by rw [← he]; exact List.mem_map_of_mem _ hu2)
      rw [mapLookup_insert_ne _ _ _ _ hne2]
      exact hfresh u2 (List.mem_cons_of_mem _ hu2)
    have hrec := ih (updateNodeStep st u) hinv2 hnd.2 hfresh2
    refine ⟨hrec.1, ?_, ?_, ?_⟩
    · rw [hrec.2.1]; exact pnU_push st u u.bookmark.name
    · rw [hrec.2.2.1]; exact pnU_create st u u.bookmark.name
    · rw [hrec.2.2.2]; exact pnU_publish st u u.bookmark.name

theorem fold_createSeg_inv (creates : List PrToCreate) :
    ∀ (segs : List NarrowedBookmarkSegment) (st : NodeBuildState),
    BuildInv st → (segs.map (fun s => s.bookmark.name)).Nodup →
    (∀ s ∈ segs, mapLookup st.registry.create s.bookmark.name = none) →
    BuildInv (segs.foldl (createSegStep creates) st)
    ∧ (segs.foldl (createSegStep creates) st).registry.push
        = st.registry.push
    ∧ (segs.foldl (createSegStep creates) st).registry.update
        = st.registry.update
    ∧ (segs.foldl (createSegStep creates) st).registry.publish
        = st.registry.publish := by
  intro segs
  induction segs with
  | nil => intro st hinv _ _; exact ⟨hinv, rfl, rfl, rfl⟩
  | cons seg rest ih =>
    intro st hinv hnd hfresh
    rw [List.foldl_cons]
    rw [List.map_cons, List.nodup_cons] at hnd
    cases hc : (creates.map (fun c => c.bookmark.name)).any
        (fun x => x == seg.bookmark.name) with
    | false =>
      rw [createSegStep_neg creates st seg hc]
      exact ih st hinv hnd.2 (fun s hs => hfresh s (List.mem_cons_of_mem _ hs))
    | true =>
      rw [createSegStep_pos creates st seg hc]
      have hfr : mapLookup st.registry.create seg.bookmark.name = none :=
        hfresh seg (List.mem_cons_self _ _)
      have hinv2 := pushNode_inv_create st ((creates.find?
        (fun c => c.bookmark.name == seg.bookmark.name)).getD
        { bookmark := emptyBookmark, base_branch := "", title := "",
          draft := false }) seg.bookmark.name hinv hfr
      have hfresh2 : ∀ s ∈ rest,
          mapLookup (pushNode st (.CreatePr ((creates.find?
            (fun c => c.bookmark.name == seg.bookmark.name)).getD
            { bookmark := emptyBookmark, base_branch := "", title := "",
              draft := false }))
            seg.bookmark.name).registry.create s.bookmark.name = none := by
        intro s hs
        rw [pnC_create]
        have hne2 : s.bookmark.name ≠ seg.bookmark.name := by
          intro he
          exact hnd.1 (by rw [← he]; exact List.mem_map_of_mem _ hs)
        rw [mapLookup_insert_ne _ _ _ _ hne2]
        exact hfresh s (List.mem_cons_of_mem _ hs)
      have hrec := ih _ hinv2 hnd.2 hfresh2
      refine ⟨hrec.1, ?_, ?_, ?_⟩
      · rw [hrec.2.1, pnC_push]
      · rw [hrec.2.2.1, pnC_update]
      · rw [hrec.2.2.2, pnC_publish]

theorem fold_publish_inv :
    ∀ (prs : List PullRequest) (st : NodeBuildState), BuildInv st →
    (prs.map (fun p => p.head_ref)).Nodup →
    (∀ pr ∈ prs, mapLookup st.registry.publish pr.head_ref = none) →
    BuildInv (prs.foldl publishNodeStep st)
    ∧ (prs.foldl publishNodeStep st).registry.push = st.registry.push
    ∧ (prs.foldl publishNodeStep st).registry.update = st.registry.update
    ∧ (prs.foldl publishNodeStep st).registry.create
        = st.registry.create := by
  intro prs
  induction prs with
  | nil => intro st hinv _ _; exact ⟨hinv, rfl, rfl, rfl⟩
  | cons pr rest ih =>
    intro st hinv hnd hfresh
    rw [List.foldl_cons]
    rw [List.map_cons, List.nodup_cons] at hnd
    have hfr : mapLookup st.registry.publish pr.head_ref = none :=
      hfresh pr (List.mem_cons_self _ _)
    have hinv2 := pushNode_inv_publish st pr hinv hfr
    have hfresh2 : ∀ pr2 ∈ rest,
        mapLookup (publishNodeStep st pr).registry.publish
          pr2.head_ref = none := by
      intro pr2 hpr2
      show mapLookup (pushNode st (.PublishPr pr)
        pr.head_ref).registry.publish pr2.head_ref = none
      rw [pnB_publish]
      have hne2 : pr2.head_ref ≠ pr.head_ref := by
        intro he
        exact hnd.1 (by rw [← he]; exact List.mem_map_of_mem _ hpr2)
      rw [mapLookup_insert_ne _ _ _ _ hne2]
      exact hfresh pr2 (List.mem_cons_of_mem _ hpr2)
    have hrec := ih (publishNodeStep st pr) hinv2 hnd.2 hfresh2
    refine ⟨hrec.1, ?_, ?_, ?_⟩
    · rw [hrec.2.1]; exact pnB_push st pr pr.head_ref
    · rw [hrec.2.2.1]; exact pnB_update st pr pr.head_ref
    · rw [hrec.2.2.2]; exact pnB_create st pr pr.head_ref

theorem buildInv_init : BuildInv
    { nodes := [], order := 0, registry := NodeRegistry.empty } := by
  refine ⟨rfl, rfl, ?_, ?_, ?_, ?_, ?_, ?_⟩
  · intro p hp; cases hp
  · intro p hp; cases hp
  · intro p hp; cases hp
  · intro p hp; cases hp
  · intro k node bm hget _; cases k <;> cases hget
  · intro k node u hget _; cases k <;> cases hget

/-- The registry produced by `build_execution_nodes` indexes exactly the node
list at in-range indices, and looks every `Push` / `UpdateBase` node up under
its own bookmark name at its own index; assumes distinct segment bookmark
names, distinct base-update bookmark names and distinct publish head refs. -/
theorem build_nodes_spec (segments : List NarrowedBookmarkSegment)
    (pushes : List Bookmark) (updates : List PrBaseUpdate)
    (creates : List PrToCreate) (publishes : List PullRequest)
    (hndseg : (segments.map (fun s => s.bookmark.name)).Nodup)
    (hndupd : (updates.map (fun u => u.bookmark.name)).Nodup)
    (hndpub : (publishes.map (fun p => p.head_ref)).Nodup) :
    RegistryWF
      (build_execution_nodes segments pushes updates creates publishes).2
      (build_execution_nodes segments pushes updates creates
        publishes).1.length
    ∧ (∀ k node bm,
        (build_execution_nodes segments pushes updates creates
          publishes).1.get? k = some node →
        node.step = .Push bm →
        mapLookup (build_execution_nodes segments pushes updates creates
          publishes).2.push bm.name = some k)
    ∧ (∀ k node u,
        (build_execution_nodes segments pushes updates creates
          publishes).1.get? k = some node →
        node.step = .UpdateBase u →
        mapLookup (build_execution_nodes segments pushes updates creates
          publishes).2.update u.bookmark.name = some k) := by
  have h1 := fold_pushSeg_inv pushes segments
    { nodes := [], order := 0, registry := NodeRegistry.empty }
    buildInv_init hndseg (fun _ _ => rfl)
  set st1 := segments.foldl (pushSegStep pushes)
    { nodes := [], order := 0, registry := NodeRegistry.empty } with hst1
  have h2 := fold_pushSafety_inv pushes st1 h1.1
  set st2 := pushes.foldl pushSafetyStep st1 with hst2
  have h3 := fold_update_inv updates st2 h2.1 hndupd (by
    intro u _
    rw [h2.2.1, h1.2.1]
    rfl)
  set st3 := updates.foldl updateNodeStep st2 with hst3
  have h4 := fold_createSeg_inv creates segments st3 h3.1 hndseg (by
    intro s _
    rw [h3.2.2.1, h2.2.2.1, h1.2.2.1]
    rfl)
  set st4 := segments.foldl (createSegStep creates) st3 with hst4
  have h5 := fold_publish_inv publishes st4 h4.1 hndpub (by
    intro pr _
    rw [h4.2.2.2, h3.2.2.2, h2.2.2.2, h1.2.2.2]
    rfl)
  set st5 := publishes.foldl publishNodeStep st4 with hst5
  have hbe : build_execution_nodes segments pushes updates creates publishes
      = (st5.nodes, st5.registry) := by
    rw [build_execution_nodes, hst5, hst4, hst3, hst2, hst1]
  rw [hbe]
  have hinv5 := h5.1
  exact ⟨⟨hinv5.hlen, hinv5.hpushB, hinv5.hupdB, hinv5.hcreB, hinv5.hpubB⟩,
    hinv5.hpushN, hinv5.hupdN⟩

theorem find?_map_overwrite_self {α : Type} (k : String) (v : α) :
    ∀ m : List (String × α), (∃ q ∈ m, (q.1 == k) = true) →
      (m.map (fun p => if p.1 == k then (k, v) else p)).find?
        (fun p => p.1 == k) = some (k, v) := by
  intro m
  induction m with
  | nil => rintro ⟨q, hq, _⟩; cases hq
  | cons q rest ih =>
    intro hex
    rw [List.map_cons]
    by_cases hq : (q.1 == k) = true
    · rw [if_pos hq]
      simp only [List.find?_cons, show ((k : String) == k) = true from by simp]
    · rw [if_neg hq]
      simp only [List.find?_cons, show (q.1 == k) = false from by
        simpa using hq]
      rcases hex with ⟨q2, hq2, hq2k⟩
      rcases List.mem_cons.mp hq2 with rfl | hmem
      · exact absurd hq2k hq
      · exact ih ⟨q2, hmem, hq2k⟩

theorem mapLookup_insert_self_any {α : Type} (m : List (String × α))
    (k : String) (v : α) : mapLookup (mapInsert m k v) k = some v := by
  unfold mapInsert
  by_cases hany : m.any (fun p => p.1 == k)
  · rw [if_pos hany]
    unfold mapLookup
    rw [find?_map_overwrite_self k v m (by
      rcases List.any_eq_true.mp hany with ⟨q, hq, hqk⟩
      exact ⟨q, hq, hqk⟩)]
    rfl
  · rw [if_neg hany]
    unfold mapLookup
    rw [find?_append]
    have hnone : m.find? (fun p => p.1 == k) = none := by
      rw [List.find?_eq_none]
      intro p hp hpk
      exact hany (List.any_eq_true.mpr ⟨p, hp, hpk⟩)
    rw [hnone]
    simp only [List.find?_cons, show ((k : String) == k) = true from by simp]
    rfl

theorem mapLookup_insert_isSome {α : Type} (m : List (String × α))
    (k : String) (v : α) (k2 : String)
    (h : (mapLookup m k2).isSome = true) :
    (mapLookup (mapInsert m k v) k2).isSome = true := by
  by_cases hk : k2 = k
  · subst hk
    rw [mapLookup_insert_self_any]
    rfl
  · rw [mapLookup_insert_ne _ _ _ _ hk]
    exact h

theorem fold_pushSeg_isSome_mono (pushes : List Bookmark) :
    ∀ (segs : List NarrowedBookmarkSegment) (st : NodeBuildState)
      (name : String), (mapLookup st.registry.push name).isSome = true →
    (mapLookup (segs.foldl (pushSegStep pushes) st).registry.push
      name).isSome = true := by
  intro segs
  induction segs with
  | nil => intro st name h; exact h
  | cons seg rest ih =>
    intro st name h
    rw [List.foldl_cons]
    cases hc : (pushes.map (fun b => b.name)).any
        (fun x => x == seg.bookmark.name) with
    | false =>
      rw [pushSegStep_neg pushes st seg hc]
      exact ih st name h
    | true =>
      rw [pushSegStep_pos pushes st seg hc]
      refine ih _ name ?_
      rw [pnP_push]
      exact mapLookup_insert_isSome _ _ _ _ h

theorem fold_pushSafety_isSome_mono :
    ∀ (bms : List Bookmark) (st : NodeBuildState) (name : String),
      (mapLookup st.registry.push name).isSome = true →
    (mapLookup (bms.foldl pushSafetyStep st).registry.push name).isSome
      = true := by
  intro bms
  induction bms with
  | nil => intro st name h; exact h
  | cons b rest ih =>
    intro st name h
    rw [List.foldl_cons]
    cases hc : mapContains st.registry.push b.name with
    | true =>
      rw [pushSafetyStep_pos st b hc]
      exact ih st name h
    | false =>
      rw [pushSafetyStep_neg st b hc]
      refine ih _ name ?_
      rw [pnP_push]
      exact mapLookup_insert_isSome _ _ _ _ h

theorem fold_pushSeg_establishes (pushes : List Bookmark) :
    ∀ (segs : List NarrowedBookmarkSegment) (st : NodeBuildState),
    ∀ s ∈ segs, (pushes.map (fun b => b.name)).any
      (fun x => x == s.bookmark.name) = true →
    (mapLookup (segs.foldl (pushSegStep pushes) st).registry.push
      s.bookmark.name).isSome = true := by
  intro segs
  induction segs with
  | nil => intro st s hs; cases hs
  | cons seg rest ih =>
    intro st s hs hcond
    rw [List.foldl_cons]
    rcases List.mem_cons.mp hs with rfl | hmem
    · rw [pushSegStep_pos pushes st s hcond]
      refine fold_pushSeg_isSome_mono pushes rest _ s.bookmark.name ?_
      rw [pnP_push, mapLookup_insert_self_any]
      rfl
    · exact ih _ s hmem hcond

theorem fold_update_update_isSome_mono :
    ∀ (updates : List PrBaseUpdate) (st : NodeBuildState) (name : String),
      (mapLookup st.registry.update name).isSome = true →
    (mapLookup (updates.foldl updateNodeStep st).registry.update
      name).isSome = true := by
  intro updates
  induction updates with
  | nil => intro st name h; exact h
  | cons u rest ih =>
    intro st name h
    rw [List.foldl_cons]
    refine ih _ name ?_
    show (mapLookup (pushNode st (.UpdateBase u)
      u.bookmark.name).registry.update name).isSome = true
    rw [pnU_update]
    exact mapLookup_insert_isSome _ _ _ _ h

theorem fold_update_establishes :
    ∀ (updates : List PrBaseUpdate) (st : NodeBuildState),
    ∀ u ∈ updates,
    (mapLookup (updates.foldl updateNodeStep st).registry.update
      u.bookmark.name).isSome = true := by
  intro updates
  induction updates with
  | nil => intro st u hu; cases hu
  | cons u2 rest ih =>
    intro st u hu
    rw [List.foldl_cons]
    rcases List.mem_cons.mp hu with rfl | hmem
    · refine fold_update_update_isSome_mono rest _ u.bookmark.name ?_
      show (mapLookup (pushNode st (.UpdateBase u)
        u.bookmark.name).registry.update u.bookmark.name).isSome = true
      rw [pnU_update, mapLookup_insert_self_any]
      rfl
    · exact ih _ u hmem

theorem fold_update_push_frame :
    ∀ (updates : List PrBaseUpdate) (st : NodeBuildState),
    (updates.foldl updateNodeStep st).registry.push = st.registry.push := by
  intro updates
  induction updates with
  | nil => intro st; rfl
  | cons u rest ih =>
    intro st
    rw [List.foldl_cons, ih]
    exact pnU_push st u u.bookmark.name

theorem fold_create_push_frame (creates : List PrToCreate) :
    ∀ (segs : List NarrowedBookmarkSegment) (st : NodeBuildState),
    (segs.foldl (createSegStep creates) st).registry.push
      = st.registry.push := by
  intro segs
  induction segs with
  | nil => intro st; rfl
  | cons seg rest ih =>
    intro st
    rw [List.foldl_cons, ih]
    cases hc : (creates.map (fun c => c.bookmark.name)).any
        (fun x => x == seg.bookmark.name) with
    | false => rw [createSegStep_neg creates st seg hc]
    | true =>
      rw [createSegStep_pos creates st seg hc]
      exact pnC_push st _ seg.bookmark.name

theorem fold_create_update_frame (creates : List PrToCreate) :
    ∀ (segs : List NarrowedBookmarkSegment) (st : NodeBuildState),
    (segs.foldl (createSegStep creates) st).registry.update
      = st.registry.update := by
  intro segs
  induction segs with
  | nil => intro st; rfl
  | cons seg rest ih =>
    intro st
    rw [List.foldl_cons, ih]
    cases hc : (creates.map (fun c => c.bookmark.name)).any
        (fun x => x == seg.bookmark.name) with
    | false => rw [createSegStep_neg creates st seg hc]
    | true =>
      rw [createSegStep_pos creates st seg hc]
      exact pnC_update st _ seg.bookmark.name

theorem fold_publish_push_frame :
    ∀ (prs : List PullRequest) (st : NodeBuildState),
    (prs.foldl publishNodeStep st).registry.push = st.registry.push := by
  intro prs
  induction prs with
  | nil => intro st; rfl
  | cons pr rest ih =>
    intro st
    rw [List.foldl_cons, ih]
    exact pnB_push st pr pr.head_ref

theorem fold_publish_update_frame :
    ∀ (prs : List PullRequest) (st : NodeBuildState),
    (prs.foldl publishNodeStep st).registry.update = st.registry.update := by
  intro prs
  induction prs with
  | nil => intro st; rfl
  | cons pr rest ih =>
    intro st
    rw [List.foldl_cons, ih]
    exact pnB_update st pr pr.head_ref

/-- Every segment whose bookmark is in the push set has a push-node
registration in the registry built by `build_execution_nodes`. -/
theorem build_nodes_push_lookup (segments : List NarrowedBookmarkSegment)
    (pushes : List Bookmark) (updates : List PrBaseUpdate)
    (creates : List PrToCreate) (publishes : List PullRequest)
    (s : NarrowedBookmarkSegment) (hs : s ∈ segments)
    (hcond : (pushes.map (fun b => b.name)).any
      (fun x => x == s.bookmark.name) = true) :
    (mapLookup (build_execution_nodes segments pushes updates creates
      publishes).2.push s.bookmark.name).isSome = true := by
  show (mapLookup (publishes.foldl publishNodeStep
    (segments.foldl (createSegStep creates)
      (updates.foldl updateNodeStep
        (pushes.foldl pushSafetyStep
          (segments.foldl (pushSegStep pushes)
            { nodes := [], order := 0,
              registry := NodeRegistry.empty }))))).registry.push
    s.bookmark.name).isSome = true
  rw [fold_publish_push_frame, fold_create_push_frame,
    fold_update_push_frame]
  refine fold_pushSafety_isSome_mono pushes _ s.bookmark.name ?_
  exact fold_pushSeg_establishes pushes segments _ s hs hcond

/-- Every base update has an update-node registration in the registry built
by `build_execution_nodes`. -/
theorem build_nodes_update_lookup (segments : List NarrowedBookmarkSegment)
    (pushes : List Bookmark) (updates : List PrBaseUpdate)
    (creates : List PrToCreate) (publishes : List PullRequest)
    (u : PrBaseUpdate) (hu : u ∈ updates) :
    (mapLookup (build_execution_nodes segments pushes updates creates
      publishes).2.update u.bookmark.name).isSome = true := by
  show (mapLookup (publishes.foldl publishNodeStep
    (segments.foldl (createSegStep creates)
      (updates.foldl updateNodeStep
        (pushes.foldl pushSafetyStep
          (segments.foldl (pushSegStep pushes)
            { nodes := [], order := 0,
              registry := NodeRegistry.empty }))))).registry.update
    u.bookmark.name).isSome = true
  rw [fold_publish_update_frame, fold_create_update_frame]
  exact fold_update_establishes updates _ u hu

theorem tail_get? {α : Type} (l : List α) (j : Nat) :
    l.tail.get? j = l.get? (j + 1) := by
  cases l <;> rfl

theorem zip_get? {α β : Type} :
    ∀ (l1 : List α) (l2 : List β) (n : Nat) (a : α) (b : β),
    l1.get? n = some a → l2.get? n = some b →
    (l1.zip l2).get? n = some (a, b) := by
  intro l1
  induction l1 with
  | nil => intro l2 n a b h; cases n <;> cases h
  | cons x rest ih =>
    intro l2 n a b h1 h2
    cases l2 with
    | nil => cases n <;> cases h2
    | cons y rest2 =>
      cases n with
      | zero =>
        injection h1 with h1
        injection h2 with h2
        rw [List.zip_cons_cons]
        subst h1; subst h2; rfl
      | succ m =>
        rw [List.zip_cons_cons]
        exact ih rest2 m a b h1 h2

/-- Adjacent segments contribute their `PushOrder` constraint. -/
theorem collect_constraints_pushOrder
    (segments : List NarrowedBookmarkSegment)
    (updates : List PrBaseUpdate) (creates : List PrToCreate)
    (sidx : List (String × Nat)) (j : Nat)
    (segj segj1 : NarrowedBookmarkSegment)
    (hj : segments.get? j = some segj)
    (hj1 : segments.get? (j + 1) = some segj1) :
    ExecutionConstraint.PushOrder segj.bookmark.name segj1.bookmark.name
      ∈ collect_constraints segments updates creates sidx := by
  unfold collect_constraints
  refine List.mem_append_left _ (List.mem_append_left _
    (List.mem_append_left _ (List.mem_append_left _ ?_)))
  refine List.mem_map.mpr ⟨(segj, segj1), ?_, rfl⟩
  refine List.get?_mem (zip_get? segments segments.tail j segj segj1 hj ?_)
  rw [tail_get?]
  exact hj1

/-- A swap-scenario base update contributes its `RetargetBeforePush`
constraint. -/
theorem collect_constraints_retarget
    (segments : List NarrowedBookmarkSegment)
    (updates : List PrBaseUpdate) (creates : List PrToCreate)
    (sidx : List (String × Nat)) (u : PrBaseUpdate) (hu : u ∈ updates)
    (hne : u.expected_base ≠ u.current_base) (cpos bpos : Nat)
    (hcur : mapLookup sidx u.current_base = some cpos)
    (hbk : mapLookup sidx u.bookmark.name = some bpos)
    (hlt : bpos < cpos) :
    ExecutionConstraint.RetargetBeforePush u.bookmark.name u.current_base
      ∈ collect_constraints segments updates creates sidx := by
  unfold collect_constraints
  refine List.mem_append_left _ (List.mem_append_left _
    (List.mem_append_right _ ?_))
  refine List.mem_filterMap.mpr ⟨u, hu, ?_⟩
  rw [if_pos hne, hcur, hbk]
  dsimp only
  rw [if_pos hlt]

theorem resolve_pushOrder (r : NodeRegistry) (parent child : String)
    (f t : Nat) (hf : mapLookup r.push parent = some f)
    (ht : mapLookup r.push child = some t) :
    (ExecutionConstraint.PushOrder parent child).resolve r = some (f, t) := by
  simp [ExecutionConstraint.resolve, hf, ht]

theorem resolve_retarget (r : NodeRegistry) (pr old_base : String)
    (f t : Nat) (hf : mapLookup r.update pr = some f)
    (ht : mapLookup r.push old_base = some t) :
    (ExecutionConstraint.RetargetBeforePush pr old_base).resolve r
      = some (f, t) := by
  simp [ExecutionConstraint.resolve, hf, ht]

/-- Reading a step of the scheduled map recovers the scheduled node. -/
theorem sched_step_node (nodes : List ExecutionNode) (S : List Nat)
    (hlt : ∀ i ∈ S, i < nodes.length) (p : Nat) (stp : ExecutionStep)
    (h : (S.map (fun i => ((nodes.get? i).getD defaultNode).step)).get? p
      = some stp) :
    ∃ idx node, S.get? p = some idx ∧ nodes.get? idx = some node
      ∧ node.step = stp := by
  rw [List.get?_map] at h
  obtain ⟨idx, hS, hg⟩ := Option.map_eq_some'.mp h
  have hidx : idx < nodes.length := hlt idx (List.get?_mem hS)
  cases hn : nodes.get? idx with
  | none =>
    exfalso
    have := List.get?_eq_none.mp hn
    omega
  | some node =>
    refine ⟨idx, node, hS, hn, ?_⟩
    rw [hn] at hg
    exact hg

/-- Unpacking a successful `build_execution_steps` run. -/
theorem build_steps_ok_topo (segments : List NarrowedBookmarkSegment)
    (pushes : List Bookmark) (updates : List PrBaseUpdate)
    (creates : List PrToCreate) (publishes : List PullRequest)
    (cons : List ExecutionConstraint) (steps : List ExecutionStep)
    (h : build_execution_steps segments pushes updates creates publishes
      = .ok (cons, steps)) :
    cons = collect_constraints segments updates creates
      (build_stack_index segments)
    ∧ topo_sort_steps
        (build_execution_nodes segments pushes updates creates publishes).1
        (resolve_constraints
          (collect_constraints segments updates creates
            (build_stack_index segments))
          (build_execution_nodes segments pushes updates creates
            publishes).2)
        = .ok steps := by
  simp only [build_execution_steps, Bind.bind, Except.bind, Pure.pure,
    Except.pure] at h
  cases htopo : topo_sort_steps
      (build_execution_nodes segments pushes updates creates publishes).1
      (resolve_constraints
        (collect_constraints segments updates creates
          (build_stack_index segments))
        (build_execution_nodes segments pushes updates creates
          publishes).2) with
  | error e => rw [htopo] at h; cases h
  | ok a =>
    rw [htopo] at h
    injection h with h2
    injection h2 with h3 h4
    exact ⟨h3.symm, by rw [h4]⟩

/-! ## Claim C2 -/

def c2mkBm (nm : String) (sy : Bool) : Bookmark :=
  { name := nm, commit_id := nm ++ "-c", change_id := nm ++ "-ch",
    has_remote := true, is_synced := sy }

def c2bmX : Bookmark := c2mkBm "x" true

def c2bmA : Bookmark := c2mkBm "a" false

def c2bmM : Bookmark := c2mkBm "m" true

def c2bmB : Bookmark := c2mkBm "b" false

def c2segs : List NarrowedBookmarkSegment :=
  [{ bookmark := c2bmX, changes := [] },
   { bookmark := c2bmA, changes := [] },
   { bookmark := c2bmM, changes := [] },
   { bookmark := c2bmB, changes := [] }]

def c2prX : PullRequest :=
  { number := 10, html_url := "u", base_ref := "a", head_ref := "x",
    title := "t", node_id := none, is_draft := false }

def c2updX : PrBaseUpdate :=
  { bookmark := c2bmX, current_base := "a", expected_base := "main",
    pr := c2prX }

/-- C2 counterexample: in the four-segment stack x, a, m, b (stack order),
with a and b in the push set (a strictly below b) and one base update whose
`RetargetBeforePush` constraint targets `Push(a)`, the planner emits
`Push(b)` BEFORE `Push(a)`: the push-order chain has gaps at x and m, so no
`PushOrder` constraint links a to b, and the retarget edge delays `Push(a)`
past `Push(b)` in the min-order heap.  This refutes the claim that `Push(a)`
always precedes `Push(b)` when segments between them contribute no push
step. -/
theorem c2_counterexample :
    (∃ cons, build_execution_steps c2segs [c2bmA, c2bmB] [c2updX] [] []
        = .ok (cons,
          [.Push c2bmB, .UpdateBase c2updX, .Push c2bmA]))
    ∧ c2segs.get? 1 = some ⟨c2bmA, []⟩
    ∧ c2segs.get? 3 = some ⟨c2bmB, []⟩
    ∧ c2bmA ∈ [c2bmA, c2bmB] ∧ c2bmB ∈ [c2bmA, c2bmB] :=
  ⟨⟨_, rfl⟩, rfl, rfl, List.mem_cons_self _ _,
    List.mem_cons_of_mem _ (List.mem_cons_self _ _)⟩

/-- C2 (amended): pushes are ordered along CONTIGUOUS push chains.  For
every successful plan over distinctly named segments, updates and publishes:
if every segment from stack position `ia` through `ib` has its bookmark in
the push set, then the `Push` step of segment `ia`'s bookmark appears
strictly before the `Push` step of segment `ib`'s bookmark in
`execution_steps` — regardless of any `RetargetBeforePush` constraints also
acting on the push nodes.  (Without contiguity the ordering can be violated,
see the counterexample.) -/
theorem c2_push_chain_order (segments : List NarrowedBookmarkSegment)
    (pushes : List Bookmark) (updates : List PrBaseUpdate)
    (creates : List PrToCreate) (publishes : List PullRequest)
    (hndseg : (segments.map (fun s => s.bookmark.name)).Nodup)
    (hndupd : (updates.map (fun u => u.bookmark.name)).Nodup)
    (hndpub : (publishes.map (fun p => p.head_ref)).Nodup)
    (cons : List ExecutionConstraint) (steps : List ExecutionStep)
    (hok : build_execution_steps segments pushes updates creates publishes
      = .ok (cons, steps))
    (ia ib : Nat) (hab : ia < ib)
    (hchain : ∀ j, ia ≤ j → j ≤ ib → ∃ seg, segments.get? j = some seg ∧
      (pushes.map (fun b => b.name)).any
        (fun x => x == seg.bookmark.name) = true)
    (pa pb : Nat) (bma bmb : Bookmark)
    (sega segb : NarrowedBookmarkSegment)
    (hsega : segments.get? ia = some sega)
    (hsegb : segments.get? ib = some segb)
    (hpa : steps.get? pa = some (.Push bma))
    (hpb : steps.get? pb = some (.Push bmb))
    (hnamea : bma.name = sega.bookmark.name)
    (hnameb : bmb.name = segb.bookmark.name) :
    pa < pb := by
  obtain ⟨hcons, htopo⟩ := build_steps_ok_topo segments pushes updates
    creates publishes cons steps hok
  obtain ⟨hwf, hpushN, hupdN⟩ := build_nodes_spec segments pushes updates
    creates publishes hndseg hndupd hndpub
  have hedgesWF := resolve_constraints_wf
    (collect_constraints segments updates creates
      (build_stack_index segments))
    (build_execution_nodes segments pushes updates creates publishes).2
    (build_execution_nodes segments pushes updates creates
      publishes).1.length hwf
  obtain ⟨S, hSnd, hSlen, hSiff, hSmap, hedge⟩ :=
    topo_sort_ok _ _ hedgesWF steps htopo
  rw [hSmap] at hpa hpb
  have hltS : ∀ i ∈ S, i < (build_execution_nodes segments pushes updates
      creates publishes).1.length := fun i hi => (hSiff i).mp hi
  obtain ⟨idxa, nodea, hSa, hna, hstepa⟩ :=
    sched_step_node _ S hltS pa _ hpa
  obtain ⟨idxb, nodeb, hSb, hnb, hstepb⟩ :=
    sched_step_node _ S hltS pb _ hpb
  have hlka := hpushN idxa nodea bma hna hstepa
  have hlkb := hpushN idxb nodeb bmb hnb hstepb
  rw [hnamea] at hlka
  rw [hnameb] at hlkb
  have key : ∀ d j, ia ≤ j → j + d = ib →
      ∀ segj fj qj, segments.get? j = some segj →
      mapLookup (build_execution_nodes segments pushes updates creates
        publishes).2.push segj.bookmark.name = some fj →
      S.get? qj = some fj → qj ≤ pb ∧ (0 < d → qj < pb) := by
    intro d
    induction d with
    | zero =>
      intro j hiaj hjib segj fj qj hgetj hlkj hSqj
      have hj : j = ib := by omega
      subst hj
      rw [hsegb] at hgetj
      injection hgetj with hgetj
      subst hgetj
      rw [hlkj] at hlkb
      injection hlkb with hlkb
      subst hlkb
      have := nodup_get?_inj S hSnd qj pb fj hSqj hSb
      exact ⟨by omega, fun h0 => absurd h0 (Nat.lt_irrefl 0)⟩
    | succ d ih =>
      intro j hiaj hjib segj fj qj hgetj hlkj hSqj
      obtain ⟨segj1, hgetj1, hcondj1⟩ := hchain (j + 1) (by omega) (by omega)
      have hiso := build_nodes_push_lookup segments pushes updates creates
        publishes segj1 (List.get?_mem hgetj1) hcondj1
      obtain ⟨fj1, hlkj1⟩ := Option.isSome_iff_exists.mp hiso
      have hfj1n : fj1 < (build_execution_nodes segments pushes updates
          creates publishes).1.length :=
        mapLookup_prop _ _ _ (fun x => x < (build_execution_nodes segments
          pushes updates creates publishes).1.length) hwf.hpush hlkj1
      obtain ⟨qj1, hSqj1⟩ := List.get?_of_mem ((hSiff fj1).mpr hfj1n)
      have hfjn : fj < (build_execution_nodes segments pushes updates
          creates publishes).1.length :=
        mapLookup_prop _ _ _ (fun x => x < (build_execution_nodes segments
          pushes updates creates publishes).1.length) hwf.hpush hlkj
      have hcmem := collect_constraints_pushOrder segments updates creates
        (build_stack_index segments) j segj segj1 hgetj hgetj1
      have hres := resolve_pushOrder
        (build_execution_nodes segments pushes updates creates publishes).2
        segj.bookmark.name segj1.bookmark.name fj fj1 hlkj hlkj1
      have hmem := resolve_constraints_mem _ _ _ hcmem fj fj1 hres
        (by rw [hwf.hlen]; exact hfjn)
      have hlt1 : qj < qj1 := hedge fj hfjn fj1 hmem qj qj1 hSqj hSqj1
      have hrec := ih (j + 1) (by omega) (by omega) segj1 fj1 qj1 hgetj1
        hlkj1 hSqj1
      exact ⟨by omega, fun _ => by omega⟩
  have hfin := key (ib - ia) ia (Nat.le_refl ia) (by omega) sega idxa pa
    hsega hlka hSa
  exact hfin.2 (by omega)

def c2wSegA : NarrowedBookmarkSegment :=
  { bookmark := c2mkBm "wa" false, changes := [] }

def c2wSegB : NarrowedBookmarkSegment :=
  { bookmark := c2mkBm "wb" false, changes := [] }

/-- C2 witness: a two-segment contiguous chain, both bookmarks pushed;
the chain theorem places Push(wa) (position 0) before Push(wb)
(position 1). -/
theorem c2_push_chain_order_witness :
    build_execution_steps [c2wSegA, c2wSegB]
        [c2mkBm "wa" false, c2mkBm "wb" false] [] [] []
      = .ok ([.PushOrder "wa" "wb", .CreateOrder "wa" "wb"],
        [.Push (c2mkBm "wa" false), .Push (c2mkBm "wb" false)])
    ∧ (0 : Nat) < 1 := by
  refine ⟨by rfl, ?_⟩
  refine c2_push_chain_order [c2wSegA, c2wSegB]
    [c2mkBm "wa" false, c2mkBm "wb" false] [] [] []
    (by decide) List.nodup_nil List.nodup_nil
    [.PushOrder "wa" "wb", .CreateOrder "wa" "wb"]
    [.Push (c2mkBm "wa" false), .Push (c2mkBm "wb" false)]
    (by rfl) 0 1 (by decide) ?_ 0 1
    (c2mkBm "wa" false) (c2mkBm "wb" false) c2wSegA c2wSegB
    rfl rfl rfl rfl rfl rfl
  intro j h0 h1
  interval_cases j
  · exact ⟨c2wSegA, rfl, by decide⟩
  · exact ⟨c2wSegB, rfl, by decide⟩

/-! ## Claim C3 -/

/-- C3: swap correctness.  For every successful plan over distinctly named
segments, updates and publishes: if a base update's `current_base` names a
bookmark whose stack index is strictly greater than the index of the
update's own bookmark (and the expected base differs from the current one),
then whenever both the `UpdateBase` step of that update's bookmark and the
`Push` step of the `current_base` bookmark are present in
`execution_steps`, the `UpdateBase` step precedes the `Push` step. -/
theorem c3_swap_update_before_push (segments : List NarrowedBookmarkSegment)
    (pushes : List Bookmark) (updates : List PrBaseUpdate)
    (creates : List PrToCreate) (publishes : List PullRequest)
    (hndseg : (segments.map (fun s => s.bookmark.name)).Nodup)
    (hndupd : (updates.map (fun u => u.bookmark.name)).Nodup)
    (hndpub : (publishes.map (fun p => p.head_ref)).Nodup)
    (cons : List ExecutionConstraint) (steps : List ExecutionStep)
    (hok : build_execution_steps segments pushes updates creates publishes
      = .ok (cons, steps))
    (u : PrBaseUpdate) (hu : u ∈ updates)
    (hne : u.expected_base ≠ u.current_base) (cpos bpos : Nat)
    (hcur : mapLookup (build_stack_index segments) u.current_base
      = some cpos)
    (hbk : mapLookup (build_stack_index segments) u.bookmark.name
      = some bpos)
    (hswap : bpos < cpos)
    (qi qj : Nat) (u2 : PrBaseUpdate) (bm : Bookmark)
    (hqi : steps.get? qi = some (.UpdateBase u2))
    (hqj : steps.get? qj = some (.Push bm))
    (hu2 : u2.bookmark.name = u.bookmark.name)
    (hbm : bm.name = u.current_base) :
    qi < qj := by
  obtain ⟨hcons, htopo⟩ := build_steps_ok_topo segments pushes updates
    creates publishes cons steps hok
  obtain ⟨hwf, hpushN, hupdN⟩ := build_nodes_spec segments pushes updates
    creates publishes hndseg hndupd hndpub
  have hedgesWF := resolve_constraints_wf
    (collect_constraints segments updates creates
      (build_stack_index segments))
    (build_execution_nodes segments pushes updates creates publishes).2
    (build_execution_nodes segments pushes updates creates
      publishes).1.length hwf
  obtain ⟨S, hSnd, hSlen, hSiff, hSmap, hedge⟩ :=
    topo_sort_ok _ _ hedgesWF steps htopo
  rw [hSmap] at hqi hqj
  have hltS : ∀ i ∈ S, i < (build_execution_nodes segments pushes updates
      creates publishes).1.length := fun i hi => (hSiff i).mp hi
  obtain ⟨idxi, nodei, hSi, hni, hstepi⟩ :=
    sched_step_node _ S hltS qi _ hqi
  obtain ⟨idxj, nodej, hSj, hnj, hstepj⟩ :=
    sched_step_node _ S hltS qj _ hqj
  have hlki := hupdN idxi nodei u2 hni hstepi
  have hlkj := hpushN idxj nodej bm hnj hstepj
  rw [hu2] at hlki
  rw [hbm] at hlkj
  have hcmem := collect_constraints_retarget segments updates creates
    (build_stack_index segments) u hu hne cpos bpos hcur hbk hswap
  have hres := resolve_retarget
    (build_execution_nodes segments pushes updates creates publishes).2
    u.bookmark.name u.current_base idxi idxj hlki hlkj
  have hin : idxi < (build_execution_nodes segments pushes updates creates
      publishes).1.length :=
    mapLookup_prop _ _ _ (fun x => x < (build_execution_nodes segments
      pushes updates creates publishes).1.length) hwf.hupdate hlki
  have hmem := resolve_constraints_mem _ _ _ hcmem idxi idxj hres
    (by rw [hwf.hlen]; exact hin)
  exact hedge idxi hin idxj hmem qi qj hSi hSj

def c3bmX : Bookmark := c2mkBm "swx" true

def c3bmA : Bookmark := c2mkBm "swa" false

def c3segs : List NarrowedBookmarkSegment :=
  [{ bookmark := c3bmX, changes := [] },
   { bookmark := c3bmA, changes := [] }]

def c3pr : PullRequest :=
  { number := 7, html_url := "v", base_ref := "swa", head_ref := "swx",
    title := "t", node_id := none, is_draft := false }

def c3upd : PrBaseUpdate :=
  { bookmark := c3bmX, current_base := "swa", expected_base := "main",
    pr := c3pr }

/-- C3 witness: a two-segment swap — segment swx (index 0) keeps a PR whose
current base swa sits at index 1; the theorem places the UpdateBase step
(position 0) before Push(swa) (position 1). -/
theorem c3_swap_update_before_push_witness :
    build_execution_steps c3segs [c3bmA] [c3upd] [] []
      = .ok ([.PushOrder "swx" "swa", .PushBeforeRetarget "main" "swx",
          .RetargetBeforePush "swx" "swa", .CreateOrder "swx" "swa"],
        [.UpdateBase c3upd, .Push c3bmA])
    ∧ (0 : Nat) < 1 := by
  refine ⟨by rfl, ?_⟩
  exact c3_swap_update_before_push c3segs [c3bmA] [c3upd] [] []
    (by decide) (by decide) List.nodup_nil
    [.PushOrder "swx" "swa", .PushBeforeRetarget "main" "swx",
      .RetargetBeforePush "swx" "swa", .CreateOrder "swx" "swa"]
    [.UpdateBase c3upd, .Push c3bmA]
    (by rfl) c3upd (List.mem_cons_self _ _) (by decide) 1 0
    (by rfl) (by rfl) (by decide) 0 1 c3upd c3bmA
    rfl rfl rfl rfl

/-! ## Helper lemmas: the executor -/

/-- Is the action a stack-comment collaborator call? -/
def Action.isComment : Action → Bool
  | .listComments _ => true
  | .createComment _ _ => true
  | .updateComment _ _ _ => true
  | _ => false

theorem execStep_action_not_comment (env : ExecEnv) (remote : String)
    (s : ExecutionStep) : (execute_step env remote s).2.isComment = false := by
  cases s <;> rfl

theorem mapInsert_ne_nil {α : Type} (m : List (String × α)) (k : String)
    (v : α) : mapInsert m k v ≠ [] := by
  unfold mapInsert
  by_cases hany : m.any (fun p => p.1 == k)
  · rw [if_pos hany]
    intro heq
    rw [List.map_eq_nil] at heq
    subst heq
    cases hany
  · rw [if_neg hany]
    simp

theorem runSteps_stopped (env : ExecEnv) (remote : String) :
    ∀ (l : List ExecutionStep) (st : ExecLoopState), st.stopped = true →
    runSteps env remote l st = st := by
  intro l
  induction l with
  | nil => intro st _; rfl
  | cons s rest ih =>
    intro st h
    show (if st.stopped then st else _) = st
    rw [h, if_pos rfl]

theorem runSteps_append (env : ExecEnv) (remote : String) :
    ∀ (l1 l2 : List ExecutionStep) (st : ExecLoopState),
    runSteps env remote (l1 ++ l2) st
      = runSteps env remote l2 (runSteps env remote l1 st) := by
  intro l1
  induction l1 with
  | nil => intro l2 st; rfl
  | cons s rest ih =>
    intro l2 st
    rw [List.cons_append]
    show (if st.stopped then st else _)
      = runSteps env remote l2 (if st.stopped then st else _)
    cases hst : st.stopped with
    | true =>
      rw [if_pos rfl, if_pos rfl, runSteps_stopped env remote l2 st hst]
    | false =>
      rw [if_neg (by simp), if_neg (by simp)]
      exact ih l2 _

theorem applyOutcome_nonfatal (s : ExecutionStep) (outcome : StepOutcome)
    (st : ExecLoopState) (h : ∀ m, outcome ≠ .FatalError m) :
    (applyOutcome s outcome st).stopped = st.stopped
    ∧ (applyOutcome s outcome st).result.success = st.result.success
    ∧ (applyOutcome s outcome st).trace = st.trace
    ∧ (∀ e ∈ st.result.errors, e ∈ (applyOutcome s outcome st).result.errors)
    ∧ ((applyOutcome s outcome st).prMap = st.prMap
        ∨ ∃ b pr, (applyOutcome s outcome st).prMap = mapInsert st.prMap b pr)
    := by
  cases outcome with
  | Success tracked =>
    cases tracked with
    | some bp =>
      cases s <;>
        exact ⟨rfl, rfl, rfl, fun e he => he, Or.inr ⟨bp.1, bp.2, rfl⟩⟩
    | none =>
      cases s <;> exact ⟨rfl, rfl, rfl, fun e he => he, Or.inl rfl⟩
  | FatalError m => exact absurd rfl (h m)
  | SoftError m =>
    refine ⟨rfl, rfl, rfl, fun e he => ?_, Or.inl rfl⟩
    exact List.mem_append_left _ he

theorem runSteps_nonfatal (env : ExecEnv) (remote : String) :
    ∀ (steps : List ExecutionStep) (st : ExecLoopState),
    st.stopped = false →
    (∀ s ∈ steps, ∀ m, (execute_step env remote s).1 ≠ .FatalError m) →
    (runSteps env remote steps st).stopped = false
    ∧ (runSteps env remote steps st).result.success = st.result.success
    ∧ (∀ a ∈ st.trace, a ∈ (runSteps env remote steps st).trace)
    ∧ (∀ s ∈ steps,
        (execute_step env remote s).2 ∈ (runSteps env remote steps st).trace)
    ∧ (∀ e ∈ st.result.errors,
        e ∈ (runSteps env remote steps st).result.errors)
    ∧ (st.prMap ≠ [] → (runSteps env remote steps st).prMap ≠ [])
    ∧ ((∀ a ∈ st.trace, a.isComment = false) →
        ∀ a ∈ (runSteps env remote steps st).trace, a.isComment = false) := by
  intro steps
  induction steps with
  | nil =>
    intro st h _
    exact ⟨h, rfl, fun a ha => ha, fun s hs => absurd hs (List.not_mem_nil s),
      fun e he => he, fun h2 => h2, fun h3 => h3⟩
  | cons s rest ih =>
    intro st hstop hnf
    have hs0 : ∀ m, (execute_step env remote s).1 ≠ .FatalError m :=
      hnf s (List.mem_cons_self _ _)
    have hrest : ∀ s2 ∈ rest, ∀ m,
        (execute_step env remote s2).1 ≠ .FatalError m :=
      fun s2 hs2 => hnf s2 (List.mem_cons_of_mem _ hs2)
    have hrun : runSteps env remote (s :: rest) st
        = runSteps env remote rest
          (applyOutcome s (execute_step env remote s).1
            { st with trace := st.trace ++ [(execute_step env remote s).2] })
        := by
      show (if st.stopped then st else _) = _
      rw [hstop, if_neg (by simp)]
    set st2 := applyOutcome s (execute_step env remote s).1
      { st with trace := st.trace ++ [(execute_step env remote s).2] }
      with hst2
    obtain ⟨hA, hB, hC, hD, hE⟩ := applyOutcome_nonfatal s
      (execute_step env remote s).1
      { st with trace := st.trace ++ [(execute_step env remote s).2] } hs0
    have hst2stop : st2.stopped = false := by rw [hA]; exact hstop
    obtain ⟨h1, h2, h3, h4, h5, h6, h7⟩ := ih st2 hst2stop hrest
    rw [hrun]
    refine ⟨h1, ?_, ?_, ?_, ?_, ?_, ?_⟩
    · rw [h2, hB]
    · intro a ha
      refine h3 a ?_
      rw [hC]
      exact List.mem_append_left _ ha
    · intro s2 hs2
      rcases List.mem_cons.mp hs2 with rfl | hmem
      · refine h3 _ ?_
        rw [hC]
        exact List.mem_append_right _ (List.mem_singleton.mpr rfl)
      · exact h4 s2 hmem
    · intro e he
      exact h5 e (hD e he)
    · intro hne
      refine h6 ?_
      rcases hE with hE | ⟨b, pr, hE⟩
      · rw [hE]; exact hne
      · rw [hE]; exact mapInsert_ne_nil _ _ _
    · intro hcom
      refine h7 ?_
      intro a ha
      rw [hC] at ha
      rcases List.mem_append.mp ha with ha | ha
      · exact hcom a ha
      · rw [List.mem_singleton.mp ha]
        exact execStep_action_not_comment env remote s

theorem runSteps_fatal (env : ExecEnv) (remote : String)
    (pre post : List ExecutionStep) (step : ExecutionStep) (msg : String)
    (st : ExecLoopState) (hstop : st.stopped = false)
    (hpre : ∀ s ∈ pre, ∀ m, (execute_step env remote s).1 ≠ .FatalError m)
    (hfail : (execute_step env remote step).1 = .FatalError msg) :
    (runSteps env remote (pre ++ step :: post) st).stopped = true
    ∧ (runSteps env remote (pre ++ step :: post) st).result.success = false
    ∧ msg ∈ (runSteps env remote (pre ++ step :: post) st).result.errors
    ∧ ((∀ a ∈ st.trace, a.isComment = false) →
        ∀ a ∈ (runSteps env remote (pre ++ step :: post) st).trace,
          a.isComment = false) := by
  rw [runSteps_append]
  obtain ⟨h1, _h2, _h3, _h4, _h5, _h6, h7⟩ :=
    runSteps_nonfatal env remote pre st hstop hpre
  set st1 := runSteps env remote pre st with hst1
  have hrun : runSteps env remote (step :: post) st1
      = runSteps env remote post
        (applyOutcome step (execute_step env remote step).1
          { st1 with trace := st1.trace ++ [(execute_step env remote step).2] })
      := by
    show (if st1.stopped then st1 else _) = _
    rw [h1, if_neg (by simp)]
  rw [hrun, hfail]
  set stf := applyOutcome step (.FatalError msg)
    { st1 with trace := st1.trace ++ [(execute_step env remote step).2] }
    with hstf
  have hfacts : stf.stopped = true ∧ stf.result.success = false
      ∧ msg ∈ stf.result.errors
      ∧ stf.trace = st1.trace ++ [(execute_step env remote step).2] := by
    refine ⟨rfl, rfl, ?_, rfl⟩
    exact List.mem_append_right _ (List.mem_singleton.mpr rfl)
  rw [runSteps_stopped env remote post stf hfacts.1]
  refine ⟨hfacts.1, hfacts.2.1, hfacts.2.2.1, ?_⟩
  intro hcom a ha
  rw [hfacts.2.2.2] at ha
  rcases List.mem_append.mp ha with ha | ha
  · exact h7 hcom a ha
  · rw [List.mem_singleton.mp ha]
    exact execStep_action_not_comment env remote step

theorem comment_call_lists (env : ExecEnv) (data : StackCommentData)
    (idx pr_number : Nat) :
    Action.listComments pr_number
      ∈ (create_or_update_stack_comment env data idx pr_number).2 := by
  unfold create_or_update_stack_comment
  cases env.list_pr_comments pr_number with
  | error e => exact List.mem_singleton.mpr rfl
  | ok comments =>
    dsimp only
    cases comments.find? (fun c =>
        strContains c.body commentDataHead
          || strContains c.body commentDataHeadOld) with
    | some comment => exact List.mem_cons_self _ _
    | none => exact List.mem_cons_self _ _

/-- The per-item body of the reconciliation fold, named for reasoning. -/
def reconcileStep (env : ExecEnv) (data : StackCommentData)
    (s : ExecLoopState) (p : Nat × StackItem) : ExecLoopState :=
  let r := create_or_update_stack_comment env data p.1 p.2.pr_number
  let s2 := { s with trace := s.trace ++ r.2 }
  match r.1 with
  | .ok _ => s2
  | .error e =>
    { s2 with result := (s2.result.soft_fail
        ("Failed to update stack comment for " ++ p.2.bookmark_name
          ++ ": " ++ e)) }

theorem reconcilePhase_eq (env : ExecEnv) (data : StackCommentData)
    (st : ExecLoopState) :
    reconcilePhase env data st
      = (data.stack.enum).foldl (reconcileStep env data) st := rfl

theorem reconcileStep_facts (env : ExecEnv) (data : StackCommentData)
    (s : ExecLoopState) (p : Nat × StackItem) :
    (reconcileStep env data s p).result.success = s.result.success
    ∧ (∀ e ∈ s.result.errors, e ∈ (reconcileStep env data s p).result.errors)
    ∧ (reconcileStep env data s p).trace
      = s.trace ++ (create_or_update_stack_comment env data p.1
          p.2.pr_number).2 := by
  cases hr : (create_or_update_stack_comment env data p.1 p.2.pr_number).1 with
  | ok u =>
    refine ⟨?_, ?_, ?_⟩
    · simp only [reconcileStep]
      rw [hr]
    · simp only [reconcileStep]
      rw [hr]
      exact fun e he2 => he2
    · simp only [reconcileStep]
      rw [hr]
  | error e2 =>
    refine ⟨?_, ?_, ?_⟩
    · simp only [reconcileStep]
      rw [hr]
      rfl
    · simp only [reconcileStep]
      rw [hr]
      exact fun e he2 => List.mem_append_left _ he2
    · simp only [reconcileStep]
      rw [hr]

theorem reconcile_fold_facts (env : ExecEnv) (data : StackCommentData) :
    ∀ (pairs : List (Nat × StackItem)) (st : ExecLoopState),
    (pairs.foldl (reconcileStep env data) st).result.success
      = st.result.success
    ∧ (∀ e ∈ st.result.errors,
        e ∈ (pairs.foldl (reconcileStep env data) st).result.errors)
    ∧ (∀ a ∈ st.trace, a ∈ (pairs.foldl (reconcileStep env data) st).trace)
    ∧ (∀ p ∈ pairs, Action.listComments p.2.pr_number
        ∈ (pairs.foldl (reconcileStep env data) st).trace) := by
  intro pairs
  induction pairs with
  | nil =>
    intro st
    exact ⟨rfl, fun e he => he, fun a ha => ha,
      fun p hp => absurd hp (List.not_mem_nil p)⟩
  | cons p rest ih =>
    intro st
    rw [List.foldl_cons]
    obtain ⟨hs1, hs2, hs3⟩ := reconcileStep_facts env data st p
    obtain ⟨hr1, hr2, hr3, hr4⟩ := ih (reconcileStep env data st p)
    refine ⟨?_, ?_, ?_, ?_⟩
    · rw [hr1, hs1]
    · intro e he
      exact hr2 e (hs2 e he)
    · intro a ha
      refine hr3 a ?_
      rw [hs3]
      exact List.mem_append_left _ ha
    · intro q hq
      rcases List.mem_cons.mp hq with rfl | hmem
      · refine hr3 _ ?_
        rw [hs3]
        exact List.mem_append_right _ (comment_call_lists env data q.1
          q.2.pr_number)
      · exact hr4 q hmem

theorem enumFrom_get? {α : Type} :
    ∀ (l : List α) (n i : Nat),
    (l.enumFrom n).get? i = (l.get? i).map (fun a => (n + i, a)) := by
  intro l
  induction l with
  | nil => intro n i; cases i <;> rfl
  | cons x rest ih =>
    intro n i
    cases i with
    | zero => rfl
    | succ m =>
      show (rest.enumFrom (n + 1)).get? m = _
      rw [ih (n + 1) m]
      show (rest.get? m).map (fun a => (n + 1 + m, a))
        = (rest.get? m).map (fun a => (n + (m + 1), a))
      have : n + 1 + m = n + (m + 1) := by omega
      rw [this]

theorem enum_mem_of_mem {α : Type} (l : List α) (a : α) (h : a ∈ l) :
    ∃ i, (i, a) ∈ l.enum := by
  obtain ⟨i, hi⟩ := List.get?_of_mem h
  have henum : (l.enum).get? i = some (i, a) := by
    show (l.enumFrom 0).get? i = some (i, a)
    rw [enumFrom_get?, hi]
    simp
  exact ⟨i, List.get?_mem henum⟩

theorem runSteps_soft (env : ExecEnv) (remote : String)
    (pre post : List ExecutionStep) (step : ExecutionStep) (msg : String)
    (st : ExecLoopState) (hstop : st.stopped = false)
    (hpre : ∀ s ∈ pre, ∀ m, (execute_step env remote s).1 ≠ .FatalError m)
    (hpost : ∀ s ∈ post, ∀ m, (execute_step env remote s).1 ≠ .FatalError m)
    (hsoft : (execute_step env remote step).1 = .SoftError msg) :
    (runSteps env remote (pre ++ step :: post) st).stopped = false
    ∧ (runSteps env remote (pre ++ step :: post) st).result.success
        = st.result.success
    ∧ msg ∈ (runSteps env remote (pre ++ step :: post) st).result.errors
    ∧ (∀ a ∈ st.trace, a ∈ (runSteps env remote (pre ++ step :: post) st).trace)
    ∧ (∀ s ∈ pre ++ step :: post,
        (execute_step env remote s).2
          ∈ (runSteps env remote (pre ++ step :: post) st).trace)
    ∧ (st.prMap ≠ [] →
        (runSteps env remote (pre ++ step :: post) st).prMap ≠ []) := by
  rw [runSteps_append]
  obtain ⟨hA1, hA2, hA3, hA4, _hA5, hA6, _hA7⟩ :=
    runSteps_nonfatal env remote pre st hstop hpre
  set st1 := runSteps env remote pre st with hst1
  have hrun : runSteps env remote (step :: post) st1
      = runSteps env remote post
        (applyOutcome step (execute_step env remote step).1
          { st1 with trace := st1.trace ++ [(execute_step env remote step).2] })
      := by
    show (if st1.stopped then st1 else _) = _
    rw [hA1, if_neg (by simp)]
  rw [hrun, hsoft]
  set st2 := applyOutcome step (.SoftError msg)
    { st1 with trace := st1.trace ++ [(execute_step env remote step).2] }
    with hst2
  have hst2facts : st2.stopped = st1.stopped
      ∧ st2.result.success = st1.result.success
      ∧ st2.result.errors = st1.result.errors ++ [msg]
      ∧ st2.trace = st1.trace ++ [(execute_step env remote step).2]
      ∧ st2.prMap = st1.prMap :=
    ⟨rfl, rfl, rfl, rfl, rfl⟩
  have hst2stop : st2.stopped = false := by rw [hst2facts.1]; exact hA1
  obtain ⟨hB1, hB2, hB3, hB4, hB5, hB6, _hB7⟩ :=
    runSteps_nonfatal env remote post st2 hst2stop hpost
  refine ⟨hB1, ?_, ?_, ?_, ?_, ?_⟩
  · rw [hB2, hst2facts.2.1, hA2]
  · refine hB5 msg ?_
    rw [hst2facts.2.2.1]
    exact List.mem_append_right _ (List.mem_singleton.mpr rfl)
  · intro a ha
    refine hB3 a ?_
    rw [hst2facts.2.2.2.1]
    exact List.mem_append_left _ (hA3 a ha)
  · intro s hs
    rcases List.mem_append.mp hs with hs | hs
    · refine hB3 _ ?_
      rw [hst2facts.2.2.2.1]
      exact List.mem_append_left _ (hA4 s hs)
    · rcases List.mem_cons.mp hs with rfl | hs
      · refine hB3 _ ?_
        rw [hst2facts.2.2.2.1]
        exact List.mem_append_right _ (List.mem_singleton.mpr rfl)
      · exact hB4 s hs
  · intro hne
    refine hB6 ?_
    rw [hst2facts.2.2.2.2]
    exact hA6 hne

/-- The initial executor loop state of `execute_submission`. -/
def initExecState (prs : List (String × PullRequest)) : ExecLoopState :=
  { result := SubmissionResult.new, prMap := prs, trace := [],
    stopped := false }

/-! ## Claim C10 -/

/-- C10: for every plan, when a step fails fatally (which only `Push`,
`UpdateBase` and `CreatePr` steps can — a failing `PublishPr` is soft, as
the final conjunct records) and every earlier step is non-fatal,
`execute_submission` still returns `Ok`: the carried result has
`success = false` with the error message appended, and the action trace
contains NO stack-comment call (nothing is listed, created or updated for
any PR) — the reconciliation phase is skipped entirely. -/
theorem c10_fatal_step_ok_no_comments (plan : SubmissionPlan) (env : ExecEnv)
    (k : Nat) (step : ExecutionStep) (msg : String)
    (hk : plan.execution_steps.get? k = some step)
    (hfail : (execute_step env plan.remote step).1 = .FatalError msg)
    (hpre : ∀ j, j < k → ∀ sj, plan.execution_steps.get? j = some sj →
      ∀ m, (execute_step env plan.remote sj).1 ≠ .FatalError m) :
    ∃ res trace, execute_submission plan env false = .ok (res, trace)
      ∧ res.success = false
      ∧ msg ∈ res.errors
      ∧ (∀ a ∈ trace, a.isComment = false)
      ∧ (∀ pr, step ≠ .PublishPr pr) := by
  have hnotpub : ∀ pr, step ≠ ExecutionStep.PublishPr pr := by
    intro pr hstep
    subst hstep
    have h2 : (execute_step env plan.remote (.PublishPr pr)).1
        = execute_publish_pr env pr := rfl
    rw [h2] at hfail
    unfold execute_publish_pr at hfail
    cases hpp : env.publish_pr pr.number with
    | ok u => simp [hpp] at hfail
    | error e => simp [hpp] at hfail
  obtain ⟨hlen, hget⟩ := List.get?_eq_some.mp hk
  have hsplit : plan.execution_steps
      = plan.execution_steps.take k
        ++ step :: plan.execution_steps.drop (k + 1) := by
    conv_lhs => rw [← List.take_append_drop k plan.execution_steps]
    rw [List.drop_eq_get_cons hlen, hget]
  have hpre2 : ∀ s ∈ plan.execution_steps.take k, ∀ m,
      (execute_step env plan.remote s).1 ≠ .FatalError m := by
    intro s hs m
    obtain ⟨j, hj⟩ := List.get?_of_mem hs
    have hjlen : j < (plan.execution_steps.take k).length := by
      obtain ⟨h2, _⟩ := List.get?_eq_some.mp hj
      exact h2
    have hjk : j < k := by
      rw [List.length_take] at hjlen
      omega
    rw [List.get?_take hjk] at hj
    exact hpre j hjk s hj m
  obtain ⟨hstop, hsucc, herr, hcom⟩ := runSteps_fatal env plan.remote
    (plan.execution_steps.take k) (plan.execution_steps.drop (k + 1)) step
    msg (initExecState plan.existing_prs) rfl hpre2 hfail
  rw [← hsplit] at hstop hsucc herr hcom
  refine ⟨(runSteps env plan.remote plan.execution_steps
      (initExecState plan.existing_prs)).result,
    (runSteps env plan.remote plan.execution_steps
      (initExecState plan.existing_prs)).trace,
    ?_, hsucc, herr, hcom (fun a ha => absurd ha (List.not_mem_nil a)),
    hnotpub⟩
  show (if (false : Bool) then _ else _) = _
  rw [if_neg (by simp)]
  dsimp only
  have hinit : (⟨SubmissionResult.new, plan.existing_prs, [], false⟩
      : ExecLoopState) = initExecState plan.existing_prs := rfl
  rw [hinit, hstop, if_pos rfl]

def c10bm : Bookmark :=
  { name := "f", commit_id := "fc", change_id := "fch",
    has_remote := true, is_synced := false }

def c10env : ExecEnv :=
  { git_push := fun _ _ => .error "boom",
    update_pr_base := fun _ _ => .error "x",
    create_pr_with_options := fun _ _ _ _ => .error "x",
    publish_pr := fun _ => .error "x",
    list_pr_comments := fun _ => .ok [],
    create_pr_comment := fun _ _ => .ok (),
    update_pr_comment := fun _ _ _ => .ok () }

def c10plan : SubmissionPlan :=
  { segments := [], constraints := [],
    execution_steps := [.Push c10bm],
    existing_prs := [], remote := "origin", default_branch := "main" }

/-- C10 witness: a plan with one push step whose git push fails; execution
returns `Ok` with a failed result carrying the message, and the trace holds
no comment call. -/
theorem c10_fatal_step_ok_no_comments_witness :
    (execute_step c10env c10plan.remote (.Push c10bm)).1
        = .FatalError "Failed to push f: boom"
    ∧ ∃ res trace, execute_submission c10plan c10env false = .ok (res, trace)
      ∧ res.success = false
      ∧ "Failed to push f: boom" ∈ res.errors
      ∧ (∀ a ∈ trace, a.isComment = false)
      ∧ (∀ pr, ExecutionStep.Push c10bm ≠ .PublishPr pr) := by
  refine ⟨by rfl, ?_⟩
  exact c10_fatal_step_ok_no_comments c10plan c10env 0 (.Push c10bm)
    "Failed to push f: boom" (by rfl) (by rfl)
    (fun j hj => absurd hj (Nat.not_lt_zero j))

/-! ## Claim C4 -/

/-- C4: soft publish failure.  For every plan containing a `PublishPr` step
whose platform publish call fails, when no step fails fatally and the plan
tracks at least one existing PR: `execute_submission` returns `Ok`, the
result keeps `success = true` with the publish error message appended to
`errors`, every step of the plan is still executed (its collaborator action
is in the trace), and the stack-comment reconciliation phase still runs — a
comment listing happens for every PR in the manifest. -/
theorem c4_publish_soft_failure (plan : SubmissionPlan) (env : ExecEnv)
    (pr : PullRequest) (e : String)
    (hmem : ExecutionStep.PublishPr pr ∈ plan.execution_steps)
    (hfailpub : env.publish_pr pr.number = .error e)
    (hnf : ∀ s ∈ plan.execution_steps, ∀ m,
      (execute_step env plan.remote s).1 ≠ .FatalError m)
    (hprs : plan.existing_prs ≠ []) :
    ∃ res trace, execute_submission plan env false = .ok (res, trace)
      ∧ res.success = true
      ∧ ("Failed to publish PR #" ++ toString pr.number ++ ": " ++ e)
          ∈ res.errors
      ∧ (∀ s ∈ plan.execution_steps,
          (execute_step env plan.remote s).2 ∈ trace)
      ∧ (∀ item ∈ (build_stack_comment_data plan
            (runSteps env plan.remote plan.execution_steps
              (initExecState plan.existing_prs)).prMap).stack,
          Action.listComments item.pr_number ∈ trace) := by
  obtain ⟨pre, post, hsplit⟩ := List.append_of_mem hmem
  have hsoft : (execute_step env plan.remote (.PublishPr pr)).1
      = .SoftError ("Failed to publish PR #" ++ toString pr.number
          ++ ": " ++ e) := by
    have h2 : (execute_step env plan.remote (.PublishPr pr)).1
        = execute_publish_pr env pr := rfl
    rw [h2]
    unfold execute_publish_pr
    rw [hfailpub]
  have hpre2 : ∀ s ∈ pre, ∀ m,
      (execute_step env plan.remote s).1 ≠ .FatalError m := by
    intro s hs
    refine hnf s ?_
    rw [hsplit]
    exact List.mem_append_left _ hs
  have hpost2 : ∀ s ∈ post, ∀ m,
      (execute_step env plan.remote s).1 ≠ .FatalError m := by
    intro s hs
    refine hnf s ?_
    rw [hsplit]
    exact List.mem_append_right _ (List.mem_cons_of_mem _ hs)
  obtain ⟨hstop, hsucc, herr, _htr, hacts, hmap⟩ := runSteps_soft env
    plan.remote pre post (.PublishPr pr)
    ("Failed to publish PR #" ++ toString pr.number ++ ": " ++ e)
    (initExecState plan.existing_prs) rfl hpre2 hpost2 hsoft
  rw [← hsplit] at hstop hsucc herr hacts hmap
  set stF := runSteps env plan.remote plan.execution_steps
    (initExecState plan.existing_prs) with hstF
  have hne : stF.prMap ≠ [] := hmap hprs
  have hemp : stF.prMap.isEmpty = false := by
    cases hm : stF.prMap with
    | nil => exact absurd hm hne
    | cons a l => rfl
  have hrec := reconcile_fold_facts env
    (build_stack_comment_data plan stF.prMap)
    ((build_stack_comment_data plan stF.prMap).stack.enum) stF
  refine ⟨(reconcilePhase env (build_stack_comment_data plan stF.prMap)
      stF).result,
    (reconcilePhase env (build_stack_comment_data plan stF.prMap) stF).trace,
    ?_, ?_, ?_, ?_, ?_⟩
  · show (if (false : Bool) then _ else _) = _
    rw [if_neg (by simp)]
    dsimp only
    have hinit : (⟨SubmissionResult.new, plan.existing_prs, [], false⟩
        : ExecLoopState) = initExecState plan.existing_prs := rfl
    rw [hinit, ← hstF, hstop, if_neg (by simp), hemp, if_neg (by simp)]
  · rw [reconcilePhase_eq, hrec.1, hsucc]
    rfl
  · rw [reconcilePhase_eq]
    exact hrec.2.1 _ herr
  · intro s hs
    rw [reconcilePhase_eq]
    exact hrec.2.2.1 _ (hacts s hs)
  · intro item hitem
    obtain ⟨i, hi⟩ := enum_mem_of_mem _ item hitem
    rw [reconcilePhase_eq]
    exact hrec.2.2.2 (i, item) hi

def c4bm : Bookmark :=
  { name := "w", commit_id := "wc", change_id := "wch",
    has_remote := true, is_synced := true }

def c4pr : PullRequest :=
  { number := 3, html_url := "hu", base_ref := "main", head_ref := "w",
    title := "T", node_id := none, is_draft := true }

def c4plan : SubmissionPlan :=
  { segments := [{ bookmark := c4bm, changes := [] }], constraints := [],
    execution_steps := [.PublishPr c4pr],
    existing_prs := [("w", c4pr)], remote := "origin",
    default_branch := "main" }

def c4env : ExecEnv :=
  { git_push := fun _ _ => .ok (),
    update_pr_base := fun _ _ => .error "unused",
    create_pr_with_options := fun _ _ _ _ => .error "unused",
    publish_pr := fun _ => .error "boom",
    list_pr_comments := fun _ => .ok [],
    create_pr_comment := fun _ _ => .ok (),
    update_pr_comment := fun _ _ _ => .ok () }

/-- C4 witness: one tracked PR whose publish fails; the result stays
successful with the message recorded, the publish action is traced, and the
manifest PR still gets its comment listing. -/
theorem c4_publish_soft_failure_witness :
    c4env.publish_pr c4pr.number = .error "boom"
    ∧ ∃ res trace, execute_submission c4plan c4env false = .ok (res, trace)
      ∧ res.success = true
      ∧ ("Failed to publish PR #" ++ toString c4pr.number ++ ": " ++ "boom")
          ∈ res.errors
      ∧ (∀ s ∈ c4plan.execution_steps,
          (execute_step c4env c4plan.remote s).2 ∈ trace)
      ∧ (∀ item ∈ (build_stack_comment_data c4plan
            (runSteps c4env c4plan.remote c4plan.execution_steps
              (initExecState c4plan.existing_prs)).prMap).stack,
          Action.listComments item.pr_number ∈ trace) := by
  refine ⟨by rfl, ?_⟩
  refine c4_publish_soft_failure c4plan c4env c4pr "boom"
    (List.mem_singleton.mpr rfl) (by rfl) ?_ (by decide)
  intro s hs m h
  rw [show c4plan.execution_steps = [.PublishPr c4pr] from rfl,
    List.mem_singleton] at hs
  subst hs
  have h2 : (execute_step c4env c4plan.remote (.PublishPr c4pr)).1
      = .SoftError "Failed to publish PR #3: boom" := by rfl
  rw [h2] at h
  exact StepOutcome.noConfusion h

/-! ## Helper lemmas: stack-comment payload round trip -/

theorem b64Val_b64Char : ∀ k, k < 64 → b64Val (b64Char k) = some k := by
  decide

theorem b64Char_ne_pad : ∀ k, k < 64 → b64Char k ≠ '=' := by decide

theorem base64_rt_aux :
    ∀ (n : Nat) (bytes : List Nat), bytes.length ≤ n →
    (∀ b ∈ bytes, b < 256) →
    base64Decode (base64Encode bytes) = some bytes := by
  intro n
  induction n with
  | zero =>
    intro bytes hlen _
    have h0 : bytes = [] := List.eq_nil_of_length_eq_zero (by omega)
    subst h0
    rfl
  | succ n ih =>
    intro bytes hlen hb
    match bytes with
    | [] => rfl
    | [a] =>
      have ha : a < 256 := hb a (by simp)
      show base64Decode [b64Char (a / 4), b64Char (a % 4 * 16), '=', '=']
        = some [a]
      simp only [base64Decode, b64Val_b64Char _ (by omega : a / 4 < 64),
        b64Val_b64Char _ (by omega : a % 4 * 16 < 64), Bind.bind, Option.bind,
        if_pos rfl, List.isEmpty_nil, if_true, Option.pure_def]
      have harith : a / 4 * 4 + a % 4 * 16 / 16 = a := by omega
      rw [harith]
    | [a, b] =>
      have ha : a < 256 := hb a (by simp)
      have hbb : b < 256 := hb b (by simp)
      show base64Decode [b64Char (a / 4), b64Char (a % 4 * 16 + b / 16),
          b64Char (b % 16 * 4), '='] = some [a, b]
      simp only [base64Decode, b64Val_b64Char _ (by omega : a / 4 < 64),
        b64Val_b64Char _ (by omega : a % 4 * 16 + b / 16 < 64),
        b64Val_b64Char _ (by omega : b % 16 * 4 < 64), Bind.bind, Option.bind,
        if_neg (b64Char_ne_pad _ (by omega : b % 16 * 4 < 64)),
        if_pos rfl, List.isEmpty_nil, if_true, Option.pure_def]
      have h1 : a / 4 * 4 + (a % 4 * 16 + b / 16) / 16 = a := by omega
      have h2 : (a % 4 * 16 + b / 16) % 16 * 16 + b % 16 * 4 / 4 = b := by
        omega
      rw [h1, h2]
    | a :: b :: c :: rest =>
      have ha : a < 256 := hb a (by simp)
      have hbb : b < 256 := hb b (by simp)
      have hc : c < 256 := hb c (by simp)
      have hrest : ∀ x ∈ rest, x < 256 := by
        intro x hx
        exact hb x (by simp [hx])
      have hlen2 : rest.length ≤ n := by
        simp only [List.length_cons] at hlen
        omega
      show base64Decode (b64Char (a / 4) :: b64Char (a % 4 * 16 + b / 16)
          :: b64Char (b % 16 * 4 + c / 64) :: b64Char (c % 64)
          :: base64Encode rest) = some (a :: b :: c :: rest)
      simp only [base64Decode, b64Val_b64Char _ (by omega : a / 4 < 64),
        b64Val_b64Char _ (by omega : a % 4 * 16 + b / 16 < 64),
        b64Val_b64Char _ (by omega : b % 16 * 4 + c / 64 < 64),
        b64Val_b64Char _ (by omega : c % 64 < 64), Bind.bind, Option.bind,
        if_neg (b64Char_ne_pad _ (by omega : b % 16 * 4 + c / 64 < 64)),
        if_neg (b64Char_ne_pad _ (by omega : c % 64 < 64)),
        Option.pure_def]
      rw [ih rest hlen2 hrest]
      have h1 : a / 4 * 4 + (a % 4 * 16 + b / 16) / 16 = a := by omega
      have h2 : (a % 4 * 16 + b / 16) % 16 * 16
          + (b % 16 * 4 + c / 64) / 4 = b := by omega
      have h3 : (b % 16 * 4 + c / 64) % 4 * 64 + c % 64 = c := by omega
      rw [h1, h2, h3]

theorem base64_rt (bytes : List Nat) (hb : ∀ b ∈ bytes, b < 256) :
    base64Decode (base64Encode bytes) = some bytes :=
  base64_rt_aux bytes.length bytes (Nat.le_refl _) hb

theorem mkScalar_toNat (c : Char) : mkScalar c.toNat = some c := by
  have hv : c.toNat.isValidChar := c.valid
  have h2 := Char.ofNat_toNat c
  unfold Char.ofNat at h2
  rw [dif_pos hv] at h2
  unfold mkScalar
  rw [dif_pos hv, h2]

theorem isCont_true (b : Nat) (h1 : 0x80 ≤ b) (h2 : b < 0xC0) :
    isCont b = true := by
  simp only [isCont, Bool.and_eq_true, decide_eq_true_eq]
  omega

theorem utf8DecodeCs_nil : utf8DecodeCs [] = some [] := by
  rw [utf8DecodeCs.eq_def]

theorem utf8DecodeCs_cons (b : Nat) (rest : List Nat) :
    utf8DecodeCs (b :: rest) =
    (if b < 0x80 then
      (mkScalar b).bind fun c => (utf8DecodeCs rest).map fun cs => c :: cs
    else if b < 0xC0 then none
    else if b < 0xE0 then
      if 1 ≤ rest.length ∧ isCont (rest.getD 0 0) then
        (mkScalar ((b - 0xC0) * 64 + (rest.getD 0 0 - 0x80))).bind fun c =>
          (utf8DecodeCs (rest.drop 1)).map fun cs => c :: cs
      else none
    else if b < 0xF0 then
      if 2 ≤ rest.length ∧ isCont (rest.getD 0 0) ∧ isCont (rest.getD 1 0) then
        (mkScalar ((b - 0xE0) * 4096 + (rest.getD 0 0 - 0x80) * 64
            + (rest.getD 1 0 - 0x80))).bind fun c =>
          (utf8DecodeCs (rest.drop 2)).map fun cs => c :: cs
      else none
    else
      if 3 ≤ rest.length ∧ isCont (rest.getD 0 0) ∧ isCont (rest.getD 1 0)
          ∧ isCont (rest.getD 2 0) then
        (mkScalar ((b - 0xF0) * 262144 + (rest.getD 0 0 - 0x80) * 4096
            + (rest.getD 1 0 - 0x80) * 64 + (rest.getD 2 0 - 0x80))).bind
          fun c => (utf8DecodeCs (rest.drop 3)).map fun cs => c :: cs
      else none) := by
  rw [utf8DecodeCs.eq_def]

theorem utf8_rt : ∀ cs : List Char, utf8DecodeCs (utf8EncodeCs cs) = some cs := by
  intro cs
  induction cs with
  | nil => exact utf8DecodeCs_nil
  | cons c rest ih =>
    show utf8DecodeCs (utf8EncodeChar c ++ utf8EncodeCs rest) = some (c :: rest)
    have hvr : c.toNat < 0xd800
        ∨ (0xdfff < c.toNat ∧ c.toNat < 0x110000) := c.valid
    have hlt : c.toNat < 0x110000 := by omega
    by_cases h1 : c.toNat < 0x80
    · rw [show utf8EncodeChar c = [c.toNat] from by
        unfold utf8EncodeChar
        rw [if_pos h1]]
      rw [List.cons_append, List.nil_append, utf8DecodeCs_cons,
        if_pos h1, mkScalar_toNat, ih]
      rfl
    · by_cases h2 : c.toNat < 0x800
      · rw [show utf8EncodeChar c
            = [0xC0 + c.toNat / 64, 0x80 + c.toNat % 64] from by
          unfold utf8EncodeChar
          rw [if_neg h1, if_pos h2]]
        rw [List.cons_append, List.cons_append, List.nil_append,
          utf8DecodeCs_cons, if_neg (by omega), if_neg (by omega),
          if_pos (by omega)]
        rw [if_pos (⟨by simp, by
          rw [show ((0x80 + c.toNat % 64) :: utf8EncodeCs rest).getD 0 0
              = 0x80 + c.toNat % 64 from rfl]
          exact isCont_true _ (by omega) (by omega)⟩ :
            1 ≤ ((0x80 + c.toNat % 64) :: utf8EncodeCs rest).length
            ∧ isCont (((0x80 + c.toNat % 64)
              :: utf8EncodeCs rest).getD 0 0) = true)]
        rw [show ((0x80 + c.toNat % 64) :: utf8EncodeCs rest).getD 0 0
            = 0x80 + c.toNat % 64 from rfl]
        rw [show (0xC0 + c.toNat / 64 - 0xC0) * 64
            + (0x80 + c.toNat % 64 - 0x80) = c.toNat from by omega]
        rw [mkScalar_toNat]
        rw [show List.drop 1 ((0x80 + c.toNat % 64) :: utf8EncodeCs rest)
            = utf8EncodeCs rest from rfl]
        rw [ih]
        rfl
      · by_cases h3 : c.toNat < 0x10000
        · rw [show utf8EncodeChar c
              = [0xE0 + c.toNat / 4096, 0x80 + c.toNat / 64 % 64,
                 0x80 + c.toNat % 64] from by
            unfold utf8EncodeChar
            rw [if_neg h1, if_neg h2, if_pos h3]]
          rw [List.cons_append, List.cons_append, List.cons_append,
            List.nil_append, utf8DecodeCs_cons, if_neg (by omega),
            if_neg (by omega), if_neg (by omega), if_pos (by omega)]
          rw [if_pos (⟨by simp, by
            rw [show ((0x80 + c.toNat / 64 % 64) :: (0x80 + c.toNat % 64)
                :: utf8EncodeCs rest).getD 0 0
                = 0x80 + c.toNat / 64 % 64 from rfl]
            exact isCont_true _ (by omega) (by omega), by
            rw [show ((0x80 + c.toNat / 64 % 64) :: (0x80 + c.toNat % 64)
                :: utf8EncodeCs rest).getD 1 0
                = 0x80 + c.toNat % 64 from rfl]
            exact isCont_true _ (by omega) (by omega)⟩ :
              2 ≤ ((0x80 + c.toNat / 64 % 64) :: (0x80 + c.toNat % 64)
                :: utf8EncodeCs rest).length
              ∧ isCont (((0x80 + c.toNat / 64 % 64) :: (0x80 + c.toNat % 64)
                :: utf8EncodeCs rest).getD 0 0) = true
              ∧ isCont (((0x80 + c.toNat / 64 % 64) :: (0x80 + c.toNat % 64)
                :: utf8EncodeCs rest).getD 1 0) = true)]
          rw [show ((0x80 + c.toNat / 64 % 64) :: (0x80 + c.toNat % 64)
              :: utf8EncodeCs rest).getD 0 0
              = 0x80 + c.toNat / 64 % 64 from rfl]
          rw [show ((0x80 + c.toNat / 64 % 64) :: (0x80 + c.toNat % 64)
              :: utf8EncodeCs rest).getD 1 0
              = 0x80 + c.toNat % 64 from rfl]
          rw [show (0xE0 + c.toNat / 4096 - 0xE0) * 4096
              + (0x80 + c.toNat / 64 % 64 - 0x80) * 64
              + (0x80 + c.toNat % 64 - 0x80) = c.toNat from by omega]
          rw [mkScalar_toNat]
          rw [show List.drop 2 ((0x80 + c.toNat / 64 % 64)
              :: (0x80 + c.toNat % 64) :: utf8EncodeCs rest)
              = utf8EncodeCs rest from rfl]
          rw [ih]
          rfl
        · rw [show utf8EncodeChar c
              = [0xF0 + c.toNat / 262144, 0x80 + c.toNat / 4096 % 64,
                 0x80 + c.toNat / 64 % 64, 0x80 + c.toNat % 64] from by
            unfold utf8EncodeChar
            rw [if_neg h1, if_neg h2, if_neg h3]]
          rw [List.cons_append, List.cons_append, List.cons_append,
            List.cons_append, List.nil_append, utf8DecodeCs_cons,
            if_neg (by omega), if_neg (by omega), if_neg (by omega),
            if_neg (by omega)]
          rw [if_pos (⟨by simp, by
            rw [show ((0x80 + c.toNat / 4096 % 64)
                :: (0x80 + c.toNat / 64 % 64) :: (0x80 + c.toNat % 64)
                :: utf8EncodeCs rest).getD 0 0
                = 0x80 + c.toNat / 4096 % 64 from rfl]
            exact isCont_true _ (by omega) (by omega), by
            rw [show ((0x80 + c.toNat / 4096 % 64)
                :: (0x80 + c.toNat / 64 % 64) :: (0x80 + c.toNat % 64)
                :: utf8EncodeCs rest).getD 1 0
                = 0x80 + c.toNat / 64 % 64 from rfl]
            exact isCont_true _ (by omega) (by omega), by
            rw [show ((0x80 + c.toNat / 4096 % 64)
                :: (0x80 + c.toNat / 64 % 64) :: (0x80 + c.toNat % 64)
                :: utf8EncodeCs rest).getD 2 0
                = 0x80 + c.toNat % 64 from rfl]
            exact isCont_true _ (by omega) (by omega)⟩ :
              3 ≤ ((0x80 + c.toNat / 4096 % 64)
                :: (0x80 + c.toNat / 64 % 64) :: (0x80 + c.toNat % 64)
                :: utf8EncodeCs rest).length
              ∧ isCont (((0x80 + c.toNat / 4096 % 64)
                :: (0x80 + c.toNat / 64 % 64) :: (0x80 + c.toNat % 64)
                :: utf8EncodeCs rest).getD 0 0) = true
              ∧ isCont (((0x80 + c.toNat / 4096 % 64)
                :: (0x80 + c.toNat / 64 % 64) :: (0x80 + c.toNat % 64)
                :: utf8EncodeCs rest).getD 1 0) = true
              ∧ isCont (((0x80 + c.toNat / 4096 % 64)
                :: (0x80 + c.toNat / 64 % 64) :: (0x80 + c.toNat % 64)
                :: utf8EncodeCs rest).getD 2 0) = true)]
          rw [show ((0x80 + c.toNat / 4096 % 64)
              :: (0x80 + c.toNat / 64 % 64) :: (0x80 + c.toNat % 64)
              :: utf8EncodeCs rest).getD 0 0
              = 0x80 + c.toNat / 4096 % 64 from rfl]
          rw [show ((0x80 + c.toNat / 4096 % 64)
              :: (0x80 + c.toNat / 64 % 64) :: (0x80 + c.toNat % 64)
              :: utf8EncodeCs rest).getD 1 0
              = 0x80 + c.toNat / 64 % 64 from rfl]
          rw [show ((0x80 + c.toNat / 4096 % 64)
              :: (0x80 + c.toNat / 64 % 64) :: (0x80 + c.toNat % 64)
              :: utf8EncodeCs rest).getD 2 0
              = 0x80 + c.toNat % 64 from rfl]
          rw [show (0xF0 + c.toNat / 262144 - 0xF0) * 262144
              + (0x80 + c.toNat / 4096 % 64 - 0x80) * 4096
              + (0x80 + c.toNat / 64 % 64 - 0x80) * 64
              + (0x80 + c.toNat % 64 - 0x80) = c.toNat from by omega]
          rw [mkScalar_toNat]
          rw [show List.drop 3 ((0x80 + c.toNat / 4096 % 64)
              :: (0x80 + c.toNat / 64 % 64) :: (0x80 + c.toNat % 64)
              :: utf8EncodeCs rest) = utf8EncodeCs rest from rfl]
          rw [ih]
          rfl

theorem jDigit_toNat : ∀ d, d < 10 → (jDigit d).toNat = 48 + d := by decide

theorem isDigit_jDigit : ∀ d, d < 10 → isDigitCh (jDigit d) = true := by
  decide

theorem natChars_digits :
    ∀ n, ∀ c ∈ natChars n, isDigitCh c = true := by
  intro n
  induction n using Nat.strong_induction_on with
  | _ n ih =>
    intro c hc
    rw [natChars] at hc
    by_cases h : n < 10
    · rw [if_pos h] at hc
      rw [List.mem_singleton.mp hc]
      exact isDigit_jDigit n h
    · rw [if_neg h] at hc
      rcases List.mem_append.mp hc with hm | hm
      · exact ih (n / 10) (Nat.div_lt_self (by omega) (by omega)) c hm
      · rw [List.mem_singleton.mp hm]
        exact isDigit_jDigit (n % 10) (Nat.mod_lt _ (by omega))

theorem natChars_ne_nil (n : Nat) : natChars n ≠ [] := by
  rw [natChars]
  by_cases h : n < 10
  · rw [if_pos h]
    simp
  · rw [if_neg h]
    simp

theorem natChars_foldl :
    ∀ n acc, (natChars n).foldl (fun a c => a * 10 + (c.toNat - 48)) acc
      = acc * 10 ^ (natChars n).length + n := by
  intro n
  induction n using Nat.strong_induction_on with
  | _ n ih =>
    intro acc
    rw [natChars]
    by_cases h : n < 10
    · rw [if_pos h]
      show acc * 10 + ((jDigit n).toNat - 48) = acc * 10 ^ 1 + n
      rw [jDigit_toNat n h, pow_one]
      omega
    · rw [if_neg h]
      rw [List.foldl_append]
      rw [ih (n / 10) (Nat.div_lt_self (by omega) (by omega)) acc]
      show (acc * 10 ^ (natChars (n / 10)).length + n / 10) * 10
          + ((jDigit (n % 10)).toNat - 48) = _
      rw [jDigit_toNat (n % 10) (Nat.mod_lt _ (by omega))]
      rw [List.length_append, List.length_singleton, pow_succ]
      rw [Nat.add_mul, Nat.mul_assoc]
      omega

theorem takeWhile_append_all (p : Char → Bool) :
    ∀ (l r : List Char), (∀ c ∈ l, p c = true) →
    (l ++ r).takeWhile p = l ++ r.takeWhile p := by
  intro l
  induction l with
  | nil => intro r _; rfl
  | cons c cs ih =>
    intro r hall
    rw [List.cons_append, List.takeWhile_cons,
      hall c (List.mem_cons_self _ _)]
    rw [ih r (fun c2 hc2 => hall c2 (List.mem_cons_of_mem _ hc2))]
    simp

theorem dropWhile_append_all (p : Char → Bool) :
    ∀ (l r : List Char), (∀ c ∈ l, p c = true) →
    (l ++ r).dropWhile p = r.dropWhile p := by
  intro l
  induction l with
  | nil => intro r _; rfl
  | cons c cs ih =>
    intro r hall
    rw [List.cons_append, List.dropWhile_cons,
      hall c (List.mem_cons_self _ _)]
    rw [if_pos rfl]
    exact ih r (fun c2 hc2 => hall c2 (List.mem_cons_of_mem _ hc2))

theorem takeWhile_head_false (p : Char → Bool) (r : List Char)
    (h : ∀ c, r.head? = some c → p c = false) : r.takeWhile p = [] := by
  cases r with
  | nil => rfl
  | cons c cs =>
    rw [List.takeWhile_cons, h c rfl]
    simp

theorem dropWhile_head_false (p : Char → Bool) (r : List Char)
    (h : ∀ c, r.head? = some c → p c = false) : r.dropWhile p = r := by
  cases r with
  | nil => rfl
  | cons c cs =>
    rw [List.dropWhile_cons, h c rfl]
    simp

theorem parseNatCs_natChars (n : Nat) (rest : List Char)
    (h : ∀ c, rest.head? = some c → isDigitCh c = false) :
    parseNatCs (natChars n ++ rest) = some (n, rest) := by
  simp only [parseNatCs]
  rw [takeWhile_append_all _ _ _ (natChars_digits n),
    takeWhile_head_false _ rest h, List.append_nil,
    dropWhile_append_all _ _ _ (natChars_digits n),
    dropWhile_head_false _ rest h]
  rw [if_neg (by
    intro he
    exact natChars_ne_nil n (List.isEmpty_iff.mp he))]
  rw [natChars_foldl n 0]
  simp

theorem stripPre_append : ∀ (p rest : List Char),
    stripPre p (p ++ rest) = some rest := by
  intro p
  induction p with
  | nil => intro rest; rfl
  | cons c ps ih =>
    intro rest
    rw [List.cons_append]
    show (if c = c then stripPre ps (ps ++ rest) else none) = some rest
    rw [if_pos rfl]
    exact ih rest

theorem hexVal_jHexDigit : ∀ k, k < 16 → hexVal (jHexDigit k) = some k := by
  decide

theorem parseJSB_succ_cons (f : Nat) (c : Char) (rest : List Char) :
    parseJSB (f + 1) (c :: rest) =
    (if c = '"' then some ([], rest)
     else if c = '\\' then
       Option.bind (parseJEsc1 rest) (fun er =>
         Option.map (fun p => (er.1 :: p.1, p.2)) (parseJSB f er.2))
     else Option.map (fun p => (c :: p.1, p.2)) (parseJSB f rest)) := rfl

theorem parseJEsc1_cons (e : Char) (rest : List Char) :
    parseJEsc1 (e :: rest) =
    (if e = 'u' then
      if 4 ≤ rest.length then
        (hexVal (rest.getD 0 ' ')).bind fun v1 =>
        (hexVal (rest.getD 1 ' ')).bind fun v2 =>
        (hexVal (rest.getD 2 ' ')).bind fun v3 =>
        (hexVal (rest.getD 3 ' ')).bind fun v4 =>
        (mkScalar (v1 * 4096 + v2 * 256 + v3 * 16 + v4)).map fun c =>
          (c, rest.drop 4)
      else none
    else (jUnescape1 e).map fun c => (c, rest)) := rfl

theorem jEscapeChar_len_pos (c : Char) : 1 ≤ (jEscapeChar c).length := by
  unfold jEscapeChar
  split_ifs <;> simp

theorem parseJSB_rt : ∀ (cs : List Char) (fuel : Nat) (rest : List Char),
    (jEscapeCs cs).length < fuel →
    parseJSB fuel (jEscapeCs cs ++ '"' :: rest) = some (cs, rest) := by
  intro cs
  induction cs with
  | nil =>
    intro fuel rest hf
    cases fuel with
    | zero => omega
    | succ f =>
      show parseJSB (f + 1) ('"' :: rest) = some ([], rest)
      rw [parseJSB_succ_cons, if_pos rfl]
  | cons c cs' ih =>
    intro fuel rest hf
    have hlen : (jEscapeCs (c :: cs')).length
        = (jEscapeChar c).length + (jEscapeCs cs').length := by
      show (jEscapeChar c ++ jEscapeCs cs').length = _
      rw [List.length_append]
    have hcpos := jEscapeChar_len_pos c
    cases fuel with
    | zero => omega
    | succ f =>
      have hf' : (jEscapeCs cs').length < f := by
        by_cases hbig : (jEscapeChar c).length = 1
        · omega
        · have h2 : 2 ≤ (jEscapeChar c).length := by omega
          omega
      show parseJSB (f + 1) ((jEscapeChar c ++ jEscapeCs cs') ++ '"' :: rest)
        = some (c :: cs', rest)
      rw [List.append_assoc]
      by_cases hq : c = '"'
      · subst hq
        rw [show jEscapeChar '"' = ['\\', '"'] from rfl,
          List.cons_append, List.cons_append, List.nil_append,
          parseJSB_succ_cons, if_neg (by decide), if_pos rfl,
          parseJEsc1_cons, if_neg (by decide),
          show jUnescape1 '"' = some '"' from rfl]
        simp only [Option.map, Option.bind]
        rw [ih f rest hf']
      · by_cases hb : c = '\\'
        · subst hb
          rw [show jEscapeChar '\\' = ['\\', '\\'] from rfl,
            List.cons_append, List.cons_append, List.nil_append,
            parseJSB_succ_cons, if_neg (by decide), if_pos rfl,
            parseJEsc1_cons, if_neg (by decide),
            show jUnescape1 '\\' = some '\\' from rfl]
          simp only [Option.map, Option.bind]
          rw [ih f rest hf']
        · by_cases h8 : c.toNat = 8
          · rw [show jEscapeChar c = ['\\', 'b'] from by
              unfold jEscapeChar
              rw [if_neg hq, if_neg hb, if_pos h8],
              List.cons_append, List.cons_append, List.nil_append,
              parseJSB_succ_cons, if_neg (by decide), if_pos rfl,
              parseJEsc1_cons, if_neg (by decide),
              show jUnescape1 'b' = some (Char.ofNat 8) from rfl,
              show Char.ofNat 8 = c from by rw [← h8]; exact Char.ofNat_toNat c]
            simp only [Option.map, Option.bind]
            rw [ih f rest hf']
          · by_cases h9 : c.toNat = 9
            · rw [show jEscapeChar c = ['\\', 't'] from by
                unfold jEscapeChar
                rw [if_neg hq, if_neg hb, if_neg h8, if_pos h9],
                List.cons_append, List.cons_append, List.nil_append,
                parseJSB_succ_cons, if_neg (by decide), if_pos rfl,
                parseJEsc1_cons, if_neg (by decide),
                show jUnescape1 't' = some (Char.ofNat 9) from rfl,
                show Char.ofNat 9 = c from by
                  rw [← h9]; exact Char.ofNat_toNat c]
              simp only [Option.map, Option.bind]
              rw [ih f rest hf']
            · by_cases h10 : c.toNat = 10
              · rw [show jEscapeChar c = ['\\', 'n'] from by
                  unfold jEscapeChar
                  rw [if_neg hq, if_neg hb, if_neg h8, if_neg h9, if_pos h10],
                  List.cons_append, List.cons_append, List.nil_append,
                  parseJSB_succ_cons, if_neg (by decide), if_pos rfl,
                  parseJEsc1_cons, if_neg (by decide),
                  show jUnescape1 'n' = some (Char.ofNat 10) from rfl,
                  show Char.ofNat 10 = c from by
                    rw [← h10]; exact Char.ofNat_toNat c]
                simp only [Option.map, Option.bind]
                rw [ih f rest hf']
              · by_cases h12 : c.toNat = 12
                · rw [show jEscapeChar c = ['\\', 'f'] from by
                    unfold jEscapeChar
                    rw [if_neg hq, if_neg hb, if_neg h8, if_neg h9,
                      if_neg h10, if_pos h12],
                    List.cons_append, List.cons_append, List.nil_append,
                    parseJSB_succ_cons, if_neg (by decide), if_pos rfl,
                    parseJEsc1_cons, if_neg (by decide),
                    show jUnescape1 'f' = some (Char.ofNat 12) from rfl,
                    show Char.ofNat 12 = c from by
                      rw [← h12]; exact Char.ofNat_toNat c]
                  simp only [Option.map, Option.bind]
                  rw [ih f rest hf']
                · by_cases h13 : c.toNat = 13
                  · rw [show jEscapeChar c = ['\\', 'r'] from by
                      unfold jEscapeChar
                      rw [if_neg hq, if_neg hb, if_neg h8, if_neg h9,
                        if_neg h10, if_neg h12, if_pos h13],
                      List.cons_append, List.cons_append, List.nil_append,
                      parseJSB_succ_cons, if_neg (by decide), if_pos rfl,
                      parseJEsc1_cons, if_neg (by decide),
                      show jUnescape1 'r' = some (Char.ofNat 13) from rfl,
                      show Char.ofNat 13 = c from by
                        rw [← h13]; exact Char.ofNat_toNat c]
                    simp only [Option.map, Option.bind]
                    rw [ih f rest hf']
                  · by_cases hctl : c.toNat < 32
                    · rw [show jEscapeChar c
                          = ['\\', 'u', '0', '0', jHexDigit (c.toNat / 16),
                             jHexDigit (c.toNat % 16)] from by
                        unfold jEscapeChar
                        rw [if_neg hq, if_neg hb, if_neg h8, if_neg h9,
                          if_neg h10, if_neg h12, if_neg h13, if_pos hctl],
                        List.cons_append, List.cons_append, List.cons_append,
                        List.cons_append, List.cons_append, List.cons_append,
                        List.nil_append, parseJSB_succ_cons,
                        if_neg (by decide), if_pos rfl, parseJEsc1_cons,
                        if_pos rfl]
                      rw [if_pos (by simp :
                        (4 : Nat) ≤ ('0' :: '0' :: jHexDigit (c.toNat / 16)
                          :: jHexDigit (c.toNat % 16)
                          :: (jEscapeCs cs' ++ '"' :: rest)).length)]
                      rw [show ('0' :: '0' :: jHexDigit (c.toNat / 16)
                          :: jHexDigit (c.toNat % 16)
                          :: (jEscapeCs cs' ++ '"' :: rest)).getD 0 ' '
                          = '0' from rfl]
                      rw [show ('0' :: '0' :: jHexDigit (c.toNat / 16)
                          :: jHexDigit (c.toNat % 16)
                          :: (jEscapeCs cs' ++ '"' :: rest)).getD 1 ' '
                          = '0' from rfl]
                      rw [show ('0' :: '0' :: jHexDigit (c.toNat / 16)
                          :: jHexDigit (c.toNat % 16)
                          :: (jEscapeCs cs' ++ '"' :: rest)).getD 2 ' '
                          = jHexDigit (c.toNat / 16) from rfl]
                      rw [show ('0' :: '0' :: jHexDigit (c.toNat / 16)
                          :: jHexDigit (c.toNat % 16)
                          :: (jEscapeCs cs' ++ '"' :: rest)).getD 3 ' '
                          = jHexDigit (c.toNat % 16) from rfl]
                      rw [show List.drop 4 ('0' :: '0'
                          :: jHexDigit (c.toNat / 16)
                          :: jHexDigit (c.toNat % 16)
                          :: (jEscapeCs cs' ++ '"' :: rest))
                          = jEscapeCs cs' ++ '"' :: rest from rfl]
                      rw [show hexVal '0' = some 0 from rfl,
                        hexVal_jHexDigit _ (by omega),
                        hexVal_jHexDigit _ (by omega)]
                      simp only [Option.bind, Option.map]
                      rw [show 0 * 4096 + 0 * 256 + c.toNat / 16 * 16
                          + c.toNat % 16 = c.toNat from by omega,
                        mkScalar_toNat]
                      simp only [Option.bind, Option.map]
                      rw [ih f rest hf']
                    · rw [show jEscapeChar c = [c] from by
                        unfold jEscapeChar
                        rw [if_neg hq, if_neg hb, if_neg h8, if_neg h9,
                          if_neg h10, if_neg h12, if_neg h13, if_neg hctl],
                        List.cons_append, List.nil_append,
                        parseJSB_succ_cons, if_neg hq, if_neg hb]
                      rw [ih f rest hf']
                      rfl

theorem parseJStringBody_rt (s : List Char) (rest : List Char) :
    parseJStringBody (jEscapeCs s ++ '"' :: rest) = some (s, rest) := by
  unfold parseJStringBody
  refine parseJSB_rt s _ rest ?_
  rw [List.length_append, List.length_cons]
  omega

theorem parseJString_render (str : String) (rest : List Char) :
    parseJString (renderJString str ++ rest) = some (str, rest) := by
  rw [show renderJString str ++ rest
      = '"' :: (jEscapeCs str.data ++ '"' :: rest) from by
    show ('"' :: jEscapeCs str.data ++ ['"']) ++ rest = _
    simp]
  rw [show parseJString ('"' :: (jEscapeCs str.data ++ '"' :: rest))
      = (parseJStringBody (jEscapeCs str.data ++ '"' :: rest)).map
        (fun p => (⟨p.1⟩, p.2)) from rfl]
  rw [parseJStringBody_rt]
  rfl

theorem parseItem_render (it : StackItem) (rest : List Char) :
    parseItem (renderItem it ++ rest) = some (it, rest) := by
  rw [show renderItem it ++ rest
      = "\x7b\"bookmark_name\":".data ++ (renderJString it.bookmark_name
        ++ (",\"pr_url\":".data ++ (renderJString it.pr_url
        ++ (",\"pr_number\":".data ++ (natChars it.pr_number
        ++ (",\"pr_title\":".data ++ (renderJString it.pr_title
        ++ ("\x7d".data ++ rest)))))))) from by
    unfold renderItem
    simp [List.append_assoc]]
  simp only [parseItem, Bind.bind]
  rw [stripPre_append]
  simp only [Option.bind]
  rw [parseJString_render]
  simp only [Option.bind]
  rw [stripPre_append]
  simp only [Option.bind]
  rw [parseJString_render]
  simp only [Option.bind]
  rw [stripPre_append]
  simp only [Option.bind]
  rw [parseNatCs_natChars _ _ (by
    intro c hc
    rw [show ((",\"pr_title\":".data ++ (renderJString it.pr_title
        ++ ("\x7d".data ++ rest))).head? : Option Char)
        = some ',' from rfl] at hc
    injection hc with hc
    rw [← hc]
    decide)]
  simp only [Option.bind]
  rw [stripPre_append]
  simp only [Option.bind]
  rw [parseJString_render]
  simp only [Option.bind]
  rw [stripPre_append]
  simp only [Option.bind]
  rfl

theorem parseItemsAux_succ (f : Nat) (cs : List Char) :
    parseItemsAux (f + 1) cs =
    (if cs.head? = some ']' then some ([], cs.drop 1)
     else
       (parseItem cs).bind fun p =>
         if p.2.head? = some ',' then
           (parseItemsAux f (p.2.drop 1)).map fun q => (p.1 :: q.1, q.2)
         else if p.2.head? = some ']' then some ([p.1], p.2.drop 1)
         else none) := rfl

theorem renderItem_len_pos (it : StackItem) : 1 ≤ (renderItem it).length := by
  unfold renderItem
  rw [List.length_append]
  have h1 : ("\x7d".data : List Char).length = 1 := rfl
  omega

theorem renderItems_len_ge :
    ∀ items : List StackItem, items.length ≤ (renderItems items).length := by
  intro items
  induction items with
  | nil => simp [renderItems]
  | cons it more ih =>
    cases more with
    | nil =>
      show (1 : Nat) ≤ (renderItem it).length
      exact renderItem_len_pos it
    | cons m more2 =>
      show (m :: more2).length + 1
        ≤ (renderItem it ++ ',' :: renderItems (m :: more2)).length
      have h1 := renderItem_len_pos it
      simp only [List.length_append, List.length_cons] at *
      omega

theorem parseItems_render :
    ∀ (items : List StackItem) (fuel : Nat) (rest : List Char),
    items.length ≤ fuel →
    parseItemsAux fuel (renderItems items ++ ']' :: rest)
      = some (items, rest) := by
  intro items
  induction items with
  | nil =>
    intro fuel rest _
    cases fuel with
    | zero => rfl
    | succ f => rfl
  | cons it more ih =>
    intro fuel rest hlen
    cases fuel with
    | zero =>
      rw [List.length_cons] at hlen
      omega
    | succ f =>
      have hlen2 : more.length ≤ f := by
        rw [List.length_cons] at hlen
        omega
      cases more with
      | nil =>
        show parseItemsAux (f + 1) (renderItem it ++ ']' :: rest)
          = some ([it], rest)
        rw [parseItemsAux_succ]
        rw [if_neg (by
          rw [show ((renderItem it ++ ']' :: rest).head? : Option Char)
              = some '\x7b' from rfl]
          decide)]
        rw [parseItem_render]
        simp only [Option.bind]
        rw [show ((']' :: rest).head? : Option Char) = some ']' from rfl]
        rw [if_neg (by decide), if_pos rfl]
        rfl
      | cons m more2 =>
        show parseItemsAux (f + 1)
          ((renderItem it ++ ',' :: renderItems (m :: more2)) ++ ']' :: rest)
          = some (it :: m :: more2, rest)
        rw [List.append_assoc, List.cons_append]
        rw [parseItemsAux_succ]
        rw [if_neg (by
          rw [show ((renderItem it ++ ',' :: (renderItems (m :: more2)
              ++ ']' :: rest)).head? : Option Char)
              = some '\x7b' from rfl]
          decide)]
        rw [parseItem_render]
        simp only [Option.bind]
        rw [show ((',' :: (renderItems (m :: more2)
            ++ ']' :: rest)).head? : Option Char) = some ',' from rfl]
        rw [if_pos rfl]
        rw [show (',' :: (renderItems (m :: more2) ++ ']' :: rest)).drop 1
            = renderItems (m :: more2) ++ ']' :: rest from rfl]
        rw [ih f rest hlen2]
        rfl

theorem parseData_render (d : StackCommentData) :
    parseData (renderData d) = some d := by
  rw [show renderData d
      = "\x7b\"version\":".data ++ (natChars d.version
        ++ (",\"stack\":[".data ++ (renderItems d.stack
        ++ (']' :: (",\"base_branch\":".data
        ++ (renderJString d.base_branch ++ "\x7d".data)))))) from by
    unfold renderData
    rw [show ("],\"base_branch\":".data : List Char)
        = ']' :: ",\"base_branch\":".data from rfl]
    simp [List.append_assoc]]
  simp only [parseData, Bind.bind]
  rw [stripPre_append]
  simp only [Option.bind]
  rw [parseNatCs_natChars _ _ (by
    intro c hc
    rw [show ((",\"stack\":[".data ++ (renderItems d.stack
        ++ (']' :: (",\"base_branch\":".data
        ++ (renderJString d.base_branch ++ "\x7d".data))))).head?
        : Option Char) = some ',' from rfl] at hc
    injection hc with hc
    rw [← hc]
    decide)]
  simp only [Option.bind]
  rw [stripPre_append]
  simp only [Option.bind]
  rw [parseItems_render d.stack _ _ (by
    have h1 := renderItems_len_ge d.stack
    rw [List.length_append, List.length_cons]
    omega)]
  simp only [Option.bind]
  rw [stripPre_append]
  simp only [Option.bind]
  rw [parseJString_render]
  simp only [Option.bind]
  rfl

theorem b64Char_ne_space (k : Nat) : b64Char k ≠ ' ' := by
  by_cases h : k < 64
  · have hb : ∀ k2, k2 < 64 → b64Char k2 ≠ ' ' := by decide
    exact hb k h
  · unfold b64Char
    rw [List.getD_eq_default _ _ (by
      have hlen : b64Alphabet.length = 64 := rfl
      omega)]
    decide

theorem base64Encode_no_space :
    ∀ (n : Nat) (bytes : List Nat), bytes.length ≤ n →
    ∀ c ∈ base64Encode bytes, ¬ c = ' ' := by
  intro n
  induction n with
  | zero =>
    intro bytes hlen c hc
    have h0 : bytes = [] := List.eq_nil_of_length_eq_zero (by omega)
    subst h0
    cases hc
  | succ n ih =>
    intro bytes hlen c hc
    match bytes with
    | [] => cases hc
    | [a] =>
      rcases hc with _ | ⟨_, _ | ⟨_, _ | ⟨_, _ | ⟨_, h⟩⟩⟩⟩
      · exact b64Char_ne_space _
      · exact b64Char_ne_space _
      · decide
      · decide
      · cases h
    | [a, b] =>
      rcases hc with _ | ⟨_, _ | ⟨_, _ | ⟨_, _ | ⟨_, h⟩⟩⟩⟩
      · exact b64Char_ne_space _
      · exact b64Char_ne_space _
      · exact b64Char_ne_space _
      · decide
      · cases h
    | a :: b :: c2 :: rest =>
      rcases hc with _ | ⟨_, _ | ⟨_, _ | ⟨_, _ | ⟨_, h⟩⟩⟩⟩
      · exact b64Char_ne_space _
      · exact b64Char_ne_space _
      · exact b64Char_ne_space _
      · exact b64Char_ne_space _
      · exact ih rest (by
          simp only [List.length_cons] at hlen
          omega) c (by exact h)

theorem utf8EncodeChar_lt (c : Char) : ∀ b ∈ utf8EncodeChar c, b < 256 := by
  have hvr : c.toNat < 0xd800
      ∨ (0xdfff < c.toNat ∧ c.toNat < 0x110000) := c.valid
  intro b hb
  unfold utf8EncodeChar at hb
  by_cases h1 : c.toNat < 0x80
  · rw [if_pos h1] at hb
    rcases hb with _ | ⟨_, h⟩
    · omega
    · cases h
  · rw [if_neg h1] at hb
    by_cases h2 : c.toNat < 0x800
    · rw [if_pos h2] at hb
      rcases hb with _ | ⟨_, _ | ⟨_, h⟩⟩
      · omega
      · omega
      · cases h
    · rw [if_neg h2] at hb
      by_cases h3 : c.toNat < 0x10000
      · rw [if_pos h3] at hb
        rcases hb with _ | ⟨_, _ | ⟨_, _ | ⟨_, h⟩⟩⟩
        · omega
        · omega
        · omega
        · cases h
      · rw [if_neg h3] at hb
        rcases hb with _ | ⟨_, _ | ⟨_, _ | ⟨_, _ | ⟨_, h⟩⟩⟩⟩
        · omega
        · omega
        · omega
        · omega
        · cases h

theorem utf8Encode_bytes_lt :
    ∀ cs : List Char, ∀ b ∈ utf8EncodeCs cs, b < 256 := by
  intro cs
  induction cs with
  | nil => intro b hb; cases hb
  | cons c rest ih =>
    intro b hb
    rcases List.mem_append.mp hb with hm | hm
    · exact utf8EncodeChar_lt c b hm
    · exact ih b hm

theorem startsWithCs_self_append :
    ∀ (needle x : List Char), startsWithCs (needle ++ x) needle = true := by
  intro needle
  induction needle with
  | nil =>
    intro x
    rw [List.nil_append]
    cases x <;> rfl
  | cons c cs ih =>
    intro x
    rw [List.cons_append]
    show (c == c && startsWithCs (cs ++ x) cs) = true
    rw [ih x]
    simp

theorem decode_data_level (d : StackCommentData) (suffix : List Char)
    (body : String)
    (hbody : body.data = commentDataHead.data
      ++ (base64Encode (utf8EncodeCs (renderData d))
        ++ (commentDataTail.data ++ suffix))) :
    decodeStackComment body = some d := by
  have hnos : ∀ c ∈ base64Encode (utf8EncodeCs (renderData d)),
      ((c ≠ ' ' : Prop) : Bool) = true := by
    intro c hc
    exact decide_eq_true
      (base64Encode_no_space (utf8EncodeCs (renderData d)).length _
        (Nat.le_refl _) c hc)
  have hhead : ∀ c : Char,
      (commentDataTail.data ++ suffix).head? = some c →
      ((c ≠ ' ' : Prop) : Bool) = false := by
    intro c hc
    rw [show ((commentDataTail.data ++ suffix).head? : Option Char)
        = some ' ' from rfl] at hc
    injection hc with hc
    rw [← hc]
    decide
  simp only [decodeStackComment, Bind.bind]
  rw [hbody, stripPre_append]
  simp only [Option.bind]
  rw [takeWhile_append_all _ _ _ hnos, takeWhile_head_false _ _ hhead,
    List.append_nil, dropWhile_append_all _ _ _ hnos,
    dropWhile_head_false _ _ hhead]
  rw [startsWithCs_self_append, if_pos rfl]
  rw [base64_rt _ (utf8Encode_bytes_lt (renderData d))]
  simp only [Option.bind]
  rw [utf8_rt]
  simp only [Option.bind]
  exact parseData_render d

theorem decode_format_rt (data : StackCommentData) (idx : Nat) :
    decodeStackComment (format_stack_comment data idx) = some data := by
  refine decode_data_level data
    ("\n".data ++ ((String.join ((data.stack.reverse.enum).map (fun p =>
        if p.1 = data.stack.length - 1 - idx then
          "* **" ++ p.2.pr_title ++ " #" ++ toString p.2.pr_number ++ " "
            ++ stackCommentThisPr ++ "**\n"
        else
          "* " ++ p.2.pr_title ++ " #" ++ toString p.2.pr_number
            ++ "\n"))).data
      ++ ("* `".data ++ (data.base_branch.data ++ ("`\n".data
      ++ ("\n---\nThis stack of pull requests is managed by [jj-ryu](https://github.com/dmmulroy/jj-ryu).".data))))))
    (format_stack_comment data idx) ?_
  unfold format_stack_comment
  simp [String.data_append, List.append_assoc]

/-! ## Claim C5 -/

/-- C5: stack-comment payload round trip.  For every manifest built by
`build_stack_comment_data` from a plan and PR map, and every current index:
decoding the formatted stack-comment body — stripping the fixed comment
sentinels around the payload, base64-decoding it and parsing the JSON —
yields exactly the manifest that was built, all field values intact. -/
theorem c5_stack_comment_roundtrip (plan : SubmissionPlan)
    (bookmark_to_pr : List (String × PullRequest)) (idx : Nat) :
    decodeStackComment (format_stack_comment
      (build_stack_comment_data plan bookmark_to_pr) idx)
      = some (build_stack_comment_data plan bookmark_to_pr) :=
  decode_format_rt (build_stack_comment_data plan bookmark_to_pr) idx

def c5bm : Bookmark :=
  { name := "r", commit_id := "rc", change_id := "rch",
    has_remote := true, is_synced := true }

def c5pr : PullRequest :=
  { number := 21, html_url := "https://x/21", base_ref := "main",
    head_ref := "r", title := "Round \"trip\" ✓", node_id := none,
    is_draft := false }

def c5plan : SubmissionPlan :=
  { segments := [{ bookmark := c5bm, changes := [] }], constraints := [],
    execution_steps := [], existing_prs := [("r", c5pr)],
    remote := "origin", default_branch := "main" }

/-- C5 witness: the round trip evaluated on a concrete one-item manifest. -/
theorem c5_stack_comment_roundtrip_witness :
    decodeStackComment (format_stack_comment
      (build_stack_comment_data c5plan [("r", c5pr)]) 0)
      = some (build_stack_comment_data c5plan [("r", c5pr)]) :=
  c5_stack_comment_roundtrip c5plan [("r", c5pr)] 0

end JjRyu
